import Mathlib

/-!
Verification of the index-notes reconciliation engine (`src/indexer.ts`).

Documents and their raw text are modelled as `List Char`; the JavaScript
regular expressions used by the engine are embedded as executable
character-level matchers that mirror the semantics of the concrete
patterns appearing in the source (`getBlockRegex`, the marker pattern
`\^indexof-(?:[a-zA-Z0-9]+-?)+`, and the tag-stripping pattern of
`IndexUpdater.scan`).  JavaScript numbers that the code truncates with
`|0` are modelled as `Int` with explicit two's-complement wrapping.
-/

namespace IndexNotes

/-! ## Basic character classes (JavaScript `\s`, line terminators, `.`) -/

/-- Line terminators recognised by JavaScript regexes (`\n`, `\r`, U+2028, U+2029). -/
def isLineTerm (c : Char) : Bool :=
  c = '\n' || c = '\r' || c = '\u2028' || c = '\u2029'

/-- Whitespace recognised by JavaScript `\s` (and by `String.prototype.trim`):
space, tab, line terminators, vertical tab, form feed, NBSP, BOM and the
Unicode space separators. -/
def isJsWs (c : Char) : Bool :=
  c = ' ' || c = '\t' || c = '\n' || c = '\r' || c = '\x0b' || c = '\x0c' ||
  c = '\u00a0' || c = '\ufeff' || c = '\u1680' ||
  ('\u2000' ≤ c && c ≤ '\u200a') ||
  c = '\u2028' || c = '\u2029' || c = '\u202f' || c = '\u205f' || c = '\u3000'

/-- ASCII letters and digits, the character class `[a-zA-Z0-9]`. -/
def isAlnum (c : Char) : Bool :=
  ('a' ≤ c && c ≤ 'z') || ('A' ≤ c && c ≤ 'Z') || ('0' ≤ c && c ≤ '9')

/-- ASCII letters, the character class `[a-zA-Z]`. -/
def isAsciiLetter (c : Char) : Bool :=
  ('a' ≤ c && c ≤ 'z') || ('A' ≤ c && c ≤ 'Z')

/-- The literal `[!example]` searched for by `getBlockRegex`. -/
def exampleLit : List Char := '[' :: '!' :: 'e' :: 'x' :: 'a' :: 'm' :: 'p' :: 'l' :: 'e' :: [']']

/-- The literal `^indexof-` that starts every block reference. -/
def indexofLit : List Char := '^' :: 'i' :: 'n' :: 'd' :: 'e' :: 'x' :: 'o' :: 'f' :: ['-']

/-! ## The rolling string hash (`stringHash`)

`stringHash` folds `hash = ((hash << 5) - hash) + chr; hash |= 0` over the
UTF-16 code units of its argument and renders the resulting signed 32-bit
integer in decimal.  `<<` and `|0` truncate to a signed 32-bit integer. -/

/-- Two's-complement truncation of an integer to a signed 32-bit value,
the effect of JavaScript's `|0` (`ToInt32`). -/
def toInt32 (x : Int) : Int :=
  let m := x % 4294967296
  if m < 2147483648 then m else m - 4294967296

/-- One step of the hash loop as written in the source:
`hash = ((hash << 5) - hash) + chr` followed by `hash |= 0`, where `<<`
itself truncates its result to a signed 32-bit integer. -/
def stringHashStep (hash : Int) (chr : Nat) : Int :=
  toInt32 (toInt32 (hash * 32) - hash + chr)

/-- `stringHash` on a list of UTF-16 code units: fold the step over the
units starting from 0, then render in decimal with `String(hash)`. -/
def stringHash (units : List Nat) : String :=
  toString (units.foldl stringHashStep 0)

/-- The specification's step: `hash = hash * 31 + charCode`, wrapped each
step to a signed 32-bit integer. -/
def specHashStep (hash : Int) (chr : Nat) : Int :=
  toInt32 (hash * 31 + chr)

/-- The specification's fingerprint primitive: the decimal rendering of the
fold of `specHashStep` over the code units, starting from 0. -/
def specStringHash (units : List Nat) : String :=
  toString (units.foldl specHashStep 0)

/-! ## Tag formatting (`formatTagWord`, `capitalizeFirst`, `tagToHeader`) -/

/-- JavaScript `toUpperCase`, modelled character-wise (`Char.toUpper` agrees
with it on ASCII, which is all the engine's canonicalized tags contain). -/
def toUpperList (l : List Char) : List Char := l.map Char.toUpper

/-- JavaScript `toLowerCase`, modelled character-wise. -/
def toLowerList (l : List Char) : List Char := l.map Char.toLower

/-- `formatTagWord`: a word starting with `_` is upper-cased with the
underscore stripped, any other word is returned unchanged. -/
def formatTagWord (w : List Char) : List Char :=
  match w with
  | [] => []
  | c :: rest => if c = '_' then toUpperList rest else c :: rest

/-- `capitalizeFirst`: `s.charAt(0).toUpperCase() + s.slice(1)`. -/
def capitalizeFirst (s : List Char) : List Char :=
  match s with
  | [] => []
  | c :: rest => c.toUpper :: rest

/-- JavaScript `String.prototype.split` with a single-character separator. -/
def splitOnChar (sep : Char) : List Char → List (List Char)
  | [] => [[]]
  | c :: rest =>
    if c = sep then [] :: splitOnChar sep rest
    else
      match splitOnChar sep rest with
      | [] => [[c]]
      | w :: ws => (c :: w) :: ws

/-- `Array.prototype.join(' ')`. -/
def joinWords : List (List Char) → List Char
  | [] => []
  | [w] => w
  | w :: ws => w ++ ' ' :: joinWords ws

/-- `Array.prototype.join(' / ')`. -/
def joinComponents : List (List Char) → List Char
  | [] => []
  | [w] => w
  | w :: ws => w ++ ' ' :: '/' :: ' ' :: joinComponents ws

/-- The body of the `map` in `tagToHeader`: `word` is dropped if empty,
upper-cased (via `formatTagWord('_' + word)`) when the previous split
element was empty, and otherwise formatted as-is. -/
def formatWordAt (prev : Option (List Char)) (word : List Char) : List Char :=
  if word = [] then []
  else if prev = some [] then formatTagWord ('_' :: word)
  else formatTagWord word

/-- Whether the element before the current one exists and is empty
(`index > 0 && arr[index - 1] === ''`). -/
def prevIsEmpty (prev : Option (List Char)) : Bool := prev = some []

/-- The `map((word, index, arr) => ...)` of `tagToHeader`, which consults
`arr[index - 1]`: modelled by carrying the previous raw element. -/
def mapWithPrev (prev : Option (List Char)) : List (List Char) → List (List Char)
  | [] => []
  | w :: ws => formatWordAt prev w :: mapWithPrev (some w) ws

/-- One `/`-component of `tagToHeader`: split on `_`, format each word,
drop empties, join with spaces and capitalize the first letter. -/
def tagComponentHeader (component : List Char) : List Char :=
  capitalizeFirst (joinWords ((mapWithPrev none (splitOnChar '_' component)).filter (· ≠ [])))

/-- `tagToHeader`: format every `/`-component and join with `" / "`. -/
def tagToHeader (t : List Char) : List Char :=
  joinComponents ((splitOnChar '/' t).map tagComponentHeader)

/-- The specification's acronym walk (`formatAsHeading`, spec §4.1): after
splitting a component on `_`, an empty split element marks the following
sub-word as an acronym to be rendered fully upper-case; empty elements are
dropped and all other sub-words are kept as-is. -/
def specAcronymWalk (prevEmpty : Bool) : List (List Char) → List (List Char)
  | [] => []
  | w :: ws =>
    if w = [] then specAcronymWalk true ws
    else (if prevEmpty then toUpperList w else w) :: specAcronymWalk false ws

/-- The specification's `formatAsHeading` on one `/`-component. -/
def specComponentHeading (component : List Char) : List Char :=
  capitalizeFirst (joinWords (specAcronymWalk false (splitOnChar '_' component)))

/-- The specification's `formatAsHeading`: components split on `/`, each
formatted and capitalized, joined with `" / "`. -/
def specFormatAsHeading (t : List Char) : List Char :=
  joinComponents ((splitOnChar '/' t).map specComponentHeading)

/-! ## Tag canonicalization and the scan's tag classification -/

/-- JavaScript `String.prototype.trim`. -/
def jsTrim (l : List Char) : List Char :=
  ((l.dropWhile isJsWs).reverse.dropWhile isJsWs).reverse

/-- `.replace(/^\/|\/$/g, '')`: remove one leading and one trailing slash. -/
def stripSlashes (l : List Char) : List Char :=
  let l1 := match l with
    | '/' :: rest => rest
    | _ => l
  match l1.getLast? with
  | some '/' => l1.dropLast
  | _ => l1

/-- `canonicalizeTag` on a string input: trim, lower-case, strip one
leading and one trailing `/`. -/
def canonicalizeTag (l : List Char) : List Char :=
  stripSlashes (toLowerList (jsTrim l))

/-- `getLastTagComponent`: the last `/`-delimited segment. -/
def getLastTagComponent (t : List Char) : List Char :=
  (splitOnChar '/' t).getLastD []

/-- `filenameToHeader`: capitalize the part of the file name before the
first `.`. -/
def filenameToHeader (filename : List Char) : List Char :=
  capitalizeFirst ((splitOnChar '.' filename).headD [])

/-- The scan's tag-stripping replace,
`.replace(new RegExp("(?:^|(?:\/))(?:IDX)|(?:META)$"), "")`, embedded for
literal (regex-metacharacter-free) configured tag names.  The alternation
binds the whole left side, so the pattern is `(start-or-slash followed by
IDX) or (META at end of string)`; the replace is non-global, so only the
leftmost match is removed, and at a given position the left alternative is
preferred. -/
def stripIndexTags (idxTag metaTag : List Char) : Bool → List Char → List Char
  | isStart, s =>
    if isStart ∧ idxTag.isPrefixOf s then s.drop idxTag.length
    else
      match s with
      | [] => []
      | c :: rest =>
        if c = '/' ∧ idxTag.isPrefixOf rest then rest.drop idxTag.length
        else if c :: rest = metaTag then []
        else c :: stripIndexTags idxTag metaTag false rest

/-! ## The hierarchy tree (`Node`) -/

/-- A document handle: its vault path and file name (`TFile.path`,
`TFile.name`).  Documents are compared by these fields, which are unique
within one scan. -/
structure Doc where
  path : List Char
  name : List Char
deriving DecidableEq, Repr

/-- One node of the tag-hierarchy tree: canonical tag path, optional
header note, the four document buckets and the child nodes. -/
inductive Node where
  | mk (tagPath : List Char) (headerNote : Option Doc)
       (regularNotes priorityNotes indexNotes indexPriorityNotes : List Doc)
       (children : List Node)

def Node.tagPath : Node → List Char
  | .mk tp _ _ _ _ _ _ => tp

def Node.headerNote : Node → Option Doc
  | .mk _ h _ _ _ _ _ => h

def Node.regularNotes : Node → List Doc
  | .mk _ _ r _ _ _ _ => r

def Node.priorityNotes : Node → List Doc
  | .mk _ _ _ p _ _ _ => p

def Node.indexNotes : Node → List Doc
  | .mk _ _ _ _ i _ _ => i

def Node.indexPriorityNotes : Node → List Doc
  | .mk _ _ _ _ _ ip _ => ip

def Node.children : Node → List Node
  | .mk _ _ _ _ _ _ cs => cs

/-- `new Node(tagPath, ...)`: the constructor canonicalizes the path and
starts with empty buckets. -/
def Node.new (tagPath : List Char) : Node :=
  .mk (canonicalizeTag tagPath) none [] [] [] [] []

/-- `tagComponent()`: the last component of the node's tag path. -/
def Node.tagComponent (n : Node) : List Char :=
  getLastTagComponent n.tagPath

/-- `addNoteWithPath`, with explicit recursion fuel (one unit per tree
level; any fuel larger than the component count of the path is enough).
Classifies the note into a bucket when the path matches this node,
otherwise descends into (or lazily creates) the child for the next path
component.  Returns the updated node and the success flag. -/
def addNoteWithPath : Nat → Node → List Char → Doc → Bool → Bool → Node × Bool
  | 0, n, _, _, _, _ => (n, false)
  | fuel + 1, Node.mk tp hdr reg pri idx idxp cs, tagPath0, note, hasPriority, isIndex =>
    let tagPath := canonicalizeTag tagPath0
    if tagPath = tp then
      if isIndex ∧ hasPriority then (Node.mk tp hdr reg pri idx (idxp ++ [note]) cs, true)
      else if isIndex then (Node.mk tp hdr reg pri (idx ++ [note]) idxp cs, true)
      else if filenameToHeader note.name = tagToHeader (getLastTagComponent tp) then
        (Node.mk tp (some note) reg pri idx idxp cs, true)
      else if hasPriority then (Node.mk tp hdr reg (pri ++ [note]) idx idxp cs, true)
      else (Node.mk tp hdr (reg ++ [note]) pri idx idxp cs, true)
    else if tp.isPrefixOf tagPath then
      let nextComponent := (splitOnChar '/' (canonicalizeTag (tagPath.drop tp.length))).headD []
      match cs.findIdx? (fun c => Node.tagComponent c == nextComponent) with
      | some i =>
        match cs[i]? with
        | some child =>
          let r := addNoteWithPath fuel child tagPath note hasPriority isIndex
          (Node.mk tp hdr reg pri idx idxp (cs.set i r.1), r.2)
        | none => (Node.mk tp hdr reg pri idx idxp cs, false)
      | none =>
        let nextTagPath := if tp = [] then nextComponent else tp ++ '/' :: nextComponent
        let r := addNoteWithPath fuel (Node.new nextTagPath) tagPath note hasPriority isIndex
        (Node.mk tp hdr reg pri idx idxp (cs ++ [r.1]), r.2)
    else (Node.mk tp hdr reg pri idx idxp cs, false)

/-- `findChildNode`, with the same fuel convention: descend along the
path's components without creating nodes; absent paths give `none`. -/
def findChildNode : Nat → Node → List Char → Option Node
  | 0, _, _ => none
  | fuel + 1, n, tagPath0 =>
    let tagPath := canonicalizeTag tagPath0
    if tagPath = n.tagPath then some n
    else if n.tagPath.isPrefixOf tagPath then
      let nextComponent := (splitOnChar '/' (canonicalizeTag (tagPath.drop n.tagPath.length))).headD []
      match n.children.find? (fun c => Node.tagComponent c == nextComponent) with
      | some child => findChildNode fuel child tagPath
      | none => none
    else none

/-- One iteration of the scan's per-tag loop (`IndexUpdater.scan`): skip
empty canonical tags, compute `cleanTagPath` with the stripping replace,
and register the note into the tree — as an index carrier when the last
canonical component equals the configured index or meta-index tag name,
and as a regular/priority document (under `cleanTagPath`) otherwise. -/
def scanRegisterTag (idxTag metaTag : List Char) (root : Node) (note : Doc)
    (hasPriorityTag : Bool) (tag : List Char) : Node :=
  let canonicalTag := canonicalizeTag tag
  if canonicalTag = [] then root
  else
    let cleanTagPath := canonicalizeTag (stripIndexTags idxTag metaTag true canonicalTag)
    let fuel := (splitOnChar '/' cleanTagPath).length + 1
    if getLastTagComponent canonicalTag = idxTag then
      (addNoteWithPath fuel root cleanTagPath note hasPriorityTag true).1
    else if getLastTagComponent canonicalTag = metaTag then
      (addNoteWithPath fuel root cleanTagPath note hasPriorityTag true).1
    else
      (addNoteWithPath fuel root cleanTagPath note hasPriorityTag false).1

/-! ## The locale-aware comparator and `sortAll` -/

/-- The allow-list of `sortable`'s character class: ASCII letters and
digits, space, `\r`, `\n`, and the explicit set of symbols, accented Latin
and Greek letters listed in the source's regex. -/
def sortableKeep (c : Char) : Bool :=
  isAlnum c || c = ' ' || c = '\r' || c = '\n' || c = '@' ||
  c = '£' || c = '$' || c = '¥' ||
  c = 'è' || c = 'é' || c = 'ù' || c = 'ì' || c = 'ò' ||
  c = 'Ç' || c = 'Ø' || c = 'ø' || c = 'Å' || c = 'å' ||
  c = 'Δ' || c = 'Φ' || c = 'Γ' || c = 'Λ' || c = 'Ω' ||
  c = 'Π' || c = 'Θ' || c = 'Σ' || c = 'Ξ' ||
  c = 'Æ' || c = 'æ' || c = 'ß' || c = 'É' ||
  c = '!' || c = '"' || c = '#' || c = '%' || c = '&' || c = '\'' ||
  c = '(' || c = ')' || c = '*' || c = '+' || c = ',' || c = '-' || c = '.' ||
  c = '/' || c = ':' || c = ';' || c = '<' || c = '=' || c = '>' || c = '?' ||
  c = '¡' || c = 'Ä' || c = 'Ö' || c = 'Ñ' || c = 'Ü' ||
  c = '§' || c = '¿' ||
  c = 'ä' || c = 'ö' || c = 'ñ' || c = 'ü' || c = 'à' ||
  c = '^' || c = '\x7b' || c = '\x7d' || c = '[' || c = '~' || c = ']' ||
  c = '|' || c = '€' || c = '\\'

/-- `sortable`: strip all characters outside the allow-list, trim,
lower-case. -/
def sortable (s : List Char) : List Char :=
  toLowerList (jsTrim (s.filter sortableKeep))

/-- `compareStrings`: locale comparison of the sortable projections.  The
host's `localeCompare` is the collaborator-provided comparison `lc`. -/
def compareStrings (lc : List Char → List Char → Int) (a b : List Char) : Int :=
  lc (sortable a) (sortable b)

/-- JavaScript `Array.prototype.sort` with a consistent comparator is the
(unique) stable sort by `cmp ≤ 0`; modelled by insertion sort. -/
def jsSortBy {α : Type} (cmp : α → α → Int) (l : List α) : List α :=
  @List.insertionSort α (fun a b => cmp a b ≤ 0) (fun a b => Int.decLe (cmp a b) 0) l

/-- A concrete locale comparison used to instantiate the collaborator
parameter: lexicographic comparison by code point. -/
def lcDefault (a b : List Char) : Int :=
  if a < b then -1 else if a = b then 0 else 1

/-- The comparator `(a, b) => compareStrings(a.name, b.name)` used for the
document buckets. -/
def docCmp (lc : List Char → List Char → Int) (a b : Doc) : Int :=
  compareStrings lc a.name b.name

/-- The comparator `(a, b) => compareStrings(tagToHeader(a.tagComponent()),
tagToHeader(b.tagComponent()))` used for the children list. -/
def childCmp (lc : List Char → List Char → Int) (a b : Node) : Int :=
  compareStrings lc (tagToHeader a.tagComponent) (tagToHeader b.tagComponent)

/-- `sortAll()`: sort `priorityNotes`, `regularNotes` and `indexNotes` by
name, sort the children by their formatted tag-component heading, then
recurse into every child.  (`indexPriorityNotes` is not touched.) -/
def sortAllNode (lc : List Char → List Char → Int) : Node → Node
  | .mk tp hdr reg pri idx idxp cs =>
    let sortedCs := jsSortBy (childCmp lc) cs
    .mk tp hdr (jsSortBy (docCmp lc) reg) (jsSortBy (docCmp lc) pri)
      (jsSortBy (docCmp lc) idx) idxp
      (sortedCs.attach.map (fun c => sortAllNode lc c.1))
  termination_by n => sizeOf n
  decreasing_by
    have h1 := c.2
    simp only [jsSortBy] at h1
    have h2 := (List.perm_insertionSort _ _).mem_iff.mp h1
    have h3 := List.sizeOf_lt_of_mem h2
    simp only [Node.mk.sizeOf_spec]
    omega

/-- Hereditary sortedness: the three sorted buckets are sorted by the
document comparator, the children are sorted by the heading comparator,
and every child is hereditarily sorted. -/
def SortedTree (lc : List Char → List Char → Int) : Node → Prop
  | .mk _ _ reg pri idx _ cs =>
    List.Sorted (fun a b => docCmp lc a b ≤ 0) pri ∧
    List.Sorted (fun a b => docCmp lc a b ≤ 0) reg ∧
    List.Sorted (fun a b => docCmp lc a b ≤ 0) idx ∧
    List.Sorted (fun a b => childCmp lc a b ≤ 0) cs ∧
    ∀ c ∈ cs, SortedTree lc c
  termination_by n => sizeOf n
  decreasing_by
    rename_i hmem
    have h3 := List.sizeOf_lt_of_mem hmem
    simp only [Node.mk.sizeOf_spec]
    omega

/-! ## Rendering (`Node.getIndex`) -/

/-- The document-store collaborator functions consumed by the renderer:
`app.fileManager.generateMarkdownLink` and the frontmatter title lookup,
plus the `show_note_title` setting. -/
structure RenderEnv where
  mkLink : Doc → List Char → List Char → List Char
  titleOf : Doc → Option (List Char)
  showNoteTitle : Bool

/-- `getNoteTitle`: empty when the note has no (string) title, otherwise
the prefix followed by the title truncated to 50 characters with an
ellipsis. -/
def getNoteTitle (env : RenderEnv) (note : Doc) (pre : List Char) : List Char :=
  match env.titleOf note with
  | none => []
  | some t => if t = [] then [] else pre ++ (if 50 < t.length then t.take 50 ++ ('.' :: '.' :: ['.']) else t)

/-- The markdown link rendered for one note:
`generateMarkdownLink(note, indexNote.path, undefined, filenameToHeader(note.name))`. -/
def noteLinkText (env : RenderEnv) (target : Doc) (note : Doc) : List Char :=
  env.mkLink note target.path (filenameToHeader note.name)

/-- The optional `": title"` suffix of a list line. -/
def noteTitleText (env : RenderEnv) (note : Doc) : List Char :=
  if env.showNoteTitle then getNoteTitle env note (':' :: [' ']) else []

/-- One document list line of `getIndex`:
`> ${'\t'.repeat(lvl)}- ${bold}${mdLink}${title}${bold}\n`, bold iff the
note is in the node's priority bucket. -/
def bucketLine (env : RenderEnv) (pri : List Doc) (target : Doc) (lvl : Nat) (note : Doc) :
    List Char :=
  ('>' :: ' ' :: List.replicate lvl '\t') ++ ('-' :: ' ' :: []) ++
  (if note ∈ pri then '*' :: '*' :: [] else []) ++ noteLinkText env target note ++
  noteTitleText env note ++ (if note ∈ pri then '*' :: '*' :: [] else []) ++ ['\n']

/-- The bold child heading line of `getIndex`: the child's header-note link
when present and non-empty, else its formatted tag-component heading. -/
def childHeaderLine (env : RenderEnv) (target : Doc) (lvl : Nat) (child : Node) : List Char :=
  let mdLink := match child.headerNote with
    | some h => env.mkLink h target.path (filenameToHeader h.name)
    | none => []
  ('>' :: ' ' :: List.replicate lvl '\t') ++ ('-' :: ' ' :: '*' :: '*' :: []) ++
  (if mdLink = [] then tagToHeader child.tagComponent else mdLink) ++ ('*' :: '*' :: ['\n'])

/-- `Node.getIndex`: the concatenated list lines of the priority, regular
and index buckets (excluding the target document itself), followed, for
each child, by its bold heading line and its recursive rendering one
indent level deeper. -/
def getIndex (env : RenderEnv) : Node → Doc → Nat → List Char
  | .mk _ _ reg pri idx _ cs, target, lvl =>
    let bucketTxt := (((pri ++ reg ++ idx).filter (fun note => note.path ≠ target.path)).map
        (bucketLine env pri target lvl)).flatten
    let childTxt := (cs.attach.map (fun c =>
        childHeaderLine env target lvl c.1 ++ getIndex env c.1 target (lvl + 1))).flatten
    bucketTxt ++ childTxt
  termination_by n _ _ => sizeOf n
  decreasing_by
    have h3 := List.sizeOf_lt_of_mem c.2
    simp only [Node.mk.sizeOf_spec]
    omega

/-! ## Fingerprints and the update short circuit -/

/-- `Array.prototype.join()` — the default separator is a comma. -/
def joinComma : List (List Char) → List Char
  | [] => []
  | [w] => w
  | w :: ws => w ++ ',' :: joinComma ws

/-- `Array.prototype.join('|')`. -/
def joinPipe : List (List Char) → List Char
  | [] => []
  | [w] => w
  | w :: ws => w ++ '|' :: joinPipe ws

/-- UTF-16 code units of a string (all characters in play are in the BMP). -/
def strUnits (l : List Char) : List Nat := l.map Char.toNat

/-- `stringHash` applied to a string given as a character list. -/
def stringHashChars (l : List Char) : String := stringHash (strUnits l)

/-- `getAllNotes()`: priority bucket, then regular bucket, then the header
note when present. -/
def Node.getAllNotes (n : Node) : List Doc :=
  match n.headerNote with
  | some h => n.priorityNotes ++ n.regularNotes ++ [h]
  | none => n.priorityNotes ++ n.regularNotes

/-- `Node.getHash`: hash of the joined note paths, the node's tag path and
the children's hashes. -/
def Node.getHash : Node → String
  | .mk tp hdr reg pri idx idxp cs =>
    stringHashChars
      (joinComma ((Node.mk tp hdr reg pri idx idxp cs).getAllNotes.map (fun d => d.path))
        ++ tp ++ joinComma (cs.attach.map (fun c => (Node.getHash c.1).toList)))
  termination_by n => sizeOf n
  decreasing_by
    have h3 := List.sizeOf_lt_of_mem c.2
    simp only [Node.mk.sizeOf_spec]
    omega

/-- An index-note descriptor (`IndexNote`): the document plus the index
and meta-index tag paths it should render. -/
structure IndexNoteDesc where
  note : Doc
  indexTags : List (List Char)
  metaIndexTags : List (List Char)

/-- The comparator of `sortIndexTags`: `compareStrings` on the last tag
components. -/
def tagSortCmp (lc : List Char → List Char → Int) (a b : List Char) : Int :=
  compareStrings lc (getLastTagComponent a) (getLastTagComponent b)

/-- `sortIndexTags()`: sort both tag lists by last component. -/
def IndexNoteDesc.sortTags (lc : List Char → List Char → Int) (d : IndexNoteDesc) :
    IndexNoteDesc :=
  ⟨d.note, jsSortBy (tagSortCmp lc) d.indexTags, jsSortBy (tagSortCmp lc) d.metaIndexTags⟩

/-- `IndexNote.getHash`: sort the tags, then hash
`INDEX:<n><tags.join()>META:<m><tags.join()>`. -/
def IndexNoteDesc.getHash (lc : List Char → List Char → Int) (d : IndexNoteDesc) : String :=
  let ds := d.sortTags lc
  stringHashChars ("INDEX:".toList ++ (toString ds.indexTags.length).toList
    ++ joinComma ds.indexTags ++ "META:".toList ++ (toString ds.metaIndexTags.length).toList
    ++ joinComma ds.metaIndexTags)

/-- `IndexSchema`: the scan's output — descriptors, root node and the
path → content-hash map (in insertion order). -/
structure IndexSchema where
  indexNotes : List IndexNoteDesc
  rootNode : Node
  indexNoteContents : List (List Char × String)

/-- `IndexSchema.getHash`: the structural hash (root node hash plus all
descriptor hashes) combined with the sorted `path:contentHash` entries. -/
def IndexSchema.getHash (lc : List Char → List Char → Int) (s : IndexSchema) : String :=
  let structureHash := (Node.getHash s.rootNode).toList
    ++ joinComma (s.indexNotes.map (fun d => (d.getHash lc).toList))
  let entriesSorted := jsSortBy (fun p q : List Char × String => lc p.1 q.1) s.indexNoteContents
  let contentHashes := joinPipe (entriesSorted.map (fun pq => pq.1 ++ ':' :: pq.2.toList))
  stringHashChars (structureHash ++ "||CONTENT||".toList ++ contentHashes)

/-- The observable outcome of one `update()` cycle: the documents passed to
`vault.process`, whether the cycle was recorded as successful
(`lastSuccessfulUpdate` refreshed), and the stored fingerprint afterwards. -/
structure UpdateOutcome where
  processedPaths : List (List Char)
  recordedSuccess : Bool
  previousHashAfter : String

/-- `IndexUpdater.update()` after the scan: compare the schema fingerprint
with the previous cycle's; when equal, record success and return without
processing any document; otherwise process every descriptor's document and
store the new fingerprint. -/
def updateModel (lc : List Char → List Char → Int) (previousHash : String)
    (schema : IndexSchema) : UpdateOutcome :=
  let currentHash := schema.getHash lc
  if currentHash = previousHash then ⟨[], true, previousHash⟩
  else ⟨schema.indexNotes.map (fun d => d.note.path), true, currentHash⟩

/-! ## The block-regex engine

`getBlockRegex(blockRef)` builds
`^(?:>\s*\[!example\].*\n)(?:>.*\n)*(?:>\s*\BLOCKREF$)` with flags `gm`,
where `BLOCKREF` is spliced in verbatim (its leading `^` escaped); for the
block references the engine produces (`^indexof-` plus a slug of letters,
digits and hyphens) every spliced character is a regex literal.  The
matcher below implements exactly this pattern: `^`/`$` are line anchors,
`.` excludes line terminators, `\s*` is greedy with backtracking (it can
cross newlines), and the middle `(?:>.*\n)*` is greedy with backtracking
resolved by trying the longest run of `>`-lines first. -/

/-- Greedy `\s*` followed by a literal: try the maximal whitespace run
first, then backtrack.  Returns the number of whitespace characters
consumed.  (For the literals in play — starting with `[` or `^` — at most
one run length can succeed.) -/
def tryWsLit (lit : List Char) (r : List Char) : Nat → Option Nat
  | 0 => if lit.isPrefixOf r then some 0 else none
  | j + 1 => if lit.isPrefixOf (r.drop (j + 1)) then some (j + 1) else tryWsLit lit r j

/-- `\s*` then a literal, starting from the maximal whitespace run. -/
def wsThenLit (lit : List Char) (r : List Char) : Option Nat :=
  tryWsLit lit r (r.takeWhile isJsWs).length

/-- The `$` assertion with the `m` flag: end of input or before a line
terminator. -/
def eolAt : List Char → Bool
  | [] => true
  | c :: _ => isLineTerm c

/-- `(?:>\s*\[!example\].*\n)`: `>`, whitespace, the literal
`[!example]`, the rest of the line, and its newline.  Returns the consumed
length. -/
def matchHeaderLine (s : List Char) : Option Nat :=
  match s with
  | [] => none
  | c :: r =>
    if c = '>' then
      match wsThenLit exampleLit r with
      | some j =>
        let k := ((r.drop (j + 10)).takeWhile (fun c => !isLineTerm c)).length
        if ((r.drop (j + 10)).drop k).head? = some '\n' then some (1 + j + 10 + k + 1)
        else none
      | none => none
    else none

/-- `(?:>\s*\REF$)`: `>`, whitespace, the literal block reference, end of
line.  Returns the consumed length (the `$` consumes nothing). -/
def matchMarkerTail (ref : List Char) (s : List Char) : Option Nat :=
  match s with
  | [] => none
  | c :: r =>
    if c = '>' then
      match wsThenLit ref r with
      | some j => if eolAt (r.drop (j + ref.length)) then some (1 + j + ref.length) else none
      | none => none
    else none

/-- `(?:>.*\n)*(?:>\s*\REF$)` with greedy backtracking: prefer consuming
one more `>`-line if the tail can still match afterwards, otherwise match
the marker line here.  Fuel decreases once per consumed line; any fuel
above the text length is enough. -/
def matchBlockTail (ref : List Char) : Nat → List Char → Option Nat
  | 0, _ => none
  | fuel + 1, s =>
    match s with
    | [] => none
    | c :: r =>
      if c = '>' ∧ ((r.drop (r.takeWhile (fun c => !isLineTerm c)).length).head? = some '\n') then
        match matchBlockTail ref fuel (r.drop ((r.takeWhile (fun c => !isLineTerm c)).length + 1)) with
        | some n => some (1 + (r.takeWhile (fun c => !isLineTerm c)).length + 1 + n)
        | none => matchMarkerTail ref (c :: r)
      else matchMarkerTail ref (c :: r)

/-- A whole-block match attempt at the current position (which the caller
guarantees to be a line start): header line, then middle lines and marker
line.  Returns the full consumed length. -/
def matchBlockAt (ref : List Char) (s : List Char) : Option Nat :=
  match matchHeaderLine s with
  | some h =>
    match matchBlockTail ref (s.length + 1) (s.drop h) with
    | some n => some (h + n)
    | none => none
  | none => none

/-- `matchAll` for the block regex: scan left to right, attempt a match at
every line start, and continue after the end of each match (matches never
overlap).  Returns `(start, length)` pairs in ascending order.  `bol`
tracks whether the current position follows a line terminator (the `^`
anchor with the `m` flag). -/
def scanBlocks (ref : List Char) : Nat → List Char → Nat → Bool → List (Nat × Nat)
  | 0, _, _, _ => []
  | _ + 1, [], _, _ => []
  | fuel + 1, c :: rest, pos, bol =>
    cond bol
      (match matchBlockAt ref (c :: rest) with
        | some l =>
          (pos, l) :: scanBlocks ref fuel ((c :: rest).drop l) (pos + l)
            (isLineTerm (((c :: rest).take l).getLastD 'x'))
        | none => scanBlocks ref fuel rest (pos + 1) (isLineTerm c))
      (scanBlocks ref fuel rest (pos + 1) (isLineTerm c))

/-- All block matches of `getBlockRegex(ref)` in `text`. -/
def blockMatches (ref text : List Char) : List (Nat × Nat) :=
  scanBlocks ref (text.length + 1) text 0 true

/-! ## The marker regex `/\^indexof-(?:[a-zA-Z0-9]+-?)+/g` -/

/-- The greedy slug after `^indexof-`: alphanumerics freely, a hyphen only
after an alphanumeric.  `prevDash` records that the previous accepted
character was the optional hyphen. -/
def slugTake : Bool → List Char → Nat
  | _, [] => 0
  | prevDash, c :: rest =>
    if isAlnum c then 1 + slugTake false rest
    else if c = '-' ∧ !prevDash then 1 + slugTake true rest
    else 0

/-- A marker match attempt at the current position: the literal
`^indexof-` followed by at least one alphanumeric, extended greedily. -/
def markerMatchAt (s : List Char) : Option Nat :=
  if indexofLit.isPrefixOf s then
    match (s.drop 9).head? with
    | some c => if isAlnum c then some (9 + slugTake true (s.drop 9)) else none
    | none => none
  else none

/-- `matchAll` for the marker pattern: the matched strings, in order. -/
def scanMarkers : Nat → List Char → List (List Char)
  | 0, _ => []
  | fuel + 1, s =>
    match s with
    | [] => []
    | _ :: rest =>
      match markerMatchAt s with
      | some l => s.take l :: scanMarkers fuel (s.drop l)
      | none => scanMarkers fuel rest

/-- All marker-pattern matches in `text`
(`result.matchAll(/\^indexof-(?:[a-zA-Z0-9]+-?)+/g)`). -/
def markerOccurrences (text : List Char) : List (List Char) :=
  scanMarkers (text.length + 1) text

/-! ## `String.prototype.replace` with a `g` regex and a string
replacement -/

/-- Expansion of the replacement string: `$$`, `$&`, `` $` `` and `$'`
are special; a `$` before anything else stays literal (the block regex has
no capture groups, so `$1`-style references stay literal too). -/
def expandRepl : List Char → List Char → List Char → List Char → List Char
  | [], _, _, _ => []
  | [c], _, _, _ => [c]
  | c :: d :: r', m, b, a =>
    if c = '$' then
      if d = '$' then '$' :: expandRepl r' m b a
      else if d = '&' then m ++ expandRepl r' m b a
      else if d = '\x60' then b ++ expandRepl r' m b a
      else if d = '\'' then a ++ expandRepl r' m b a
      else c :: expandRepl (d :: r') m b a
    else c :: expandRepl (d :: r') m b a

/-- Splice the expanded replacement over each match, walking the
(ascending, disjoint) match list. -/
def spliceGo (text repl : List Char) : Nat → List (Nat × Nat) → List Char
  | pos, [] => text.drop pos
  | pos, (st, l) :: ms =>
    (text.drop pos).take (st - pos)
      ++ expandRepl repl ((text.drop st).take l) (text.take st) (text.drop (st + l))
      ++ spliceGo text repl (st + l) ms

/-- `text.replace(getBlockRegex(ref), repl)` — the regex is global, so
every match is replaced. -/
def jsReplaceAll (ref repl text : List Char) : List Char :=
  spliceGo text repl 0 (blockMatches ref text)

/-! ## `getUpdatedContent` -/

/-- The replace-or-append phase of `getUpdatedContent`: for each desired
block, replace every existing occurrence if the regex matches, otherwise
append the block after two newlines; record every written block
reference. -/
def phase1 (content : List Char) (indexBlocks : List (List Char × List Char)) :
    List Char × List (List Char) :=
  indexBlocks.foldl
    (fun acc pair =>
      let ms := blockMatches pair.1 acc.1
      let result2 :=
        if ms = [] then acc.1 ++ '\n' :: '\n' :: pair.2
        else jsReplaceAll pair.1 pair.2 acc.1
      (result2, acc.2 ++ [pair.1]))
    (content, [])

/-- The body of the cleanup loop for one scanned marker occurrence `m`:
recompute the block matches of `m` on the current text, then delete them
in order — keeping the first when `m` was just written — with the
cumulative `deletedOffset` as in the source (signed arithmetic, slicing by
the adjusted indices). -/
def deleteLoop (written : List (List Char)) (m : List Char) (result : List Char) : List Char :=
  ((blockMatches m result).foldl
    (fun (st : List Char × Int × Nat) mt =>
      if m ∈ written ∧ st.2.2 = 0 then (st.1, st.2.1, st.2.2 + 1)
      else
        let start : Int := (mt.1 : Int) - st.2.1
        let endI : Int := start + mt.2
        (st.1.take start.toNat ++ st.1.drop endI.toNat, st.2.1 + mt.2, st.2.2 + 1))
    (result, 0, 0)).1

/-- The cleanup pass: iterate `deleteLoop` over every marker occurrence
scanned once on the text produced by the replace/append phase. -/
def cleanupPass (written : List (List Char)) (t : List Char) : List Char :=
  (markerOccurrences t).foldl (fun r m => deleteLoop written m r) t

/-- `IndexNote.getUpdatedContent`. -/
def getUpdatedContent (content : List Char) (indexBlocks : List (List Char × List Char)) :
    List Char :=
  let p := phase1 content indexBlocks
  cleanupPass p.2 p.1

/-! ## Span-deletion specification (claim C2) -/

/-- Whether position `i` lies inside one of the spans. -/
def coveredBy (spans : List (Nat × Nat)) (i : Nat) : Bool :=
  spans.any (fun sp => sp.1 ≤ i ∧ i < sp.1 + sp.2)

/-- Simultaneous span removal: walk the text once and keep exactly the
positions not covered by any of the spans (all spans interpreted on the
same snapshot of the text, `i` being the position of the first character). -/
def removeSpansIdx (spans : List (Nat × Nat)) : Nat → List Char → List Char
  | _, [] => []
  | i, c :: rest =>
    if coveredBy spans i then removeSpansIdx spans (i + 1) rest
    else c :: removeSpansIdx spans (i + 1) rest

/-- Simultaneous removal of the spans from the whole text. -/
def removeSpans (t : List Char) (spans : List (Nat × Nat)) : List Char :=
  removeSpansIdx spans 0 t

/-- The specified effect of the cleanup loop for one marker: keep the
first block occurrence when the marker was just written and delete every
other; delete all of them when it was not written. -/
def specDeleteForMarker (written : List (List Char)) (m : List Char) (t : List Char) :
    List Char :=
  removeSpans t (if m ∈ written then (blockMatches m t).drop 1 else blockMatches m t)

/-- Sequential deletion with a running offset and exact natural-number
arithmetic (the reference implementation the code's signed arithmetic is
compared against). -/
def delSeq : List Char → Nat → List (Nat × Nat) → List Char
  | r, _, [] => r
  | r, off, (st, l) :: ms => delSeq (r.take (st - off) ++ r.drop (st - off + l)) (off + l) ms

/-- Ascending, disjoint, in-bounds spans: each span starts no earlier than
`lo`, is nonempty, ends within `len`, and the next span starts at or after
its end. -/
def SpansOrdered (lo len : Nat) : List (Nat × Nat) → Prop
  | [] => True
  | (st, l) :: ms => lo ≤ st ∧ 1 ≤ l ∧ st + l ≤ len ∧ SpansOrdered (st + l) len ms

/-! ## Well-formed blocks and clean content (claims C1 and C9)

`createIndexBlocks` produces block texts of the shape
`> [!example] <title>\n` followed by `>`-prefixed list lines and the final
marker line `> ^indexof-<slug>`; the amended idempotence and tie-break
claims are proved for every pair list of this shape. -/

/-- Mirror of the marker regex's slug scanner as a predicate: every
character is alphanumeric or a hyphen following an alphanumeric. -/
def slugOk : Bool → List Char → Bool
  | _, [] => true
  | pd, c :: r =>
    if isAlnum c then slugOk false r
    else if c = '-' ∧ pd = false then slugOk true r
    else false

/-- A valid slug: nonempty and fully consumed by the marker scanner (so it
starts with an alphanumeric and has no doubled hyphen). -/
def ValidSlug (slug : List Char) : Prop := slug ≠ [] ∧ slugOk true slug = true

/-- A well-formed block reference: `^indexof-` plus a valid slug. -/
def WfRef (ref : List Char) : Prop := ∃ slug, ref = indexofLit ++ slug ∧ ValidSlug slug

/-- One middle line of a block: `>` + content + newline. -/
def midLineOf (m : List Char) : List Char := '>' :: m ++ ['\n']

/-- The middle lines of a block, concatenated. -/
def midsText (mids : List (List Char)) : List Char := (mids.map midLineOf).flatten

/-- The canonical block shape: `> [!example]` + header rest + newline +
middle lines + `> ` + reference (no trailing newline). -/
def mkBlock (hrest : List Char) (mids : List (List Char)) (ref : List Char) : List Char :=
  '>' :: ' ' :: exampleLit ++ hrest ++ '\n' :: (midsText mids ++ '>' :: ' ' :: ref)

/-- Constraints on one line's content: no line terminators, no embedded
callout-header token, no embedded marker start, no `$` (so the replacement
string expands to itself). -/
def LineOk (l : List Char) : Prop :=
  (∀ c ∈ l, isLineTerm c = false) ∧ ¬ exampleLit <:+: l ∧ ¬ indexofLit <:+: l ∧ '$' ∉ l

/-- A well-formed desired block for reference `ref`. -/
def WfBlock (ref txt : List Char) : Prop :=
  WfRef ref ∧
  ∃ hrest mids, txt = mkBlock hrest mids ref ∧ LineOk hrest ∧ ∀ m ∈ mids, LineOk m

/-- Document text with no callout-header token and no index marker. -/
def CleanContent (content : List Char) : Prop :=
  ¬ exampleLit <:+: content ∧ ¬ indexofLit <:+: content

/-- The block scan at its canonical fuel. -/
def scanB (ref s : List Char) (pos : Nat) (bol : Bool) : List (Nat × Nat) :=
  scanBlocks ref (s.length + 1) s pos bol

/-- The marker scan at its canonical fuel. -/
def scanM (s : List Char) : List (List Char) :=
  scanMarkers (s.length + 1) s

/-- Replace the text of the entry for `r`, or append a new entry. -/
def upsert : List (List Char × List Char) → List Char → List Char → List (List Char × List Char)
  | [], r, t => [(r, t)]
  | (r', t') :: acc, r, t =>
    if r' = r then (r', t) :: acc else (r', t') :: upsert acc r t

/-- Fold `upsert` over a pair list. -/
def upsertAll (acc bs : List (List Char × List Char)) : List (List Char × List Char) :=
  bs.foldl (fun a p => upsert a p.1 p.2) acc

/-- The appended text of a list of desired blocks: each block preceded by
two newlines. -/
def blocksText (acc : List (List Char × List Char)) : List Char :=
  (acc.map (fun p => '\n' :: '\n' :: p.2)).flatten

/-- The spans the block regex for `ref` is expected to match inside
`blocksText acc` starting at text position `pos`: one span per entry whose
reference is `ref`. -/
def expectedSpans (ref : List Char) : Nat → List (List Char × List Char) → List (Nat × Nat)
  | _, [] => []
  | pos, (r', t') :: acc =>
    if r' = ref then (pos + 2, t'.length) :: expectedSpans ref (pos + 2 + t'.length) acc
    else expectedSpans ref (pos + 2 + t'.length) acc

/-- Shape of the text following a block inside the composite document:
nothing, or a blank-line separator whose following character is not `>`
(the next chunk starts with its own blank line). -/
def RShape (R : List Char) : Prop :=
  R = [] ∨ ∃ z, R = '\n' :: z ∧ ∀ c, z.head? = some c → c ≠ '>'

/-- Shape of a trailing `blocksText`: empty, or two newlines followed by a
`>` (every well-formed block starts with `>`). -/
def BTShape (V : List Char) : Prop :=
  V = [] ∨ ∃ z, V = '\n' :: '\n' :: '>' :: z

/-- The text of the last pair carrying reference `r`, if any. -/
def lastVal (bs : List (List Char × List Char)) (r : List Char) : Option (List Char) :=
  bs.foldl (fun o p => if p.1 = r then some p.2 else o) none

/-- Pointwise update of an association list: keys are kept, each value is
replaced by `f key` when defined. -/
def updF (f : List Char → Option (List Char)) (a : List (List Char × List Char)) :
    List (List Char × List Char) :=
  a.map (fun p => match f p.1 with | some v => (p.1, v) | none => p)

/-! ## Part II: theorems -/

theorem toInt32_emod (x : Int) : toInt32 x % 4294967296 = x % 4294967296 := by
  unfold toInt32
  simp only []
  split
  · simp [Int.emod_emod_of_dvd]
  · have h1 : 0 ≤ x % 4294967296 := Int.emod_nonneg x (by norm_num)
    have h2 : x % 4294967296 < 4294967296 := Int.emod_lt_of_pos x (by norm_num)
    omega

theorem toInt32_congr {x y : Int} (h : x % 4294967296 = y % 4294967296) :
    toInt32 x = toInt32 y := by
  unfold toInt32
  rw [h]

theorem stringHashStep_eq_specHashStep (hash : Int) (chr : Nat) :
    stringHashStep hash chr = specHashStep hash chr := by
  unfold stringHashStep specHashStep
  apply toInt32_congr
  have h1 : toInt32 (hash * 32) % 4294967296 = hash * 32 % 4294967296 :=
    toInt32_emod (hash * 32)
  have h2 : (toInt32 (hash * 32) - hash + chr) % 4294967296
      = (hash * 32 - hash + chr) % 4294967296 := by
    have := Int.ModEq.add_right (chr : Int) (Int.ModEq.sub_right hash h1)
    exact this
  rw [h2]
  congr 1
  ring

theorem foldl_stringHashStep_eq (l : List Nat) :
    ∀ h : Int, l.foldl stringHashStep h = l.foldl specHashStep h := by
  induction l with
  | nil => intro h; rfl
  | cons c cs ih =>
    intro h
    simp only [List.foldl_cons, stringHashStep_eq_specHashStep, ih]

/-- C8: for every string, given as the list of its UTF-16 code units,
`stringHash` returns the decimal rendering of the fold
`hash := hash * 31 + charCode` over the units, starting from 0 and wrapping
each step to a signed 32-bit integer. -/
theorem claim_C8_stringHash_is_31_fold (units : List Nat) :
    stringHash units = specStringHash units := by
  unfold stringHash specStringHash
  rw [foldl_stringHashStep_eq]

theorem splitOnChar_not_mem (sep : Char) (l : List Char) :
    ∀ w ∈ splitOnChar sep l, sep ∉ w := by
  induction l with
  | nil =>
    intro w hw
    simp only [splitOnChar] at hw
    simp only [List.mem_singleton] at hw
    subst hw; simp
  | cons c rest ih =>
    intro w hw
    simp only [splitOnChar] at hw
    by_cases hc : c = sep
    · rw [if_pos hc] at hw
      rcases List.mem_cons.mp hw with h | h
      · subst h; simp
      · exact ih w h
    · rw [if_neg hc] at hw
      rcases hsplit : splitOnChar sep rest with _ | ⟨w0, ws⟩
      · rw [hsplit] at hw
        simp only [List.mem_singleton] at hw
        subst hw
        intro hmem
        rcases List.mem_singleton.mp hmem with h
        exact hc h.symm
      · rw [hsplit] at hw
        rcases List.mem_cons.mp hw with h | h
        · subst h
          intro hmem
          rcases List.mem_cons.mp hmem with h | h
          · exact hc h.symm
          · exact ih w0 (hsplit ▸ List.mem_cons_self w0 ws) h
        · exact ih w (hsplit ▸ List.mem_cons_of_mem w0 h)

theorem formatTagWord_no_underscore {w : List Char} (h : '_' ∉ w) :
    formatTagWord w = w := by
  cases w with
  | nil => rfl
  | cons c rest =>
    have hc : c ≠ '_' := fun hcc => h (hcc ▸ List.mem_cons_self c rest)
    simp [formatTagWord, hc]

theorem specAcronymWalk_cons_nil (b : Bool) (ws : List (List Char)) :
    specAcronymWalk b ([] :: ws) = specAcronymWalk true ws := by
  simp [specAcronymWalk]

theorem specAcronymWalk_cons {w : List Char} (b : Bool) (ws : List (List Char)) (h : w ≠ []) :
    specAcronymWalk b (w :: ws)
      = (if b = true then toUpperList w else w) :: specAcronymWalk false ws := by
  simp [specAcronymWalk, h]

theorem filter_ne_nil_cons_of_ne {x : List Char} (xs : List (List Char)) (h : x ≠ []) :
    (x :: xs).filter (· ≠ []) = x :: xs.filter (· ≠ []) := by
  simp [List.filter_cons, h]

theorem filter_ne_nil_cons_nil (xs : List (List Char)) :
    (([] : List Char) :: xs).filter (· ≠ []) = xs.filter (· ≠ []) := by
  simp [List.filter_cons]

theorem mapWithPrev_filter_eq_specWalk (ws : List (List Char)) :
    ∀ prev : Option (List Char), (∀ w ∈ ws, '_' ∉ w) →
      (mapWithPrev prev ws).filter (· ≠ []) = specAcronymWalk (prevIsEmpty prev) ws := by
  induction ws with
  | nil => intro prev _; rfl
  | cons w ws ih =>
    intro prev h
    have hw : '_' ∉ w := h w (List.mem_cons_self w ws)
    have hws : ∀ w' ∈ ws, '_' ∉ w' := fun w' hw' => h w' (List.mem_cons_of_mem w hw')
    show (formatWordAt prev w :: mapWithPrev (some w) ws).filter (· ≠ []) = _
    by_cases hempty : w = []
    · subst hempty
      have h0 : formatWordAt prev [] = [] := by
        unfold formatWordAt; rw [if_pos rfl]
      rw [h0, filter_ne_nil_cons_nil, ih (some []) hws,
        specAcronymWalk_cons_nil]
      have h3 : prevIsEmpty (some ([] : List Char)) = true := by simp [prevIsEmpty]
      rw [h3]
    · have hfmt : formatWordAt prev w = if prevIsEmpty prev then toUpperList w else w := by
        unfold formatWordAt
        rw [if_neg hempty]
        by_cases hp : prev = some []
        · rw [if_pos hp]
          have : prevIsEmpty prev = true := by simp [prevIsEmpty, hp]
          rw [this, if_pos rfl]
          simp [formatTagWord]
        · rw [if_neg hp]
          have : prevIsEmpty prev = false := by simp [prevIsEmpty, hp]
          rw [this]
          simp only [Bool.false_eq_true, if_false]
          exact formatTagWord_no_underscore hw
      have hne : (if prevIsEmpty prev = true then toUpperList w else w) ≠ [] := by
        split
        · simp only [toUpperList, ne_eq, List.map_eq_nil_iff]
          exact hempty
        · exact hempty
      rw [hfmt, filter_ne_nil_cons_of_ne _ hne, ih (some w) hws,
        specAcronymWalk_cons _ _ hempty]
      have h3 : prevIsEmpty (some w) = false := by simp [prevIsEmpty, hempty]
      rw [h3]

theorem tagComponentHeader_eq_spec (component : List Char) :
    tagComponentHeader component = specComponentHeading component := by
  unfold tagComponentHeader specComponentHeading
  rw [mapWithPrev_filter_eq_specWalk (splitOnChar '_' component) none
      (splitOnChar_not_mem '_' component)]
  rfl

/-- C5: heading formatting matches the spec's examples
(`deep_learning ↦ Deep learning`, `_ml ↦ ML`, `comparisons__ml ↦
Comparisons ML`) and, in general, `tagToHeader` implements the spec's
`formatAsHeading`: sub-words preceded by a doubled (or leading) underscore
are upper-cased, sub-words are joined with single spaces, each
`/`-component is capitalized on its first letter and the components are
joined with `" / "`. -/
theorem claim_C5_heading_formatting :
    tagToHeader "deep_learning".toList = "Deep learning".toList ∧
    tagToHeader "_ml".toList = "ML".toList ∧
    tagToHeader "comparisons__ml".toList = "Comparisons ML".toList ∧
    ∀ t : List Char, tagToHeader t = specFormatAsHeading t := by
  refine ⟨by decide, by decide, by decide, ?_⟩
  intro t
  unfold tagToHeader specFormatAsHeading
  congr 1
  exact List.map_congr_left fun c _ => tagComponentHeader_eq_spec c

/-- C1 counterexample: reconciliation is not idempotent for an arbitrary
pair list.  With empty document text and the single pair
`("^indexof-a", "x")` — whose block text is not a block, so the regex
never finds it — each application appends `"\n\nx"` again: applying
`getUpdatedContent` twice differs from applying it once. -/
theorem claim_C1_counterexample :
    getUpdatedContent
        (getUpdatedContent [] [("^indexof-a".toList, ('x' : Char) :: [])])
        [("^indexof-a".toList, ('x' : Char) :: [])]
      ≠ getUpdatedContent [] [("^indexof-a".toList, ('x' : Char) :: [])] := by
  decide

/-- C9 counterexample: with two pairs sharing the block id `^indexof-a`
whose block texts are not blocks, the resulting text contains no block
ending in that id at all (both texts are appended verbatim), not exactly
one with the last pair's content. -/
theorem claim_C9_counterexample :
    (blockMatches "^indexof-a".toList
        (getUpdatedContent []
          [("^indexof-a".toList, ('x' : Char) :: []),
           ("^indexof-a".toList, ('y' : Char) :: [])])).length ≠ 1 := by
  decide

/-- C3: when the schema fingerprint computed by the scan equals the
previous cycle's stored fingerprint, `update()` returns before processing
any document — no `vault.process` call happens — and the cycle is still
recorded as successful. -/
theorem claim_C3_noop_short_circuit (lc : List Char → List Char → Int)
    (previousHash : String) (schema : IndexSchema)
    (h : IndexSchema.getHash lc schema = previousHash) :
    (updateModel lc previousHash schema).processedPaths = [] ∧
    (updateModel lc previousHash schema).recordedSuccess = true := by
  unfold updateModel
  simp only [h, if_pos]
  exact ⟨trivial, trivial⟩

/-- Witness for C3 at a concrete schema whose stored fingerprint is the
one the scan just computed. -/
theorem claim_C3_noop_short_circuit_witness :
    (IndexSchema.getHash lcDefault
        ⟨[⟨⟨"i.md".toList, "i.md".toList⟩, [('a' : Char) :: []], []⟩], Node.new [], []⟩
      = IndexSchema.getHash lcDefault
        ⟨[⟨⟨"i.md".toList, "i.md".toList⟩, [('a' : Char) :: []], []⟩], Node.new [], []⟩) ∧
    (updateModel lcDefault
        (IndexSchema.getHash lcDefault
          ⟨[⟨⟨"i.md".toList, "i.md".toList⟩, [('a' : Char) :: []], []⟩], Node.new [], []⟩)
        ⟨[⟨⟨"i.md".toList, "i.md".toList⟩, [('a' : Char) :: []], []⟩], Node.new [], []⟩).processedPaths
      = [] ∧
    (updateModel lcDefault
        (IndexSchema.getHash lcDefault
          ⟨[⟨⟨"i.md".toList, "i.md".toList⟩, [('a' : Char) :: []], []⟩], Node.new [], []⟩)
        ⟨[⟨⟨"i.md".toList, "i.md".toList⟩, [('a' : Char) :: []], []⟩], Node.new [], []⟩).recordedSuccess
      = true :=
  ⟨rfl,
    (claim_C3_noop_short_circuit lcDefault _ _ rfl).1,
    (claim_C3_noop_short_circuit lcDefault _ _ rfl).2⟩

theorem getIndex_eq (env : RenderEnv) (tp : List Char) (hdr : Option Doc)
    (reg pri idx idxp : List Doc) (cs : List Node) (target : Doc) (lvl : Nat) :
    getIndex env (Node.mk tp hdr reg pri idx idxp cs) target lvl
      = (((pri ++ reg ++ idx).filter (fun note => note.path ≠ target.path)).map
          (bucketLine env pri target lvl)).flatten
        ++ (cs.map (fun c => childHeaderLine env target lvl c
            ++ getIndex env c target (lvl + 1))).flatten := by
  rw [getIndex]
  congr 1
  rw [List.attach_map_coe cs
    (fun c => childHeaderLine env target lvl c ++ getIndex env c target (lvl + 1))]

/-- C6: in the rendered index of a node, every priority-bucket line comes
before every regular-bucket line — in particular a priority document `b`
is listed before a regular document `a` even when `a`'s name sorts first —
and a document line is wrapped in `**` exactly when the document is in the
priority bucket. -/
theorem claim_C6_priority_order_and_bold (env : RenderEnv)
    (tp : List Char) (hdr : Option Doc) (reg pri idx idxp : List Doc) (cs : List Node)
    (target : Doc) (lvl : Nat) (b a : Doc)
    (hb : b ∈ pri) (ha : a ∈ reg)
    (hbt : b.path ≠ target.path) (hat : a.path ≠ target.path)
    (hdisj : ∀ x ∈ reg ++ idx, x ∉ pri) :
    (∃ pre mid post : List Char,
      getIndex env (Node.mk tp hdr reg pri idx idxp cs) target lvl
        = pre ++ bucketLine env pri target lvl b
            ++ (mid ++ (bucketLine env pri target lvl a ++ post))) ∧
    (∀ c ∈ pri, bucketLine env pri target lvl c
      = ('>' :: ' ' :: List.replicate lvl '\t') ++ ('-' :: ' ' :: [])
        ++ ('*' :: '*' :: []) ++ noteLinkText env target c ++ noteTitleText env c
        ++ ('*' :: '*' :: []) ++ ['\n']) ∧
    (∀ c : Doc, c ∉ pri → bucketLine env pri target lvl c
      = ('>' :: ' ' :: List.replicate lvl '\t') ++ ('-' :: ' ' :: [])
        ++ noteLinkText env target c ++ noteTitleText env c ++ ['\n']) ∧
    bucketLine env pri target lvl a
      = ('>' :: ' ' :: List.replicate lvl '\t') ++ ('-' :: ' ' :: [])
        ++ noteLinkText env target a ++ noteTitleText env a ++ ['\n'] := by
  have hanp : a ∉ pri := hdisj a (List.mem_append_left idx ha)
  refine ⟨?_, ?_, ?_, ?_⟩
  · have hp : ∀ x : Doc, x.path ≠ target.path →
        (fun note : Doc => decide (note.path ≠ target.path)) x = true := by
      intro x hx; simp [hx]
    have hFb : b ∈ pri.filter (fun note => note.path ≠ target.path) :=
      List.mem_filter.mpr ⟨hb, hp b hbt⟩
    have hFa : a ∈ reg.filter (fun note => note.path ≠ target.path) :=
      List.mem_filter.mpr ⟨ha, hp a hat⟩
    obtain ⟨s1, t1, h1⟩ := List.append_of_mem hFb
    obtain ⟨s2, t2, h2⟩ := List.append_of_mem hFa
    refine ⟨((s1.map (bucketLine env pri target lvl)).flatten),
      ((t1.map (bucketLine env pri target lvl)).flatten)
        ++ ((s2.map (bucketLine env pri target lvl)).flatten),
      ((t2.map (bucketLine env pri target lvl)).flatten)
        ++ (((idx.filter (fun note => note.path ≠ target.path)).map
              (bucketLine env pri target lvl)).flatten)
        ++ (cs.map (fun c => childHeaderLine env target lvl c
            ++ getIndex env c target (lvl + 1))).flatten, ?_⟩
    rw [getIndex_eq]
    rw [List.filter_append, List.filter_append, h1, h2]
    simp [List.map_append, List.flatten_append, List.append_assoc]
  · intro c hc
    unfold bucketLine
    rw [if_pos hc]
  · intro c hc
    unfold bucketLine
    rw [if_neg hc]
    simp
  · unfold bucketLine
    rw [if_neg hanp]
    simp

/-- Witness for C6 at a concrete environment, node and document pair. -/
theorem claim_C6_priority_order_and_bold_witness :
    ((⟨"b.md".toList, "b.md".toList⟩ : Doc) ∈ [(⟨"b.md".toList, "b.md".toList⟩ : Doc)] ∧
     (⟨"a.md".toList, "a.md".toList⟩ : Doc) ∈ [(⟨"a.md".toList, "a.md".toList⟩ : Doc)] ∧
     (∀ x ∈ [(⟨"a.md".toList, "a.md".toList⟩ : Doc)] ++ ([] : List Doc),
        x ∉ [(⟨"b.md".toList, "b.md".toList⟩ : Doc)])) ∧
    (∃ pre mid post : List Char,
      getIndex ⟨fun n _ _ => n.name, fun _ => none, false⟩
          (Node.mk ('t' :: []) none
            [⟨"a.md".toList, "a.md".toList⟩] [⟨"b.md".toList, "b.md".toList⟩] [] [] [])
          ⟨"t.md".toList, "t.md".toList⟩ 0
        = pre ++ bucketLine ⟨fun n _ _ => n.name, fun _ => none, false⟩
              [⟨"b.md".toList, "b.md".toList⟩] ⟨"t.md".toList, "t.md".toList⟩ 0
              ⟨"b.md".toList, "b.md".toList⟩
            ++ (mid ++ (bucketLine ⟨fun n _ _ => n.name, fun _ => none, false⟩
              [⟨"b.md".toList, "b.md".toList⟩] ⟨"t.md".toList, "t.md".toList⟩ 0
              ⟨"a.md".toList, "a.md".toList⟩ ++ post))) :=
  ⟨⟨by decide, by decide, by decide⟩,
    (claim_C6_priority_order_and_bold ⟨fun n _ _ => n.name, fun _ => none, false⟩
      ('t' :: []) none [⟨"a.md".toList, "a.md".toList⟩] [⟨"b.md".toList, "b.md".toList⟩]
      [] [] [] ⟨"t.md".toList, "t.md".toList⟩ 0
      ⟨"b.md".toList, "b.md".toList⟩ ⟨"a.md".toList, "a.md".toList⟩
      (by decide) (by decide) (by decide) (by decide) (by decide)).1⟩

theorem sortAllNode_eq (lc : List Char → List Char → Int) (tp : List Char)
    (hdr : Option Doc) (reg pri idx idxp : List Doc) (cs : List Node) :
    sortAllNode lc (Node.mk tp hdr reg pri idx idxp cs)
      = Node.mk tp hdr (jsSortBy (docCmp lc) reg) (jsSortBy (docCmp lc) pri)
          (jsSortBy (docCmp lc) idx) idxp
          ((jsSortBy (childCmp lc) cs).map (sortAllNode lc)) := by
  rw [sortAllNode]
  rw [List.attach_map_coe]

theorem sortAllNode_tagPath (lc : List Char → List Char → Int) (n : Node) :
    (sortAllNode lc n).tagPath = n.tagPath := by
  cases n
  rw [sortAllNode_eq]
  rfl

theorem sortAllNode_headerNote (lc : List Char → List Char → Int) (n : Node) :
    (sortAllNode lc n).headerNote = n.headerNote := by
  cases n
  rw [sortAllNode_eq]
  rfl

theorem sortAllNode_indexPriorityNotes (lc : List Char → List Char → Int) (n : Node) :
    (sortAllNode lc n).indexPriorityNotes = n.indexPriorityNotes := by
  cases n
  rw [sortAllNode_eq]
  rfl

theorem childCmp_sortAllNode (lc : List Char → List Char → Int) (a b : Node) :
    childCmp lc (sortAllNode lc a) (sortAllNode lc b) = childCmp lc a b := by
  unfold childCmp Node.tagComponent
  rw [sortAllNode_tagPath, sortAllNode_tagPath]

theorem sortedTree_sortAllNode (lc : List Char → List Char → Int)
    (htrans : ∀ a b c, lc a b ≤ 0 → lc b c ≤ 0 → lc a c ≤ 0)
    (htot : ∀ a b, lc a b ≤ 0 ∨ lc b a ≤ 0) :
    ∀ n : Node, SortedTree lc (sortAllNode lc n) := by
  intro n
  refine sortAllNode.induct lc (fun n => SortedTree lc (sortAllNode lc n)) ?_ n
  intro tp hdr reg pri idx idxp cs sortedCs ih
  haveI hdt : IsTrans Doc (fun a b => docCmp lc a b ≤ 0) :=
    ⟨fun a b c hab hbc => htrans _ _ _ hab hbc⟩
  haveI hdo : IsTotal Doc (fun a b => docCmp lc a b ≤ 0) :=
    ⟨fun a b => htot _ _⟩
  haveI hct : IsTrans Node (fun a b => childCmp lc a b ≤ 0) :=
    ⟨fun a b c hab hbc => htrans _ _ _ hab hbc⟩
  haveI hco : IsTotal Node (fun a b => childCmp lc a b ≤ 0) :=
    ⟨fun a b => htot _ _⟩
  rw [sortAllNode_eq, SortedTree.eq_1]
  refine ⟨?_, ?_, ?_, ?_, ?_⟩
  · simp only [jsSortBy]; exact List.sorted_insertionSort _ _
  · simp only [jsSortBy]; exact List.sorted_insertionSort _ _
  · simp only [jsSortBy]; exact List.sorted_insertionSort _ _
  · have hs : List.Sorted (fun a b => childCmp lc a b ≤ 0) (jsSortBy (childCmp lc) cs) := by
      simp only [jsSortBy]; exact List.sorted_insertionSort _ _
    exact List.Pairwise.map (sortAllNode lc)
      (fun a b hab => by rw [childCmp_sortAllNode]; exact hab) hs
  · intro c hc
    obtain ⟨c0, hc0, rfl⟩ := List.mem_map.mp hc
    exact ih ⟨c0, hc0⟩

/-- C7 counterexample: the claim says `sortAll` sorts every one of the four
buckets, but `indexPriorityNotes` is never sorted: on a node whose
index-priority bucket is `[b.md, a.md]`, the bucket after `sortAll` is not
sorted by the comparator. -/
theorem claim_C7_counterexample :
    ¬ List.Sorted (fun a b => docCmp lcDefault a b ≤ 0)
        ((sortAllNode lcDefault
            (Node.mk ('t' :: []) none [] [] []
              [⟨"b.md".toList, "b.md".toList⟩, ⟨"a.md".toList, "a.md".toList⟩]
              [])).indexPriorityNotes) := by
  rw [sortAllNode_indexPriorityNotes]
  decide

/-- C7 amended: `sortAll()` recursively sorts the priority, regular and
index buckets and the children list — but not the index-priority bucket,
which is left exactly as it was.  Buckets use the comparator on the
sortable projection of the file names, children use it on their formatted
tag-component heading; bucket contents are preserved up to permutation.
The collaborator-provided locale comparison `lc` is assumed consistent
(transitive and total on non-positive outcomes). -/
theorem claim_C7_sortAll_amended (lc : List Char → List Char → Int)
    (htrans : ∀ a b c, lc a b ≤ 0 → lc b c ≤ 0 → lc a c ≤ 0)
    (htot : ∀ a b, lc a b ≤ 0 ∨ lc b a ≤ 0) (n : Node) :
    SortedTree lc (sortAllNode lc n) ∧
    (sortAllNode lc n).tagPath = n.tagPath ∧
    (sortAllNode lc n).headerNote = n.headerNote ∧
    (sortAllNode lc n).indexPriorityNotes = n.indexPriorityNotes ∧
    ((sortAllNode lc n).priorityNotes).Perm n.priorityNotes ∧
    ((sortAllNode lc n).regularNotes).Perm n.regularNotes ∧
    ((sortAllNode lc n).indexNotes).Perm n.indexNotes ∧
    ((sortAllNode lc n).children).Perm (n.children.map (sortAllNode lc)) := by
  refine ⟨sortedTree_sortAllNode lc htrans htot n, ?_⟩
  cases n with
  | mk tp hdr reg pri idx idxp cs =>
    rw [sortAllNode_eq]
    refine ⟨rfl, rfl, rfl, ?_, ?_, ?_, ?_⟩
    · simp only [Node.priorityNotes, jsSortBy]
      exact List.perm_insertionSort _ _
    · simp only [Node.regularNotes, jsSortBy]
      exact List.perm_insertionSort _ _
    · simp only [Node.indexNotes, jsSortBy]
      exact List.perm_insertionSort _ _
    · simp only [Node.children, jsSortBy]
      exact List.Perm.map _ (List.perm_insertionSort _ _)

theorem lcDefault_le_zero {a b : List Char} : lcDefault a b ≤ 0 ↔ a ≤ b := by
  unfold lcDefault
  rcases lt_trichotomy a b with h | h | h
  · rw [if_pos h]
    simp [le_of_lt h]
  · subst h
    simp
  · rw [if_neg (not_lt_of_gt h), if_neg h.ne']
    simp [not_le_of_gt h]

theorem lcDefault_trans : ∀ a b c : List Char,
    lcDefault a b ≤ 0 → lcDefault b c ≤ 0 → lcDefault a c ≤ 0 := by
  intro a b c hab hbc
  rw [lcDefault_le_zero] at *
  exact le_trans hab hbc

theorem lcDefault_total : ∀ a b : List Char, lcDefault a b ≤ 0 ∨ lcDefault b a ≤ 0 := by
  intro a b
  rw [lcDefault_le_zero, lcDefault_le_zero]
  exact le_total a b

/-- Witness for the amended C7 theorem at the concrete comparator
`lcDefault` and a concrete two-level node. -/
theorem claim_C7_sortAll_amended_witness :
    (∀ a b c : List Char, lcDefault a b ≤ 0 → lcDefault b c ≤ 0 → lcDefault a c ≤ 0) ∧
    (∀ a b : List Char, lcDefault a b ≤ 0 ∨ lcDefault b a ≤ 0) ∧
    (SortedTree lcDefault (sortAllNode lcDefault
        (Node.mk ('t' :: []) none
          [⟨"b.md".toList, "b.md".toList⟩, ⟨"a.md".toList, "a.md".toList⟩] [] []
          [⟨"p.md".toList, "p.md".toList⟩] [])) ∧
      (sortAllNode lcDefault
        (Node.mk ('t' :: []) none
          [⟨"b.md".toList, "b.md".toList⟩, ⟨"a.md".toList, "a.md".toList⟩] [] []
          [⟨"p.md".toList, "p.md".toList⟩] [])).tagPath = ('t' :: []) ∧
      (sortAllNode lcDefault
        (Node.mk ('t' :: []) none
          [⟨"b.md".toList, "b.md".toList⟩, ⟨"a.md".toList, "a.md".toList⟩] [] []
          [⟨"p.md".toList, "p.md".toList⟩] [])).indexPriorityNotes
        = [⟨"p.md".toList, "p.md".toList⟩]) := by
  have h := claim_C7_sortAll_amended lcDefault lcDefault_trans lcDefault_total
    (Node.mk ('t' :: []) none
      [⟨"b.md".toList, "b.md".toList⟩, ⟨"a.md".toList, "a.md".toList⟩] [] []
      [⟨"p.md".toList, "p.md".toList⟩] [])
  exact ⟨lcDefault_trans, lcDefault_total, h.1, h.2.1, h.2.2.2.1⟩

/-- C4 (failing input): with the default configured tag names `idx` and
`meta_idx`, the document tag `foometa_idx` has a last canonical component
(`foometa_idx`) that is neither configured tag name, yet the scan's
stripping regex — whose alternation binds `$` only to the `meta_idx`
alternative — rewrites it to `foo`, so the document is registered in the
tree under `foo` instead of under the full canonical path `foometa_idx`
(which ends up with no node at all), contradicting the claim. -/
theorem claim_C4_failing_input_eval :
    getLastTagComponent (canonicalizeTag "foometa_idx".toList) ≠ "idx".toList ∧
    getLastTagComponent (canonicalizeTag "foometa_idx".toList) ≠ "meta_idx".toList ∧
    canonicalizeTag "foometa_idx".toList = "foometa_idx".toList ∧
    canonicalizeTag (stripIndexTags "idx".toList "meta_idx".toList true
      (canonicalizeTag "foometa_idx".toList)) = "foo".toList ∧
    (findChildNode 3
        (scanRegisterTag "idx".toList "meta_idx".toList (Node.new [])
          ⟨"n.md".toList, "n.md".toList⟩ false "foometa_idx".toList)
        "foometa_idx".toList).isNone = true ∧
    ((findChildNode 3
        (scanRegisterTag "idx".toList "meta_idx".toList (Node.new [])
          ⟨"n.md".toList, "n.md".toList⟩ false "foometa_idx".toList)
        "foo".toList).map Node.regularNotes)
      = some [⟨"n.md".toList, "n.md".toList⟩] := by
  refine ⟨by decide, by decide, by decide, by decide, by decide, by decide⟩

/-! ### Bounds for the block-regex matchers -/

theorem isPrefixOf_length_le {l1 l2 : List Char} (h : l1.isPrefixOf l2) :
    l1.length ≤ l2.length :=
  (List.isPrefixOf_iff_prefix.mp h).length_le

theorem tryWsLit_spec {lit r : List Char} :
    ∀ {j j' : Nat}, tryWsLit lit r j = some j' → lit.isPrefixOf (r.drop j') ∧ j' ≤ j := by
  intro j
  induction j with
  | zero =>
    intro j' h
    unfold tryWsLit at h
    split at h
    · rename_i hpre
      cases h
      refine ⟨?_, Nat.le_refl 0⟩
      rw [List.drop_zero]
      exact hpre
    · cases h
  | succ j ih =>
    intro j' h
    unfold tryWsLit at h
    split at h
    · rename_i hpre
      cases h
      exact ⟨hpre, Nat.le_refl _⟩
    · obtain ⟨h1, h2⟩ := ih h
      exact ⟨h1, Nat.le_succ_of_le h2⟩

theorem wsThenLit_spec {lit r : List Char} {j : Nat} (h : wsThenLit lit r = some j) :
    lit.isPrefixOf (r.drop j) ∧ j ≤ r.length := by
  obtain ⟨h1, h2⟩ := tryWsLit_spec h
  exact ⟨h1, le_trans h2 (List.takeWhile_sublist isJsWs).length_le⟩

theorem matchHeaderLine_bounds {s : List Char} {h : Nat}
    (hm : matchHeaderLine s = some h) : 1 ≤ h ∧ h ≤ s.length := by
  cases s with
  | nil => simp [matchHeaderLine] at hm
  | cons c r =>
    simp only [matchHeaderLine] at hm
    split at hm
    · split at hm
      · rename_i j hws
        split at hm
        · rename_i hc
          cases hm
          obtain ⟨hpre, hj⟩ := wsThenLit_spec hws
          have hex : exampleLit.length = 10 := rfl
          have h10 := isPrefixOf_length_le hpre
          rw [List.length_drop, hex] at h10
          have hk2 : ((r.drop (j + 10)).takeWhile (fun c => !isLineTerm c)).length
              < (r.drop (j + 10)).length := by
            by_contra hcon
            push_neg at hcon
            rw [List.drop_eq_nil_of_le hcon] at hc
            simp at hc
          rw [List.length_drop] at hk2
          simp only [List.length_cons]
          omega
        · cases hm
      · cases hm
    · cases hm

theorem matchMarkerTail_bounds {ref s : List Char} {n : Nat}
    (hm : matchMarkerTail ref s = some n) : 1 ≤ n ∧ n ≤ s.length := by
  cases s with
  | nil => simp [matchMarkerTail] at hm
  | cons c r =>
    simp only [matchMarkerTail] at hm
    split at hm
    · split at hm
      · rename_i j hws
        split at hm
        · cases hm
          obtain ⟨hpre, hj⟩ := wsThenLit_spec hws
          have hlen := isPrefixOf_length_le hpre
          rw [List.length_drop] at hlen
          simp only [List.length_cons]
          omega
        · cases hm
      · cases hm
    · cases hm

theorem matchBlockTail_bounds {ref : List Char} :
    ∀ {fuel : Nat} {s : List Char} {n : Nat},
      matchBlockTail ref fuel s = some n → 1 ≤ n ∧ n ≤ s.length := by
  intro fuel
  induction fuel with
  | zero => intro s n h; simp [matchBlockTail] at h
  | succ fuel ih =>
    intro s n h
    cases s with
    | nil => simp [matchBlockTail] at h
    | cons c r =>
      simp only [matchBlockTail] at h
      split at h
      · rename_i hcond
        split at h
        · rename_i n' hrec
          cases h
          obtain ⟨h1, h2⟩ := ih hrec
          rw [List.length_drop] at h2
          have hk : (r.takeWhile (fun c => !isLineTerm c)).length < r.length := by
            by_contra hcon
            push_neg at hcon
            rw [List.drop_eq_nil_of_le hcon] at hcond
            simp at hcond
          simp only [List.length_cons]
          omega
        · exact matchMarkerTail_bounds h
      · exact matchMarkerTail_bounds h

theorem matchBlockAt_bounds {ref s : List Char} {l : Nat}
    (hm : matchBlockAt ref s = some l) : 1 ≤ l ∧ l ≤ s.length := by
  unfold matchBlockAt at hm
  split at hm
  · rename_i h hh
    split at hm
    · rename_i n hn
      cases hm
      obtain ⟨hh1, hh2⟩ := matchHeaderLine_bounds hh
      obtain ⟨hn1, hn2⟩ := matchBlockTail_bounds hn
      rw [List.length_drop] at hn2
      omega
    · cases hm
  · cases hm

/-! ### The scanned spans are ascending, disjoint and in bounds -/

theorem spansOrdered_weaken {len : Nat} :
    ∀ {spans : List (Nat × Nat)} {lo lo' : Nat}, lo' ≤ lo →
      SpansOrdered lo len spans → SpansOrdered lo' len spans := by
  intro spans
  cases spans with
  | nil => intro lo lo' _ _; trivial
  | cons p ms =>
    intro lo lo' hle h
    obtain ⟨h1, h2, h3, h4⟩ := h
    exact ⟨le_trans hle h1, h2, h3, h4⟩

theorem spansOrdered_starts {len : Nat} :
    ∀ {spans : List (Nat × Nat)} {lo : Nat}, SpansOrdered lo len spans →
      ∀ sp ∈ spans, lo ≤ sp.1 ∧ sp.1 + sp.2 ≤ len := by
  intro spans
  induction spans with
  | nil => intro lo _ sp hsp; cases hsp
  | cons p ms ih =>
    intro lo h sp hsp
    obtain ⟨h1, h2, h3, h4⟩ := h
    rcases List.mem_cons.mp hsp with rfl | hmem
    · exact ⟨h1, h3⟩
    · obtain ⟨ha, hb⟩ := ih h4 sp hmem
      exact ⟨le_trans (le_trans h1 (Nat.le_add_right _ _)) ha, hb⟩

theorem scanBlocks_ordered (ref : List Char) :
    ∀ (fuel : Nat) (s : List Char) (pos : Nat) (bol : Bool),
      SpansOrdered pos (pos + s.length) (scanBlocks ref fuel s pos bol) := by
  intro fuel
  induction fuel with
  | zero => intro s pos bol; trivial
  | succ fuel ih =>
    intro s pos bol
    cases s with
    | nil => exact trivial
    | cons c rest =>
      simp only [scanBlocks]
      cases bol with
      | false =>
        simp only [Bool.cond_false]
        have h0 := ih rest (pos + 1) (isLineTerm c)
        have heq : pos + 1 + rest.length = pos + (c :: rest).length := by
          simp only [List.length_cons]; omega
        rw [heq] at h0
        exact spansOrdered_weaken (Nat.le_succ pos) h0
      | true =>
        simp only [Bool.cond_true]
        cases hmb : matchBlockAt ref (c :: rest) with
        | none =>
          have h0 := ih rest (pos + 1) (isLineTerm c)
          have heq : pos + 1 + rest.length = pos + (c :: rest).length := by
            simp only [List.length_cons]; omega
          rw [heq] at h0
          exact spansOrdered_weaken (Nat.le_succ pos) h0
        | some l =>
          obtain ⟨hl1, hl2⟩ := matchBlockAt_bounds hmb
          refine ⟨le_refl _, hl1, by omega, ?_⟩
          have h0 := ih ((c :: rest).drop l) (pos + l)
            (isLineTerm (((c :: rest).take l).getLastD 'x'))
          rw [List.length_drop] at h0
          have heq : pos + l + ((c :: rest).length - l) = pos + (c :: rest).length := by
            omega
          rw [heq] at h0
          exact h0

theorem blockMatches_ordered (ref text : List Char) :
    SpansOrdered 0 text.length (blockMatches ref text) := by
  have := scanBlocks_ordered ref (text.length + 1) text 0 true
  simpa using this

/-! ### Simultaneous span removal -/

theorem removeSpansIdx_cons (spans : List (Nat × Nat)) (i : Nat) (c : Char)
    (rest : List Char) :
    removeSpansIdx spans i (c :: rest)
      = if coveredBy spans i then removeSpansIdx spans (i + 1) rest
        else c :: removeSpansIdx spans (i + 1) rest := rfl

theorem removeSpansIdx_nil_spans : ∀ (i : Nat) (t : List Char), removeSpansIdx [] i t = t := by
  intro i t
  induction t generalizing i with
  | nil => rfl
  | cons c rest ih =>
    unfold removeSpansIdx
    rw [if_neg]
    · rw [ih]
    · simp [coveredBy]

theorem removeSpansIdx_append (spans : List (Nat × Nat)) :
    ∀ (x y : List Char) (i : Nat),
      removeSpansIdx spans i (x ++ y)
        = removeSpansIdx spans i x ++ removeSpansIdx spans (i + x.length) y := by
  intro x
  induction x with
  | nil => intro y i; simp [removeSpansIdx]
  | cons c xs ih =>
    intro y i
    simp only [List.cons_append]
    rw [removeSpansIdx_cons, removeSpansIdx_cons]
    have harith : i + 1 + xs.length = i + (xs.length + 1) := by omega
    by_cases h : coveredBy spans i
    · rw [if_pos h, if_pos h, ih y (i + 1)]
      simp only [List.length_cons, harith]
    · rw [if_neg h, if_neg h, ih y (i + 1)]
      simp only [List.length_cons, List.cons_append, harith]

theorem coveredBy_false_of_lt {spans : List (Nat × Nat)} {b p : Nat}
    (h : ∀ sp ∈ spans, b ≤ sp.1) (hp : p < b) : coveredBy spans p = false := by
  simp only [coveredBy, List.any_eq_false]
  intro sp hsp
  have := h sp hsp
  simp only [decide_eq_true_eq, not_and]
  omega

theorem removeSpansIdx_untouched {spans : List (Nat × Nat)} :
    ∀ (x : List Char) (i : Nat),
      (∀ p, i ≤ p → p < i + x.length → coveredBy spans p = false) →
      removeSpansIdx spans i x = x := by
  intro x
  induction x with
  | nil => intro i _; rfl
  | cons c xs ih =>
    intro i h
    have hcov : coveredBy spans i = false :=
      h i (le_refl i) (by simp only [List.length_cons]; omega)
    rw [removeSpansIdx_cons]
    rw [if_neg (by rw [hcov]; simp)]
    rw [ih (i + 1) (fun p hp1 hp2 => h p (by omega) (by simp only [List.length_cons] at hp2 ⊢; omega))]

theorem removeSpansIdx_all_covered {spans : List (Nat × Nat)} :
    ∀ (x : List Char) (i : Nat),
      (∀ p, i ≤ p → p < i + x.length → coveredBy spans p = true) →
      removeSpansIdx spans i x = [] := by
  intro x
  induction x with
  | nil => intro i _; rfl
  | cons c xs ih =>
    intro i h
    have hcov : coveredBy spans i = true :=
      h i (le_refl i) (by simp only [List.length_cons]; omega)
    rw [removeSpansIdx_cons]
    rw [if_pos hcov]
    exact ih (i + 1) (fun p hp1 hp2 => h p (by omega) (by simp only [List.length_cons] at hp2 ⊢; omega))

theorem removeSpansIdx_congr {spans spans' : List (Nat × Nat)} :
    ∀ (x : List Char) (i : Nat),
      (∀ p, i ≤ p → coveredBy spans p = coveredBy spans' p) →
      removeSpansIdx spans i x = removeSpansIdx spans' i x := by
  intro x
  induction x with
  | nil => intro i _; rfl
  | cons c xs ih =>
    intro i h
    rw [removeSpansIdx_cons, removeSpansIdx_cons]
    rw [h i (le_refl i), ih (i + 1) (fun p hp => h p (by omega))]

theorem coveredBy_cons_high {st l : Nat} {ms : List (Nat × Nat)} {p : Nat}
    (h : st + l ≤ p) : coveredBy ((st, l) :: ms) p = coveredBy ms p := by
  simp only [coveredBy, List.any_cons]
  have : (decide (st ≤ p ∧ p < st + l)) = false := by
    simp only [decide_eq_false_iff_not, not_and]
    omega
  rw [this]
  simp

theorem coveredBy_cons_self {st l : Nat} {ms : List (Nat × Nat)} {p : Nat}
    (h1 : st ≤ p) (h2 : p < st + l) : coveredBy ((st, l) :: ms) p = true := by
  simp only [coveredBy, List.any_cons]
  have : (decide (st ≤ p ∧ p < st + l)) = true := by
    simp only [decide_eq_true_eq]
    exact ⟨h1, h2⟩
  rw [this]
  simp

theorem removeSpansIdx_cons_decomp {st l : Nat} {ms : List (Nat × Nat)}
    (r : List Char) (off : Nat) (h1 : off ≤ st) (h2 : st + l ≤ off + r.length)
    (h3 : ∀ sp ∈ ms, st + l ≤ sp.1) :
    removeSpansIdx ((st, l) :: ms) off r
      = r.take (st - off) ++ removeSpansIdx ms (st + l) (r.drop (st - off + l)) := by
  have hsplit : r = r.take (st - off) ++ ((r.drop (st - off)).take l ++ (r.drop (st - off)).drop l) := by
    rw [List.take_append_drop, List.take_append_drop]
  have hdd : (r.drop (st - off)).drop l = r.drop (st - off + l) := by
    rw [List.drop_drop]
  have hlt : (r.take (st - off)).length = st - off := by
    rw [List.length_take]
    omega
  have hlm : ((r.drop (st - off)).take l).length = l := by
    rw [List.length_take, List.length_drop]
    omega
  conv_lhs => rw [hsplit]
  rw [removeSpansIdx_append, removeSpansIdx_append]
  rw [hlt, hlm, hdd]
  have hpre : removeSpansIdx ((st, l) :: ms) off (r.take (st - off)) = r.take (st - off) := by
    apply removeSpansIdx_untouched
    intro p hp1 hp2
    rw [hlt] at hp2
    have hms : coveredBy ms p = false := coveredBy_false_of_lt h3 (by omega)
    simp only [coveredBy, List.any_cons] at hms ⊢
    rw [hms]
    have : (decide (st ≤ p ∧ p < st + l)) = false := by
      simp only [decide_eq_false_iff_not, not_and]
      omega
    rw [this]
    rfl
  have hmid : removeSpansIdx ((st, l) :: ms) (off + (st - off))
      ((r.drop (st - off)).take l) = [] := by
    apply removeSpansIdx_all_covered
    intro p hp1 hp2
    rw [hlm] at hp2
    exact coveredBy_cons_self (by omega) (by omega)
  rw [hpre, hmid]
  have hidx : off + (st - off) + l = st + l := by omega
  rw [hidx]
  have hsuf : removeSpansIdx ((st, l) :: ms) (st + l) (r.drop (st - off + l))
      = removeSpansIdx ms (st + l) (r.drop (st - off + l)) := by
    apply removeSpansIdx_congr
    intro p hp
    exact coveredBy_cons_high (by omega)
  rw [hsuf]
  simp

theorem delSeq_eq : ∀ (spans : List (Nat × Nat)) (r : List Char) (off : Nat),
    SpansOrdered off (off + r.length) spans →
    delSeq r off spans = removeSpansIdx spans off r := by
  intro spans
  induction spans with
  | nil =>
    intro r off _
    rw [delSeq, removeSpansIdx_nil_spans]
  | cons p ms ih =>
    obtain ⟨st, l⟩ := p
    intro r off h
    obtain ⟨h1, h2, h3, h4⟩ := h
    rw [delSeq]
    have hlen : (r.take (st - off) ++ r.drop (st - off + l)).length = r.length - l := by
      rw [List.length_append, List.length_take, List.length_drop]
      omega
    have hord : SpansOrdered (off + l)
        ((off + l) + (r.take (st - off) ++ r.drop (st - off + l)).length) ms := by
      rw [hlen]
      have heq : off + l + (r.length - l) = off + r.length := by omega
      rw [heq]
      exact spansOrdered_weaken (by omega) h4
    rw [ih _ (off + l) hord]
    rw [removeSpansIdx_append]
    rw [removeSpansIdx_cons_decomp r off h1 h3 (fun sp hsp => (spansOrdered_starts h4 sp hsp).1)]
    congr 1
    · apply removeSpansIdx_untouched
      intro p hp1 hp2
      rw [List.length_take] at hp2
      refine coveredBy_false_of_lt (fun sp hsp => (spansOrdered_starts h4 sp hsp).1) ?_
      omega
    · have hlt : (r.take (st - off)).length = st - off := by
        rw [List.length_take]
        omega
      rw [hlt]
      have : off + l + (st - off) = st + l := by omega
      rw [this]

theorem foldDel_eq (w : List (List Char)) (m : List Char) :
    ∀ (spans : List (Nat × Nat)) (r : List Char) (off : Nat) (i : Nat),
      (m ∉ w ∨ i ≠ 0) →
      SpansOrdered off (off + r.length) spans →
      (spans.foldl
        (fun (st : List Char × Int × Nat) mt =>
          if m ∈ w ∧ st.2.2 = 0 then (st.1, st.2.1, st.2.2 + 1)
          else
            let start : Int := (mt.1 : Int) - st.2.1
            let endI : Int := start + mt.2
            (st.1.take start.toNat ++ st.1.drop endI.toNat, st.2.1 + mt.2, st.2.2 + 1))
        (r, (off : Int), i)).1 = delSeq r off spans := by
  intro spans
  induction spans with
  | nil => intro r off i _ _; rfl
  | cons p ms ih =>
    obtain ⟨st, l⟩ := p
    intro r off i hskip h
    obtain ⟨h1, h2, h3, h4⟩ := h
    rw [List.foldl_cons, delSeq]
    have hcond : ¬ (m ∈ w ∧ i = 0) := by
      rcases hskip with hn | hi
      · intro hc; exact hn hc.1
      · intro hc; exact hi hc.2
    rw [if_neg hcond]
    have e1 : ((st : Int) - (off : Int)).toNat = st - off := by omega
    have e2 : ((st : Int) - (off : Int) + (l : Int)).toNat = st - off + l := by omega
    have e3 : ((off : Int) + (l : Int)) = ((off + l : Nat) : Int) := by push_cast; ring
    simp only [e1, e2, e3]
    have hord : SpansOrdered (off + l)
        ((off + l) + (r.take (st - off) ++ r.drop (st - off + l)).length) ms := by
      rw [List.length_append, List.length_take, List.length_drop]
      have heq : off + l + (min (st - off) r.length + (r.length - (st - off + l)))
          = off + r.length := by omega
      rw [heq]
      exact spansOrdered_weaken (by omega) h4
    exact ih _ (off + l) (i + 1) (Or.inr (by omega)) hord

/-- C2: the cleanup loop for one scanned marker `m` — recomputing the
block matches on the current text, keeping the first when `m` was just
written, and deleting by indices adjusted with the cumulative offset —
deletes exactly the intended spans of the current text: it equals the
simultaneous removal of all matched spans (all of them when `m` is not in
the written set, all but the first when it is). -/
theorem claim_C2_cleanup_per_marker (written : List (List Char)) (m : List Char)
    (t : List Char) : deleteLoop written m t = specDeleteForMarker written m t := by
  unfold deleteLoop specDeleteForMarker removeSpans
  have hord := blockMatches_ordered m t
  by_cases hm : m ∈ written
  · rw [if_pos hm]
    rcases hbm : blockMatches m t with _ | ⟨⟨st, l⟩, ms⟩
    · simp [removeSpansIdx_nil_spans]
    · rw [hbm] at hord
      obtain ⟨h1, h2, h3, h4⟩ := hord
      have hmsord : SpansOrdered 0 (0 + t.length) ms := by
        simpa using spansOrdered_weaken (Nat.zero_le _) h4
      rw [List.foldl_cons]
      rw [if_pos ⟨hm, rfl⟩]
      simp only [List.drop_one, List.tail_cons]
      exact (foldDel_eq written m ms t 0 1 (Or.inr (by omega)) hmsord).trans
        (delSeq_eq ms t 0 hmsord)
  · rw [if_neg hm]
    have hord0 : SpansOrdered 0 (0 + t.length) (blockMatches m t) := by simpa using hord
    exact (foldDel_eq written m (blockMatches m t) t 0 0 (Or.inl hm) hord0).trans
      (delSeq_eq _ t 0 hord0)

/-! ### Fuel irrelevance and single-step equations for the block scan -/

theorem scanBlocks_fuel (ref : List Char) :
    ∀ (f1 : Nat) (s : List Char) (pos : Nat) (bol : Bool) (f2 : Nat),
      s.length < f1 → s.length < f2 →
      scanBlocks ref f1 s pos bol = scanBlocks ref f2 s pos bol := by
  intro f1
  induction f1 with
  | zero => intro s pos bol f2 h1 h2; omega
  | succ f1 ih =>
    intro s pos bol f2 h1 h2
    cases f2 with
    | zero => omega
    | succ f2 =>
      cases s with
      | nil => simp [scanBlocks]
      | cons c rest =>
        simp only [scanBlocks]
        simp only [List.length_cons] at h1 h2
        cases bol with
        | false =>
          simp only [Bool.cond_false]
          exact ih rest (pos + 1) (isLineTerm c) f2 (by omega) (by omega)
        | true =>
          simp only [Bool.cond_true]
          cases hmb : matchBlockAt ref (c :: rest) with
          | none => simp only [hmb]; exact ih rest (pos + 1) (isLineTerm c) f2 (by omega) (by omega)
          | some l =>
            obtain ⟨hl1, hl2⟩ := matchBlockAt_bounds hmb
            simp only [List.length_cons] at hl2
            simp only [hmb]
            congr 1
            apply ih
            · simp only [List.length_drop, List.length_cons]
              omega
            · simp only [List.length_drop, List.length_cons]
              omega

theorem scanB_nil (ref : List Char) (pos : Nat) (bol : Bool) : scanB ref [] pos bol = [] := rfl

theorem scanB_cons_notbol (ref : List Char) (c : Char) (rest : List Char) (pos : Nat) :
    scanB ref (c :: rest) pos false = scanB ref rest (pos + 1) (isLineTerm c) := by
  unfold scanB
  simp only [scanBlocks, Bool.cond_false]
  apply scanBlocks_fuel <;> simp

theorem scanB_cons_nomatch (ref : List Char) (c : Char) (rest : List Char) (pos : Nat)
    (h : matchBlockAt ref (c :: rest) = none) :
    scanB ref (c :: rest) pos true = scanB ref rest (pos + 1) (isLineTerm c) := by
  unfold scanB
  simp only [scanBlocks, Bool.cond_true, h]
  apply scanBlocks_fuel <;> simp

theorem scanB_cons_match (ref : List Char) (c : Char) (rest : List Char) (pos : Nat)
    {l : Nat} (h : matchBlockAt ref (c :: rest) = some l) :
    scanB ref (c :: rest) pos true
      = (pos, l) :: scanB ref ((c :: rest).drop l) (pos + l)
          (isLineTerm (((c :: rest).take l).getLastD 'x')) := by
  unfold scanB
  simp only [scanBlocks, Bool.cond_true, h]
  obtain ⟨hl1, hl2⟩ := matchBlockAt_bounds h
  simp only [List.length_cons] at hl2
  congr 1
  apply scanBlocks_fuel
  · simp only [List.length_cons, List.length_drop]
    omega
  · simp

theorem blockMatches_eq_scanB (ref text : List Char) :
    blockMatches ref text = scanB ref text 0 true := rfl

/-! ### Where a literal can sit inside a concatenation -/

theorem prefix_append_cases {lit X Y : List Char} {j : Nat}
    (h : lit.isPrefixOf ((X ++ Y).drop j) = true) :
    (j + lit.length ≤ X.length ∧ lit <:+: X) ∨
    (X.length ≤ j ∧ lit.isPrefixOf (Y.drop (j - X.length)) = true) ∨
    (j < X.length ∧ X.length < j + lit.length ∧ ∃ c, Y.head? = some c ∧ c ∈ lit) := by
  by_cases hj : X.length ≤ j
  · refine Or.inr (Or.inl ⟨hj, ?_⟩)
    rw [List.drop_append_eq_append_drop, List.drop_eq_nil_of_le hj] at h
    simpa using h
  · push_neg at hj
    rw [List.drop_append_eq_append_drop,
      Nat.sub_eq_zero_of_le (le_of_lt hj), List.drop_zero] at h
    replace h := List.isPrefixOf_iff_prefix.mp h
    obtain ⟨t, ht⟩ := h
    by_cases hl : j + lit.length ≤ X.length
    · refine Or.inl ⟨hl, ?_⟩
      have hlen : lit.length ≤ (X.drop j).length := by
        rw [List.length_drop]; omega
      have hlit : lit = (X.drop j).take lit.length := by
        have h1 : (X.drop j ++ Y).take lit.length = (lit ++ t).take lit.length := by rw [ht]
        rw [List.take_append_of_le_length hlen] at h1
        rw [List.take_left' rfl] at h1
        exact h1.symm
      have hpre : lit <+: X.drop j := hlit ▸ List.take_prefix _ _
      exact hpre.isInfix.trans (List.drop_suffix j X).isInfix
    · push_neg at hl
      have hXlen : (X.drop j).length = X.length - j := List.length_drop _ _
      have hA : (X.drop j) = lit.take (X.length - j) := by
        have h1 : (X.drop j ++ Y).take (X.length - j) = (lit ++ t).take (X.length - j) := by
          rw [ht]
        rw [List.take_left' hXlen] at h1
        rw [List.take_append_of_le_length (by omega)] at h1
        exact h1
      have hB : lit = X.drop j ++ lit.drop (X.length - j) := by
        conv_lhs => rw [← List.take_append_drop (X.length - j) lit]
        rw [hA]
      have hBne : lit.drop (X.length - j) ≠ [] := by
        intro hemp
        have := List.length_drop (X.length - j) lit
        rw [hemp] at this
        simp at this
        omega
      have hY : Y = lit.drop (X.length - j) ++ t := by
        have h1 : X.drop j ++ (lit.drop (X.length - j) ++ t) = X.drop j ++ Y := by
          rw [← List.append_assoc, ← hB, ht]
        exact (List.append_cancel_left h1).symm
      refine Or.inr (Or.inr ⟨hj, by omega, ?_⟩)
      rcases hdrop : lit.drop (X.length - j) with _ | ⟨c, cs⟩
      · exact absurd hdrop hBne
      · refine ⟨c, ?_, ?_⟩
        · rw [hY, hdrop]
          rfl
        · exact List.mem_of_mem_drop (hdrop ▸ List.mem_cons_self c cs)

theorem tryWsLit_none {lit r : List Char} :
    ∀ {j0 : Nat}, (∀ j, j ≤ j0 → ¬ lit.isPrefixOf (r.drop j) = true) →
      tryWsLit lit r j0 = none := by
  intro j0
  induction j0 with
  | zero =>
    intro h
    unfold tryWsLit
    rw [if_neg]
    exact h 0 (le_refl 0)
  | succ j ih =>
    intro h
    unfold tryWsLit
    rw [if_neg (h (j + 1) (le_refl _))]
    exact ih (fun j' hj' => h j' (Nat.le_succ_of_le hj'))

theorem wsThenLit_none {lit r : List Char}
    (h : ∀ j, j ≤ (r.takeWhile isJsWs).length → ¬ lit.isPrefixOf (r.drop j) = true) :
    wsThenLit lit r = none :=
  tryWsLit_none h

theorem takeWhile_length_append_le (p : Char → Bool) :
    ∀ (X Y : List Char), ((X ++ Y).takeWhile p).length ≤ X.length + (Y.takeWhile p).length := by
  intro X Y
  induction X with
  | nil => simp
  | cons c X ih =>
    rw [List.cons_append, List.takeWhile_cons]
    by_cases hc : p c
    · rw [if_pos hc]
      simp only [List.length_cons]
      omega
    · rw [if_neg hc]
      simp

theorem takeWhile_nonTerm_append {m : List Char} (hm : ∀ c ∈ m, isLineTerm c = false)
    (z : List Char) :
    (m ++ '\n' :: z).takeWhile (fun c => !isLineTerm c) = m := by
  induction m with
  | nil => simp [List.takeWhile_cons, isLineTerm]
  | cons c m ih =>
    rw [List.cons_append, List.takeWhile_cons]
    rw [if_pos (by simp [hm c (List.mem_cons_self c m)])]
    rw [ih (fun c' hc' => hm c' (List.mem_cons_of_mem c hc'))]

/-! ### Character-class facts -/

theorem isAlnum_bounds {c : Char} (h : isAlnum c = true) : '0' ≤ c ∧ c ≤ 'z' := by
  unfold isAlnum at h
  simp only [Bool.or_eq_true, Bool.and_eq_true, decide_eq_true_eq] at h
  rcases h with (⟨h1, h2⟩ | ⟨h1, h2⟩) | ⟨h1, h2⟩
  · exact ⟨le_trans (by decide) h1, h2⟩
  · exact ⟨le_trans (by decide) h1, le_trans h2 (by decide)⟩
  · exact ⟨h1, le_trans h2 (by decide)⟩

theorem isAlnum_not_lineTerm {c : Char} (h : isAlnum c = true) : isLineTerm c = false := by
  by_contra hlt
  rw [Bool.not_eq_false] at hlt
  unfold isLineTerm at hlt
  simp only [Bool.or_eq_true, decide_eq_true_eq] at hlt
  rcases hlt with ((rfl | rfl) | rfl) | rfl <;> exact absurd h (by decide)

theorem isAlnum_not_ws {c : Char} (h : isAlnum c = true) : isJsWs c = false := by
  obtain ⟨hge, hle⟩ := isAlnum_bounds h
  by_contra hws
  rw [Bool.not_eq_false] at hws
  unfold isJsWs at hws
  simp only [Bool.or_eq_true, Bool.and_eq_true, decide_eq_true_eq] at hws
  rcases hws with (((((((((((((rfl | rfl) | rfl) | rfl) | rfl) | rfl) | rfl) | rfl) | rfl) | ⟨hr, _⟩) | rfl) | rfl) | rfl) | rfl) | rfl
  · exact absurd hge (by decide)
  · exact absurd hge (by decide)
  · exact absurd hge (by decide)
  · exact absurd hge (by decide)
  · exact absurd hge (by decide)
  · exact absurd hge (by decide)
  · exact absurd hle (by decide)
  · exact absurd hle (by decide)
  · exact absurd hle (by decide)
  · exact absurd (le_trans hr hle) (by decide)
  · exact absurd hle (by decide)
  · exact absurd hle (by decide)
  · exact absurd hle (by decide)
  · exact absurd hle (by decide)
  · exact absurd hle (by decide)

/-! ### Heads, prefixes and infixes -/

theorem head_mem {l : List Char} {a : Char} (h : l.head? = some a) : a ∈ l := by
  cases l with
  | nil => simp at h
  | cons c r => simp at h; subst h; exact List.mem_cons_self c r

theorem isPrefix_head {l s : List Char} {a : Char} (h : l <+: s) (hl : l.head? = some a) :
    s.head? = some a := by
  obtain ⟨t, rfl⟩ := h
  cases l with
  | nil => simp at hl
  | cons c r => simpa using hl

theorem isPrefixOf_eq_false_of_head {l s : List Char} {a b : Char}
    (hl : l.head? = some a) (hs : s.head? = some b) (hne : a ≠ b) :
    l.isPrefixOf s = false := by
  by_contra h
  rw [Bool.not_eq_false] at h
  have := isPrefix_head (List.isPrefixOf_iff_prefix.mp h) hl
  rw [hs] at this
  exact hne (Option.some.inj this).symm

theorem isPrefixOf_nil_false {l : List Char} (h : l ≠ []) :
    l.isPrefixOf ([] : List Char) = false := by
  cases l with
  | nil => exact absurd rfl h
  | cons c r => rfl

theorem not_infix_of_head_nmem {lit L : List Char} {h : Char}
    (hh : lit.head? = some h) (hn : h ∉ L) : ¬ lit <:+: L := by
  intro hinf
  exact hn (hinf.sublist.subset (head_mem hh))

theorem not_infix_of_suffix {lit L S : List Char} (hn : ¬ lit <:+: L) (hs : S <:+ L) :
    ¬ lit <:+: S := by
  intro h
  exact hn (h.trans hs.isInfix)

theorem infix_append_right_of_head_nmem {lit F Z : List Char} {h : Char}
    (hh : lit.head? = some h) (hF : h ∉ F) (hinf : lit <:+: F ++ Z) : lit <:+: Z := by
  obtain ⟨s, t, hst⟩ := hinf
  have hd : lit <+: (F ++ Z).drop s.length := by
    rw [← hst, List.append_assoc, List.drop_left]
    exact ⟨t, rfl⟩
  by_cases hj : F.length ≤ s.length
  · rw [List.drop_append_eq_append_drop, List.drop_eq_nil_of_le hj, List.nil_append] at hd
    exact hd.isInfix.trans (List.drop_suffix _ _).isInfix
  · push_neg at hj
    rw [List.drop_append_eq_append_drop, Nat.sub_eq_zero_of_le (le_of_lt hj),
      List.drop_zero] at hd
    have hne : F.drop s.length ≠ [] := by
      intro hemp
      have := List.length_drop s.length F
      rw [hemp] at this
      simp at this
      omega
    rcases hdr : F.drop s.length with _ | ⟨c, cs⟩
    · exact absurd hdr hne
    · rw [hdr] at hd
      have hhead := isPrefix_head hd hh
      simp only [List.cons_append, List.head?_cons] at hhead
      have hc : c = h := (Option.some.inj hhead)
      subst hc
      exact absurd (List.mem_of_mem_drop (hdr ▸ List.mem_cons_self c cs)) hF

/-! ### Slug and reference character facts -/

theorem slugOk_mem : ∀ (pd : Bool) (slug : List Char), slugOk pd slug = true →
    ∀ c ∈ slug, isAlnum c = true ∨ c = '-' := by
  intro pd slug
  induction slug generalizing pd with
  | nil => intro _ c hc; simp at hc
  | cons a r ih =>
    intro h c hc
    unfold slugOk at h
    by_cases ha : isAlnum a
    · rw [if_pos ha] at h
      rcases List.mem_cons.mp hc with rfl | hc'
      · exact Or.inl ha
      · exact ih false h c hc'
    · rw [if_neg ha] at h
      split at h
      · rename_i hcond
        rcases List.mem_cons.mp hc with rfl | hc'
        · exact Or.inr hcond.1
        · exact ih true h c hc'
      · exact absurd h (by simp)

theorem validSlug_head {slug : List Char} (h : ValidSlug slug) :
    ∃ c r, slug = c :: r ∧ isAlnum c = true := by
  obtain ⟨hne, hok⟩ := h
  cases slug with
  | nil => exact absurd rfl hne
  | cons a r =>
    refine ⟨a, r, rfl, ?_⟩
    by_contra ha
    rw [Bool.not_eq_true] at ha
    unfold slugOk at hok
    rw [if_neg (by simp [ha])] at hok
    rw [if_neg (by simp)] at hok
    exact absurd hok (by simp)

theorem wfRef_head {ref : List Char} (h : WfRef ref) : ∃ r', ref = '^' :: r' := by
  obtain ⟨slug, rfl, _⟩ := h
  exact ⟨_, rfl⟩

theorem wfRef_nonterm {ref : List Char} (h : WfRef ref) :
    ∀ c ∈ ref, isLineTerm c = false := by
  obtain ⟨slug, rfl, hslug⟩ := h
  intro c hc
  rcases List.mem_append.mp hc with hI | hS
  · fin_cases hI <;> decide
  · rcases slugOk_mem true slug hslug.2 c hS with ha | rfl
    · exact isAlnum_not_lineTerm ha
    · decide

theorem wfRef_nmem {ref : List Char} (h : WfRef ref) {c : Char}
    (hA : isAlnum c = false) (hd : c ≠ '-') (hI : c ∉ indexofLit) : c ∉ ref := by
  obtain ⟨slug, rfl, hslug⟩ := h
  intro hc
  rcases List.mem_append.mp hc with hI' | hS
  · exact hI hI'
  · rcases slugOk_mem true slug hslug.2 c hS with ha | rfl
    · rw [hA] at ha; exact absurd ha (by simp)
    · exact hd rfl

theorem wfRef_no_newline {ref : List Char} (h : WfRef ref) : '\n' ∉ ref := by
  intro hm
  have := wfRef_nonterm h '\n' hm
  exact absurd this (by decide)

theorem wfRef_no_bracket {ref : List Char} (h : WfRef ref) : '[' ∉ ref :=
  wfRef_nmem h (by decide) (by decide) (by decide)

theorem wfRef_no_dollar {ref : List Char} (h : WfRef ref) : '$' ∉ ref :=
  wfRef_nmem h (by decide) (by decide) (by decide)

theorem wfRef_ne_nil {ref : List Char} (h : WfRef ref) : ref ≠ [] := by
  obtain ⟨r', rfl⟩ := wfRef_head h
  simp

/-! ### Block-text shapes -/

theorem mkBlock_length (hrest : List Char) (mids : List (List Char)) (ref : List Char) :
    (mkBlock hrest mids ref).length
      = 13 + hrest.length + (midsText mids).length + 2 + ref.length := by
  simp [mkBlock, exampleLit]
  omega

theorem blocksText_nil : blocksText [] = [] := rfl

theorem blocksText_cons (p : List Char × List Char) (acc : List (List Char × List Char)) :
    blocksText (p :: acc) = ('\n' :: '\n' :: p.2) ++ blocksText acc := by
  simp [blocksText]

theorem blocksText_append (A B : List (List Char × List Char)) :
    blocksText (A ++ B) = blocksText A ++ blocksText B := by
  simp [blocksText]

theorem btShape_blocksText {acc : List (List Char × List Char)}
    (h : ∀ p ∈ acc, WfBlock p.1 p.2) : BTShape (blocksText acc) := by
  cases acc with
  | nil => exact Or.inl rfl
  | cons p acc' =>
    obtain ⟨_, hrest, mids, ht, _⟩ := h p (List.mem_cons_self p acc')
    refine Or.inr ⟨' ' :: exampleLit ++ hrest ++ '\n' :: (midsText mids ++ '>' :: ' ' :: p.1)
      ++ blocksText acc', ?_⟩
    rw [blocksText_cons, ht]
    simp [mkBlock, exampleLit]

theorem btShape_rShape {V : List Char} (h : BTShape V) : RShape V := by
  rcases h with rfl | ⟨z, rfl⟩
  · exact Or.inl rfl
  · exact Or.inr ⟨'\n' :: '>' :: z, rfl, by intro c hc; simp at hc; subst hc; decide⟩

theorem rShape_eol {R : List Char} (h : RShape R) : eolAt R = true := by
  rcases h with rfl | ⟨z, rfl, _⟩
  · rfl
  · simp [eolAt, isLineTerm]

theorem takeWhile_cons_pos (p : Char → Bool) (c : Char) (l : List Char) (h : p c = true) :
    (c :: l).takeWhile p = c :: l.takeWhile p := by
  simp [List.takeWhile_cons, h]

theorem takeWhile_cons_neg (p : Char → Bool) (c : Char) (l : List Char) (h : p c = false) :
    (c :: l).takeWhile p = [] := by
  simp [List.takeWhile_cons, h]

theorem isPrefixOf_append_same : ∀ (X u v : List Char),
    (X ++ u).isPrefixOf (X ++ v) = u.isPrefixOf v := by
  intro X u v
  induction X with
  | nil => rfl
  | cons x X ih => simp [List.isPrefixOf, ih]

theorem isPrefixOf_append_self (u v : List Char) : u.isPrefixOf (u ++ v) = true := by
  rw [List.isPrefixOf_iff_prefix]
  exact List.prefix_append u v

/-! ### The whitespace-then-literal search over a concatenation -/

theorem wsThenLit_fail_split (lit U V : List Char) (k : Nat)
    (hU : ¬ lit <:+: U)
    (hVws : (V.takeWhile isJsWs).length ≤ k)
    (hV : ∀ j2, j2 ≤ k → lit.isPrefixOf (V.drop j2) = false)
    (hVh : ∀ c, V.head? = some c → c ∉ lit) :
    wsThenLit lit (U ++ V) = none := by
  apply wsThenLit_none
  intro j hj hpre
  have hwsb : ((U ++ V).takeWhile isJsWs).length ≤ U.length + k :=
    le_trans (takeWhile_length_append_le isJsWs U V) (by omega)
  have hjk : j ≤ U.length + k := le_trans hj hwsb
  rcases prefix_append_cases hpre with ⟨_, hinf⟩ | ⟨hXl, hp⟩ | ⟨_, _, c, hc, hcl⟩
  · exact hU hinf
  · have h2 := hV (j - U.length) (by omega)
    rw [hp] at h2
    simp at h2
  · exact hVh c hc hcl

/-! ### The header line -/

theorem matchHeaderLine_mk (hrest z : List Char)
    (hns : ∀ c ∈ hrest, isLineTerm c = false) :
    matchHeaderLine ('>' :: ' ' :: (exampleLit ++ (hrest ++ '\n' :: z)))
      = some (13 + hrest.length) := by
  have hws : wsThenLit exampleLit (' ' :: (exampleLit ++ (hrest ++ '\n' :: z))) = some 1 := by
    unfold wsThenLit
    have hrun : ((' ' :: (exampleLit ++ (hrest ++ '\n' :: z))).takeWhile isJsWs).length = 1 := by
      rw [takeWhile_cons_pos _ _ _ (by decide)]
      rw [show exampleLit ++ (hrest ++ '\n' :: z)
            = '[' :: ('!' :: 'e' :: 'x' :: 'a' :: 'm' :: 'p' :: 'l' :: 'e' :: [']']
              ++ (hrest ++ '\n' :: z)) from rfl]
      rw [takeWhile_cons_neg _ _ _ (by decide)]
      rfl
    rw [hrun]
    unfold tryWsLit
    rw [if_pos]
    show exampleLit.isPrefixOf ((' ' :: (exampleLit ++ (hrest ++ '\n' :: z))).drop 1) = true
    rw [List.drop_succ_cons, List.drop_zero]
    exact isPrefixOf_append_self _ _
  simp only [matchHeaderLine]
  rw [if_pos trivial, hws]
  have hd11 : (' ' :: (exampleLit ++ (hrest ++ '\n' :: z))).drop (1 + 10)
      = hrest ++ '\n' :: z := by
    rw [show (' ' :: (exampleLit ++ (hrest ++ '\n' :: z)))
          = (' ' :: exampleLit) ++ (hrest ++ '\n' :: z) from rfl]
    exact List.drop_left' (by rfl)
  simp only [hd11]
  rw [takeWhile_nonTerm_append hns z]
  rw [List.drop_left]
  simp only [List.head?_cons, if_pos rfl]
  rw [if_pos trivial]
  congr 1
  omega

theorem matchHeaderLine_not_gt {s : List Char} (h : ∀ c, s.head? = some c → c ≠ '>') :
    matchHeaderLine s = none := by
  cases s with
  | nil => rfl
  | cons c r =>
    simp only [matchHeaderLine]
    rw [if_neg (h c rfl)]

theorem matchHeaderLine_fail_ws {U V : List Char} (k : Nat)
    (hU : ¬ exampleLit <:+: U)
    (hVws : (V.takeWhile isJsWs).length ≤ k)
    (hV : ∀ j2, j2 ≤ k → exampleLit.isPrefixOf (V.drop j2) = false)
    (hVh : ∀ c, V.head? = some c → c ∉ exampleLit) :
    matchHeaderLine ('>' :: (U ++ V)) = none := by
  simp only [matchHeaderLine]
  rw [if_pos trivial, wsThenLit_fail_split exampleLit U V k hU hVws hV hVh]

theorem matchBlockAt_fail_hdr {ref s : List Char} (h : matchHeaderLine s = none) :
    matchBlockAt ref s = none := by
  unfold matchBlockAt
  rw [h]

/-! ### The marker line -/

theorem matchMarkerTail_self {ref R : List Char} (href : WfRef ref) (hR : eolAt R = true) :
    matchMarkerTail ref ('>' :: (' ' :: (ref ++ R))) = some (2 + ref.length) := by
  obtain ⟨r0, hr0⟩ := wfRef_head href
  have hws : wsThenLit ref (' ' :: (ref ++ R)) = some 1 := by
    unfold wsThenLit
    have hrun : ((' ' :: (ref ++ R)).takeWhile isJsWs).length = 1 := by
      rw [takeWhile_cons_pos _ _ _ (by decide)]
      rw [hr0, List.cons_append, takeWhile_cons_neg _ _ _ (by decide)]
      rfl
    rw [hrun]
    unfold tryWsLit
    rw [if_pos]
    show ref.isPrefixOf ((' ' :: (ref ++ R)).drop 1) = true
    rw [List.drop_succ_cons, List.drop_zero]
    exact isPrefixOf_append_self _ _
  simp only [matchMarkerTail]
  rw [if_pos trivial, hws]
  have hdrop : (' ' :: (ref ++ R)).drop (1 + ref.length) = R := by
    rw [show (' ' :: (ref ++ R)) = (' ' :: ref) ++ R from rfl]
    exact List.drop_left' (by simp; omega)
  show (if eolAt ((' ' :: (ref ++ R)).drop (1 + ref.length)) = true
      then some (1 + 1 + ref.length) else none) = some (2 + ref.length)
  rw [hdrop, if_pos hR]

theorem matchMarkerTail_ne {ref ref' R : List Char} (href : WfRef ref) (href' : WfRef ref')
    (hne : ref ≠ ref') (hR : R = [] ∨ ∃ z, R = '\n' :: z) :
    matchMarkerTail ref ('>' :: (' ' :: (ref' ++ R))) = none := by
  obtain ⟨s, hs, hvs⟩ := href
  obtain ⟨s', hs', hvs'⟩ := href'
  simp only [matchMarkerTail]
  rw [if_pos trivial]
  by_cases hpre : ref.isPrefixOf (ref' ++ R) = true
  · -- the literal is found after the single space; the line-end test fails
    have hws : wsThenLit ref (' ' :: (ref' ++ R)) = some 1 := by
      unfold wsThenLit
      have hrun : ((' ' :: (ref' ++ R)).takeWhile isJsWs).length = 1 := by
        rw [takeWhile_cons_pos _ _ _ (by decide)]
        rw [show ref' ++ R
              = '^' :: ('i' :: 'n' :: 'd' :: 'e' :: 'x' :: 'o' :: 'f' :: ['-'] ++ (s' ++ R))
            from by rw [hs']; rfl]
        rw [takeWhile_cons_neg _ _ _ (by decide)]
        rfl
      rw [hrun]
      unfold tryWsLit
      rw [if_pos]
      show ref.isPrefixOf ((' ' :: (ref' ++ R)).drop 1) = true
      rw [List.drop_succ_cons, List.drop_zero]
      exact hpre
    rw [hws]
    have hsp : s <+: s' ++ R := by
      rw [hs, hs', List.append_assoc, isPrefixOf_append_same] at hpre
      exact List.isPrefixOf_iff_prefix.mp hpre
    have hsne : s ≠ s' := by
      intro h; apply hne; rw [hs, hs', h]
    by_cases hsl : s.length ≤ s'.length
    · -- the slug is a proper prefix of the other slug
      have hss' : s <+: s' := by
        have h1 : s = s'.take s.length := by
          have h2 := List.prefix_iff_eq_take.mp hsp
          rw [List.take_append_of_le_length hsl] at h2
          exact h2
        rw [h1]
        exact List.take_prefix _ _
      have hlt : s.length < s'.length := by
        rcases Nat.lt_or_ge s.length s'.length with h | h
        · exact h
        · exact absurd (hss'.eq_of_length (by omega)) hsne
      have hdrop : (' ' :: (ref' ++ R)).drop (1 + ref.length) = s'.drop s.length ++ R := by
        rw [show (' ' :: (ref' ++ R)) = (' ' :: ref') ++ R from rfl]
        rw [List.drop_append_eq_append_drop]
        have h1 : (' ' :: ref').drop (1 + ref.length) = s'.drop s.length := by
          rw [hs', hs]
          rw [show (' ' :: (indexofLit ++ s')) = (' ' :: indexofLit) ++ s' from rfl]
          rw [List.drop_append_eq_append_drop]
          have h2 : (' ' :: indexofLit).drop (1 + (indexofLit ++ s).length) = [] := by
            apply List.drop_eq_nil_of_le
            simp
            omega
          rw [h2, List.nil_append]
          congr 1
          simp
          omega
        rw [h1]
        have h3 : 1 + ref.length - (' ' :: ref').length = 0 := by
          rw [hs, hs']
          simp
          omega
        rw [h3, List.drop_zero]
      show (if eolAt ((' ' :: (ref' ++ R)).drop (1 + ref.length)) = true
          then some (1 + 1 + ref.length) else none) = none
      rw [hdrop]
      have hne2 : s'.drop s.length ≠ [] := by
        intro hemp
        have := List.length_drop s.length s'
        rw [hemp] at this
        simp at this
        omega
      rcases hsd : s'.drop s.length with _ | ⟨c, cs⟩
      · exact absurd hsd hne2
      · rw [if_neg]
        simp only [List.cons_append, eolAt]
        have hcmem : c ∈ s' := List.mem_of_mem_drop (hsd ▸ List.mem_cons_self c cs)
        rcases slugOk_mem true s' hvs'.2 c hcmem with ha | rfl
        · simp [isAlnum_not_lineTerm ha]
        · decide
    · -- the slug would extend past the other slug into the line break: impossible
      exfalso
      push_neg at hsl
      obtain ⟨t, ht⟩ := hsp
      have htake : s.take s'.length = s' := by
        have h1 : (s ++ t).take s'.length = (s' ++ R).take s'.length := by rw [ht]
        rw [List.take_append_of_le_length (le_of_lt hsl), List.take_left] at h1
        exact h1
      have hsplit : s' ++ s.drop s'.length = s := by
        conv_rhs => rw [← List.take_append_drop s'.length s]
        rw [htake]
      have hrest : s.drop s'.length ++ t = R := by
        have h1 : s' ++ (s.drop s'.length ++ t) = s' ++ R := by
          rw [← List.append_assoc, hsplit, ht]
        exact List.append_cancel_left h1
      have hdne : s.drop s'.length ≠ [] := by
        intro hemp
        have := List.length_drop s'.length s
        rw [hemp] at this
        simp at this
        omega
      rcases hsd : s.drop s'.length with _ | ⟨c, cs⟩
      · exact absurd hsd hdne
      · have hcmem : c ∈ s := List.mem_of_mem_drop (hsd ▸ List.mem_cons_self c cs)
        have hcnl : c = '\n' := by
          rcases hR with rfl | ⟨z, rfl⟩
          · rw [hsd] at hrest; simp at hrest
          · rw [hsd] at hrest
            simp only [List.cons_append] at hrest
            exact (List.cons.injEq _ _ _ _ ▸ hrest).1
        subst hcnl
        rcases slugOk_mem true s hvs.2 '\n' hcmem with ha | h
        · exact absurd ha (by decide)
        · exact absurd h (by decide)
  · -- the literal is not found at all
    have hws : wsThenLit ref (' ' :: (ref' ++ R)) = none := by
      unfold wsThenLit
      have hrun : ((' ' :: (ref' ++ R)).takeWhile isJsWs).length = 1 := by
        rw [takeWhile_cons_pos _ _ _ (by decide)]
        rw [show ref' ++ R
              = '^' :: ('i' :: 'n' :: 'd' :: 'e' :: 'x' :: 'o' :: 'f' :: ['-'] ++ (s' ++ R))
            from by rw [hs']; rfl]
        rw [takeWhile_cons_neg _ _ _ (by decide)]
        rfl
      rw [hrun]
      apply tryWsLit_none
      intro j hj hp
      interval_cases j
      · rw [List.drop_zero] at hp
        have hhd : ref.head? = some '^' := by rw [hs]; rfl
        have h1 := @isPrefixOf_eq_false_of_head ref (' ' :: (ref' ++ R)) '^' ' ' hhd rfl
          (by decide)
        rw [h1] at hp
        exact Bool.noConfusion hp
      · rw [List.drop_succ_cons, List.drop_zero] at hp
        exact hpre hp
    rw [hws]

theorem takeWhile_all {p : Char → Bool} : ∀ {l : List Char}, (∀ c ∈ l, p c = true) →
    l.takeWhile p = l := by
  intro l
  induction l with
  | nil => intro _; rfl
  | cons c r ih =>
    intro h
    rw [takeWhile_cons_pos _ _ _ (h c (List.mem_cons_self c r)),
      ih (fun c' hc' => h c' (List.mem_cons_of_mem c hc'))]

theorem midsText_nil : midsText [] = [] := rfl

theorem midsText_cons (m : List Char) (mids : List (List Char)) :
    midsText (m :: mids) = '>' :: (m ++ '\n' :: midsText mids) := by
  simp [midsText, midLineOf]

theorem matchMarkerTail_not_gt {ref z : List Char}
    (h : ∀ c, z.head? = some c → c ≠ '>') : matchMarkerTail ref z = none := by
  cases z with
  | nil => rfl
  | cons c r =>
    simp only [matchMarkerTail]
    rw [if_neg (h c rfl)]

theorem matchMarkerTail_fail_ws {ref r : List Char} (h : wsThenLit ref r = none) :
    matchMarkerTail ref ('>' :: r) = none := by
  simp only [matchMarkerTail]
  rw [if_pos trivial, h]

theorem matchBlockTail_not_gt {ref : List Char} (f : Nat) {z : List Char}
    (h : ∀ c, z.head? = some c → c ≠ '>') : matchBlockTail ref f z = none := by
  cases f with
  | zero => rfl
  | succ f =>
    cases z with
    | nil => rfl
    | cons c r =>
      simp only [matchBlockTail]
      have hng : ¬(c = '>'
          ∧ ((r.drop (r.takeWhile (fun c => !isLineTerm c)).length).head? = some '\n')) :=
        fun hg => h c rfl hg.1
      rw [if_neg hng, matchMarkerTail_not_gt h]

theorem matchBlockTail_fuel (ref : List Char) :
    ∀ (f1 : Nat) (s : List Char) (f2 : Nat), s.length < f1 → s.length < f2 →
      matchBlockTail ref f1 s = matchBlockTail ref f2 s := by
  intro f1
  induction f1 with
  | zero => intro s f2 h1 h2; omega
  | succ f1 ih =>
    intro s f2 h1 h2
    cases f2 with
    | zero => omega
    | succ f2 =>
      cases s with
      | nil => rfl
      | cons c r =>
        simp only [matchBlockTail]
        by_cases hg : c = '>'
            ∧ ((r.drop (r.takeWhile (fun c => !isLineTerm c)).length).head? = some '\n')
        · rw [if_pos hg, if_pos hg]
          have hld := List.length_drop ((r.takeWhile (fun c => !isLineTerm c)).length + 1) r
          simp only [List.length_cons] at h1 h2
          rw [ih (r.drop ((r.takeWhile (fun c => !isLineTerm c)).length + 1)) f2
            (by omega) (by omega)]
        · rw [if_neg hg, if_neg hg]

theorem matchBlockTail_mk (ref : List Char) (href : WfRef ref) :
    ∀ (mids : List (List Char)) (R : List Char) (fuel : Nat),
      (∀ m ∈ mids, ∀ c ∈ m, isLineTerm c = false) → RShape R →
      (midsText mids ++ '>' :: ' ' :: (ref ++ R)).length < fuel →
      matchBlockTail ref fuel (midsText mids ++ '>' :: ' ' :: (ref ++ R))
        = some ((midsText mids).length + (2 + ref.length)) := by
  intro mids
  induction mids with
  | nil =>
    intro R fuel _ hR hfuel
    rw [midsText_nil, List.nil_append] at hfuel ⊢
    cases fuel with
    | zero => simp at hfuel
    | succ f =>
      simp only [matchBlockTail]
      rcases hR with rfl | ⟨z, rfl, hz⟩
      · -- no following text: the candidate middle line has no newline
        have hm : ∀ c ∈ ' ' :: (ref ++ ([] : List Char)), (!isLineTerm c) = true := by
          intro c hc
          simp only [List.append_nil, List.mem_cons] at hc
          rcases hc with rfl | hc
          · decide
          · simp [wfRef_nonterm href c hc]
        have htw := takeWhile_all hm
        have hng : ¬(True ∧ (((' ' :: (ref ++ ([] : List Char))).drop
            ((' ' :: (ref ++ ([] : List Char))).takeWhile (fun c => !isLineTerm c)).length).head?
              = some '\n')) := by
          rintro ⟨-, hg2⟩
          rw [htw, List.drop_length] at hg2
          simp at hg2
        rw [if_neg hng]
        have hself := @matchMarkerTail_self ref [] href rfl
        rw [hself]
        simp [midsText]
      · -- the marker line is followed by a line break: greedy line consumption
        have hm : ∀ c ∈ ' ' :: ref, isLineTerm c = false := by
          intro c hc
          rcases List.mem_cons.mp hc with rfl | hc
          · decide
          · exact wfRef_nonterm href c hc
        have htw : ((' ' :: (ref ++ '\n' :: z)).takeWhile (fun c => !isLineTerm c))
            = ' ' :: ref := by
          have h1 : ((' ' :: ref) ++ '\n' :: z).takeWhile (fun c => !isLineTerm c)
              = ' ' :: ref := takeWhile_nonTerm_append hm z
          exact h1
        have hdr : (' ' :: (ref ++ '\n' :: z)).drop ((' ' :: ref).length) = '\n' :: z := by
          have h1 : ((' ' :: ref) ++ '\n' :: z).drop ((' ' :: ref).length) = '\n' :: z :=
            List.drop_left (' ' :: ref) ('\n' :: z)
          exact h1
        have hg : True ∧ (((' ' :: (ref ++ '\n' :: z)).drop
            ((' ' :: (ref ++ '\n' :: z)).takeWhile (fun c => !isLineTerm c)).length).head?
              = some '\n') := by
          refine ⟨trivial, ?_⟩
          rw [htw, hdr]
          rfl
        rw [if_pos hg, htw]
        have hdz : (' ' :: (ref ++ '\n' :: z)).drop ((' ' :: ref).length + 1) = z := by
          have h1 : (((' ' :: ref) ++ ['\n']) ++ z).drop (((' ' :: ref) ++ ['\n']).length) = z :=
            List.drop_left _ z
          simp only [List.length_append, List.length_cons, List.length_nil] at h1
          have h2 : (' ' :: ref) ++ ['\n'] ++ z = ' ' :: (ref ++ '\n' :: z) := by simp
          rw [h2] at h1
          have h3 : (' ' :: ref).length + 1 = ref.length + 1 + (0 + 1) := by simp
          rw [h3]
          exact h1
        rw [hdz, matchBlockTail_not_gt f hz]
        have hself := @matchMarkerTail_self ref ('\n' :: z) href rfl
        rw [hself]
        simp [midsText]
  | cons m mids ih =>
    intro R fuel hmids hR hfuel
    have hshape : midsText (m :: mids) ++ '>' :: ' ' :: (ref ++ R)
        = '>' :: (m ++ '\n' :: (midsText mids ++ '>' :: ' ' :: (ref ++ R))) := by
      rw [midsText_cons]
      simp
    rw [hshape] at hfuel ⊢
    cases fuel with
    | zero => simp at hfuel
    | succ f =>
      simp only [matchBlockTail]
      have hmok : ∀ c ∈ m, isLineTerm c = false := hmids m (List.mem_cons_self m mids)
      have htw : ((m ++ '\n' :: (midsText mids ++ '>' :: ' ' :: (ref ++ R))).takeWhile
          (fun c => !isLineTerm c)) = m := takeWhile_nonTerm_append hmok _
      have hdr : (m ++ '\n' :: (midsText mids ++ '>' :: ' ' :: (ref ++ R))).drop m.length
          = '\n' :: (midsText mids ++ '>' :: ' ' :: (ref ++ R)) :=
        List.drop_left m _
      have hg : True ∧ (((m ++ '\n' :: (midsText mids ++ '>' :: ' ' :: (ref ++ R))).drop
          ((m ++ '\n' :: (midsText mids ++ '>' :: ' ' :: (ref ++ R))).takeWhile
            (fun c => !isLineTerm c)).length).head? = some '\n') := by
        refine ⟨trivial, ?_⟩
        rw [htw, hdr]
        rfl
      rw [if_pos hg, htw]
      have hdz : (m ++ '\n' :: (midsText mids ++ '>' :: ' ' :: (ref ++ R))).drop (m.length + 1)
          = midsText mids ++ '>' :: ' ' :: (ref ++ R) := by
        have h1 : ((m ++ ['\n']) ++ (midsText mids ++ '>' :: ' ' :: (ref ++ R))).drop
            ((m ++ ['\n']).length) = midsText mids ++ '>' :: ' ' :: (ref ++ R) :=
          List.drop_left _ _
        simp only [List.length_append, List.length_cons, List.length_nil] at h1
        have h2 : (m ++ ['\n']) ++ (midsText mids ++ '>' :: ' ' :: (ref ++ R))
            = m ++ '\n' :: (midsText mids ++ '>' :: ' ' :: (ref ++ R)) := by simp
        rw [h2] at h1
        have h3 : m.length + 1 = m.length + (0 + 1) := by simp
        rw [h3]
        exact h1
      rw [hdz]
      have hfl : (midsText mids ++ '>' :: ' ' :: (ref ++ R)).length < f := by
        simp only [List.length_cons, List.length_append] at hfuel ⊢
        omega
      rw [ih R f (fun m' hm' => hmids m' (List.mem_cons_of_mem m hm')) hR hfl]
      rw [midsText_cons]
      simp only [Option.some.injEq]
      simp
      omega

theorem matchBlockTail_ne (ref ref' : List Char) (href : WfRef ref) (href' : WfRef ref')
    (hne : ref ≠ ref') :
    ∀ (mids : List (List Char)) (R : List Char) (fuel : Nat),
      (∀ m ∈ mids, LineOk m) → RShape R →
      matchBlockTail ref fuel (midsText mids ++ '>' :: ' ' :: (ref' ++ R)) = none := by
  intro mids
  induction mids with
  | nil =>
    intro R fuel _ hR
    rw [midsText_nil, List.nil_append]
    cases fuel with
    | zero => rfl
    | succ f =>
      simp only [matchBlockTail]
      rcases hR with rfl | ⟨z, rfl, hz⟩
      · have hm : ∀ c ∈ ' ' :: (ref' ++ ([] : List Char)), (!isLineTerm c) = true := by
          intro c hc
          simp only [List.append_nil, List.mem_cons] at hc
          rcases hc with rfl | hc
          · decide
          · simp [wfRef_nonterm href' c hc]
        have htw := takeWhile_all hm
        have hng : ¬(True ∧ (((' ' :: (ref' ++ ([] : List Char))).drop
            ((' ' :: (ref' ++ ([] : List Char))).takeWhile (fun c => !isLineTerm c)).length).head?
              = some '\n')) := by
          rintro ⟨-, hg2⟩
          rw [htw, List.drop_length] at hg2
          simp at hg2
        rw [if_neg hng]
        exact @matchMarkerTail_ne ref ref' [] href href' hne (Or.inl rfl)
      · have hm : ∀ c ∈ ' ' :: ref', isLineTerm c = false := by
          intro c hc
          rcases List.mem_cons.mp hc with rfl | hc
          · decide
          · exact wfRef_nonterm href' c hc
        have htw : ((' ' :: (ref' ++ '\n' :: z)).takeWhile (fun c => !isLineTerm c))
            = ' ' :: ref' := takeWhile_nonTerm_append hm z
        have hdr : (' ' :: (ref' ++ '\n' :: z)).drop ((' ' :: ref').length) = '\n' :: z :=
          List.drop_left (' ' :: ref') ('\n' :: z)
        have hg : True ∧ (((' ' :: (ref' ++ '\n' :: z)).drop
            ((' ' :: (ref' ++ '\n' :: z)).takeWhile (fun c => !isLineTerm c)).length).head?
              = some '\n') := by
          refine ⟨trivial, ?_⟩
          rw [htw, hdr]
          rfl
        rw [if_pos hg, htw]
        have hdz : (' ' :: (ref' ++ '\n' :: z)).drop ((' ' :: ref').length + 1) = z := by
          have h1 : (((' ' :: ref') ++ ['\n']) ++ z).drop (((' ' :: ref') ++ ['\n']).length) = z :=
            List.drop_left _ z
          simp only [List.length_append, List.length_cons, List.length_nil] at h1
          have h2 : (' ' :: ref') ++ ['\n'] ++ z = ' ' :: (ref' ++ '\n' :: z) := by simp
          rw [h2] at h1
          have h3 : (' ' :: ref').length + 1 = ref'.length + 1 + (0 + 1) := by simp
          rw [h3]
          exact h1
        rw [hdz, matchBlockTail_not_gt f hz]
        exact @matchMarkerTail_ne ref ref' ('\n' :: z) href href' hne (Or.inr ⟨z, rfl⟩)
  | cons m mids ih =>
    intro R fuel hmids hR
    have hshape : midsText (m :: mids) ++ '>' :: ' ' :: (ref' ++ R)
        = '>' :: (m ++ '\n' :: (midsText mids ++ '>' :: ' ' :: (ref' ++ R))) := by
      rw [midsText_cons]
      simp
    rw [hshape]
    cases fuel with
    | zero => rfl
    | succ f =>
      simp only [matchBlockTail]
      have hmok : LineOk m := hmids m (List.mem_cons_self m mids)
      have htw : ((m ++ '\n' :: (midsText mids ++ '>' :: ' ' :: (ref' ++ R))).takeWhile
          (fun c => !isLineTerm c)) = m := takeWhile_nonTerm_append hmok.1 _
      have hdr : (m ++ '\n' :: (midsText mids ++ '>' :: ' ' :: (ref' ++ R))).drop m.length
          = '\n' :: (midsText mids ++ '>' :: ' ' :: (ref' ++ R)) :=
        List.drop_left m _
      have hg : True ∧ (((m ++ '\n' :: (midsText mids ++ '>' :: ' ' :: (ref' ++ R))).drop
          ((m ++ '\n' :: (midsText mids ++ '>' :: ' ' :: (ref' ++ R))).takeWhile
            (fun c => !isLineTerm c)).length).head? = some '\n') := by
        refine ⟨trivial, ?_⟩
        rw [htw, hdr]
        rfl
      rw [if_pos hg, htw]
      have hdz : (m ++ '\n' :: (midsText mids ++ '>' :: ' ' :: (ref' ++ R))).drop (m.length + 1)
          = midsText mids ++ '>' :: ' ' :: (ref' ++ R) := by
        have h1 : ((m ++ ['\n']) ++ (midsText mids ++ '>' :: ' ' :: (ref' ++ R))).drop
            ((m ++ ['\n']).length) = midsText mids ++ '>' :: ' ' :: (ref' ++ R) :=
          List.drop_left _ _
        simp only [List.length_append, List.length_cons, List.length_nil] at h1
        have h2 : (m ++ ['\n']) ++ (midsText mids ++ '>' :: ' ' :: (ref' ++ R))
            = m ++ '\n' :: (midsText mids ++ '>' :: ' ' :: (ref' ++ R)) := by simp
        rw [h2] at h1
        have h3 : m.length + 1 = m.length + (0 + 1) := by simp
        rw [h3]
        exact h1
      rw [hdz, ih R f (fun m' hm' => hmids m' (List.mem_cons_of_mem m hm')) hR]
      -- the fallback marker-line match inside the middle line fails too
      apply matchMarkerTail_fail_ws
      have hrest : ∃ rest3, midsText mids ++ '>' :: ' ' :: (ref' ++ R) = '>' :: rest3 := by
        cases mids with
        | nil => exact ⟨' ' :: (ref' ++ R), by rw [midsText_nil, List.nil_append]⟩
        | cons m0 mids0 =>
          exact ⟨(m0 ++ '\n' :: midsText mids0) ++ '>' :: ' ' :: (ref' ++ R),
            by rw [midsText_cons]; simp⟩
      obtain ⟨rest3, hrest3⟩ := hrest
      have hU : ¬ ref <:+: m := by
        intro hinfix
        obtain ⟨sl, hsl, _⟩ := href
        apply hmok.2.2.1
        have hpre : indexofLit <+: ref := by rw [hsl]; exact List.prefix_append _ _
        exact hpre.isInfix.trans hinfix
      have hVws : (('\n' :: (midsText mids ++ '>' :: ' ' :: (ref' ++ R))).takeWhile
          isJsWs).length ≤ 1 := by
        rw [takeWhile_cons_pos _ _ _ (by decide), hrest3,
          takeWhile_cons_neg _ _ _ (by decide)]
        simp
      have hhd : ref.head? = some '^' := by
        obtain ⟨r0, hr0⟩ := wfRef_head href
        rw [hr0]
        rfl
      have hV : ∀ j2, j2 ≤ 1 → ref.isPrefixOf
          (('\n' :: (midsText mids ++ '>' :: ' ' :: (ref' ++ R))).drop j2) = false := by
        intro j2 hj2
        interval_cases j2
        · rw [List.drop_zero]
          exact isPrefixOf_eq_false_of_head hhd rfl (by decide)
        · rw [List.drop_succ_cons, List.drop_zero, hrest3]
          exact isPrefixOf_eq_false_of_head hhd rfl (by decide)
      have hVh : ∀ c, ('\n' :: (midsText mids ++ '>' :: ' ' :: (ref' ++ R))).head? = some c →
          c ∉ ref := by
        intro c hc
        simp only [List.head?_cons, Option.some.injEq] at hc
        subst hc
        exact wfRef_no_newline href
      exact wsThenLit_fail_split ref m _ 1 hU hVws hV hVh

theorem mkBlock_shape (hrest : List Char) (mids : List (List Char)) (ref R : List Char) :
    mkBlock hrest mids ref ++ R
      = '>' :: ' ' :: (exampleLit ++ (hrest ++ '\n'
          :: (midsText mids ++ '>' :: ' ' :: (ref ++ R)))) := by
  simp [mkBlock]

theorem matchBlockAt_mk {ref : List Char} (hrest : List Char) (mids : List (List Char))
    (R : List Char) (href : WfRef ref)
    (hh : ∀ c ∈ hrest, isLineTerm c = false)
    (hm : ∀ m ∈ mids, ∀ c ∈ m, isLineTerm c = false)
    (hR : RShape R) :
    matchBlockAt ref (mkBlock hrest mids ref ++ R) = some (mkBlock hrest mids ref).length := by
  rw [mkBlock_shape]
  unfold matchBlockAt
  rw [matchHeaderLine_mk hrest _ hh]
  have hdrop : ('>' :: ' ' :: (exampleLit ++ (hrest ++ '\n'
      :: (midsText mids ++ '>' :: ' ' :: (ref ++ R))))).drop (13 + hrest.length)
      = midsText mids ++ '>' :: ' ' :: (ref ++ R) := by
    have h1 : (('>' :: ' ' :: exampleLit ++ (hrest ++ ['\n']))
        ++ (midsText mids ++ '>' :: ' ' :: (ref ++ R))).drop
          (('>' :: ' ' :: exampleLit ++ (hrest ++ ['\n'])).length)
        = midsText mids ++ '>' :: ' ' :: (ref ++ R) := List.drop_left _ _
    have h2 : ('>' :: ' ' :: exampleLit ++ (hrest ++ ['\n']))
        ++ (midsText mids ++ '>' :: ' ' :: (ref ++ R))
        = '>' :: ' ' :: (exampleLit ++ (hrest ++ '\n'
            :: (midsText mids ++ '>' :: ' ' :: (ref ++ R)))) := by
      simp
    have h3 : ('>' :: ' ' :: exampleLit ++ (hrest ++ ['\n'])).length = 13 + hrest.length := by
      simp [exampleLit]
      omega
    rw [h2, h3] at h1
    exact h1
  show (match matchBlockTail ref (('>' :: ' ' :: (exampleLit ++ (hrest ++ '\n'
        :: (midsText mids ++ '>' :: ' ' :: (ref ++ R))))).length + 1)
      (('>' :: ' ' :: (exampleLit ++ (hrest ++ '\n'
        :: (midsText mids ++ '>' :: ' ' :: (ref ++ R))))).drop (13 + hrest.length)) with
    | some n => some (13 + hrest.length + n)
    | none => none) = some (mkBlock hrest mids ref).length
  rw [hdrop]
  have hfl : (midsText mids ++ '>' :: ' ' :: (ref ++ R)).length
      < ('>' :: ' ' :: (exampleLit ++ (hrest ++ '\n'
          :: (midsText mids ++ '>' :: ' ' :: (ref ++ R))))).length + 1 := by
    simp
    omega
  rw [matchBlockTail_mk ref href mids R _ hm hR hfl]
  show some (13 + hrest.length + ((midsText mids).length + (2 + ref.length)))
      = some (mkBlock hrest mids ref).length
  rw [mkBlock_length]
  congr 1
  omega

theorem matchBlockAt_ne {ref ref' : List Char} (hrest : List Char) (mids : List (List Char))
    (R : List Char) (href : WfRef ref) (href' : WfRef ref') (hne : ref ≠ ref')
    (hh : ∀ c ∈ hrest, isLineTerm c = false)
    (hmids : ∀ m ∈ mids, LineOk m)
    (hR : RShape R) :
    matchBlockAt ref (mkBlock hrest mids ref' ++ R) = none := by
  rw [mkBlock_shape]
  unfold matchBlockAt
  rw [matchHeaderLine_mk hrest _ hh]
  have hdrop : ('>' :: ' ' :: (exampleLit ++ (hrest ++ '\n'
      :: (midsText mids ++ '>' :: ' ' :: (ref' ++ R))))).drop (13 + hrest.length)
      = midsText mids ++ '>' :: ' ' :: (ref' ++ R) := by
    have h1 : (('>' :: ' ' :: exampleLit ++ (hrest ++ ['\n']))
        ++ (midsText mids ++ '>' :: ' ' :: (ref' ++ R))).drop
          (('>' :: ' ' :: exampleLit ++ (hrest ++ ['\n'])).length)
        = midsText mids ++ '>' :: ' ' :: (ref' ++ R) := List.drop_left _ _
    have h2 : ('>' :: ' ' :: exampleLit ++ (hrest ++ ['\n']))
        ++ (midsText mids ++ '>' :: ' ' :: (ref' ++ R))
        = '>' :: ' ' :: (exampleLit ++ (hrest ++ '\n'
            :: (midsText mids ++ '>' :: ' ' :: (ref' ++ R)))) := by
      simp
    have h3 : ('>' :: ' ' :: exampleLit ++ (hrest ++ ['\n'])).length = 13 + hrest.length := by
      simp [exampleLit]
      omega
    rw [h2, h3] at h1
    exact h1
  show (match matchBlockTail ref (('>' :: ' ' :: (exampleLit ++ (hrest ++ '\n'
        :: (midsText mids ++ '>' :: ' ' :: (ref' ++ R))))).length + 1)
      (('>' :: ' ' :: (exampleLit ++ (hrest ++ '\n'
        :: (midsText mids ++ '>' :: ' ' :: (ref' ++ R))))).drop (13 + hrest.length)) with
    | some n => some (13 + hrest.length + n)
    | none => none) = none
  rw [hdrop]
  rw [matchBlockTail_ne ref ref' href href' hne mids R _ hmids hR]

/-! ### Walking the scan over failing stretches -/

theorem scanB_walk_nonterm (ref : List Char) :
    ∀ (M Z : List Char) (pos : Nat), (∀ c ∈ M, isLineTerm c = false) →
      scanB ref (M ++ Z) pos false = scanB ref Z (pos + M.length) false := by
  intro M
  induction M with
  | nil => intro Z pos _; simp
  | cons c M ih =>
    intro Z pos hM
    rw [List.cons_append, scanB_cons_notbol, hM c (List.mem_cons_self c M),
      ih Z (pos + 1) (fun c' hc' => hM c' (List.mem_cons_of_mem c hc'))]
    rw [show pos + (c :: M).length = pos + 1 + M.length from by
      simp only [List.length_cons]; omega]

theorem exampleFail_btShape {V : List Char} (h : BTShape V) :
    (V.takeWhile isJsWs).length ≤ 2
    ∧ (∀ j2, j2 ≤ 2 → exampleLit.isPrefixOf (V.drop j2) = false)
    ∧ (∀ c, V.head? = some c → c ∉ exampleLit) := by
  rcases h with rfl | ⟨z, rfl⟩
  · refine ⟨by simp, ?_, by simp⟩
    intro j2 _
    rw [List.drop_nil]
    exact isPrefixOf_nil_false (by decide)
  · refine ⟨?_, ?_, ?_⟩
    · rw [takeWhile_cons_pos _ _ _ (by decide), takeWhile_cons_pos _ _ _ (by decide),
        takeWhile_cons_neg _ _ _ (by decide)]
      simp
    · intro j2 hj2
      interval_cases j2
      · rw [List.drop_zero]
        exact isPrefixOf_eq_false_of_head rfl rfl (by decide)
      · rw [List.drop_succ_cons, List.drop_zero]
        exact isPrefixOf_eq_false_of_head rfl rfl (by decide)
      · rw [List.drop_succ_cons, List.drop_succ_cons, List.drop_zero]
        exact isPrefixOf_eq_false_of_head rfl rfl (by decide)
    · intro c hc
      simp only [List.head?_cons, Option.some.injEq] at hc
      subst hc
      decide

theorem midsText_head_gt (mids : List (List Char)) (tail : List Char) :
    ∃ rest3, midsText mids ++ '>' :: tail = '>' :: rest3 := by
  cases mids with
  | nil => exact ⟨tail, by rw [midsText_nil, List.nil_append]⟩
  | cons m0 mids0 =>
    exact ⟨(m0 ++ '\n' :: midsText mids0) ++ '>' :: tail, by rw [midsText_cons]; simp⟩

theorem scanB_walk_mids (ref ref' : List Char) (href' : WfRef ref') :
    ∀ (mids : List (List Char)) (W : List Char) (pos : Nat),
      (∀ m ∈ mids, LineOk m) → BTShape W →
      scanB ref (midsText mids ++ '>' :: ' ' :: (ref' ++ W)) pos true
        = scanB ref W (pos + ((midsText mids).length + 2 + ref'.length)) false := by
  intro mids
  induction mids with
  | nil =>
    intro W pos _ hW
    rw [midsText_nil, List.nil_append]
    obtain ⟨hVws, hV, hVh⟩ := exampleFail_btShape hW
    have hU : ¬ exampleLit <:+: (' ' :: ref') := by
      apply not_infix_of_head_nmem (show exampleLit.head? = some '[' from rfl)
      intro hmem
      rcases List.mem_cons.mp hmem with h | h
      · exact absurd h (by decide)
      · exact wfRef_no_bracket href' h
    have hnone : matchBlockAt ref ('>' :: ((' ' :: ref') ++ W)) = none :=
      matchBlockAt_fail_hdr (matchHeaderLine_fail_ws 2 hU hVws hV hVh)
    have hshape : ('>' : Char) :: ' ' :: (ref' ++ W) = '>' :: ((' ' :: ref') ++ W) := rfl
    rw [hshape, scanB_cons_nomatch ref '>' ((' ' :: ref') ++ W) pos hnone]
    rw [show isLineTerm '>' = false from rfl]
    have hM : ∀ c ∈ ' ' :: ref', isLineTerm c = false := by
      intro c hc
      rcases List.mem_cons.mp hc with rfl | hc
      · decide
      · exact wfRef_nonterm href' c hc
    rw [scanB_walk_nonterm ref (' ' :: ref') W (pos + 1) hM]
    rw [show pos + (([] : List Char).length + 2 + ref'.length)
          = pos + 1 + (' ' :: ref').length from by
      simp only [List.length_nil, List.length_cons]; omega]
  | cons m mids ih =>
    intro W pos hmids hW
    have hmok : LineOk m := hmids m (List.mem_cons_self m mids)
    obtain ⟨rest3, hrest3⟩ := midsText_head_gt mids (' ' :: (ref' ++ W))
    have hshape : midsText (m :: mids) ++ '>' :: ' ' :: (ref' ++ W)
        = '>' :: (m ++ ('\n' :: (midsText mids ++ '>' :: ' ' :: (ref' ++ W)))) := by
      rw [midsText_cons]
      simp
    rw [hshape]
    have hU : ¬ exampleLit <:+: m := hmok.2.1
    have hVws : (('\n' :: (midsText mids ++ '>' :: ' ' :: (ref' ++ W))).takeWhile
        isJsWs).length ≤ 1 := by
      rw [takeWhile_cons_pos _ _ _ (by decide), hrest3,
        takeWhile_cons_neg _ _ _ (by decide)]
      simp
    have hV : ∀ j2, j2 ≤ 1 → exampleLit.isPrefixOf
        (('\n' :: (midsText mids ++ '>' :: ' ' :: (ref' ++ W))).drop j2) = false := by
      intro j2 hj2
      interval_cases j2
      · rw [List.drop_zero]
        exact isPrefixOf_eq_false_of_head rfl rfl (by decide)
      · rw [List.drop_succ_cons, List.drop_zero, hrest3]
        exact isPrefixOf_eq_false_of_head rfl rfl (by decide)
    have hVh : ∀ c, ('\n' :: (midsText mids ++ '>' :: ' ' :: (ref' ++ W))).head? = some c →
        c ∉ exampleLit := by
      intro c hc
      simp only [List.head?_cons, Option.some.injEq] at hc
      subst hc
      decide
    have hnone : matchBlockAt ref
        ('>' :: (m ++ ('\n' :: (midsText mids ++ '>' :: ' ' :: (ref' ++ W))))) = none :=
      matchBlockAt_fail_hdr (matchHeaderLine_fail_ws 1 hU hVws hV hVh)
    rw [scanB_cons_nomatch ref '>' _ pos hnone]
    rw [show isLineTerm '>' = false from rfl]
    rw [scanB_walk_nonterm ref m ('\n' :: (midsText mids ++ '>' :: ' ' :: (ref' ++ W)))
      (pos + 1) hmok.1]
    rw [scanB_cons_notbol]
    rw [show isLineTerm '\n' = true from rfl]
    rw [ih W (pos + 1 + m.length + 1)
      (fun m' hm' => hmids m' (List.mem_cons_of_mem m hm')) hW]
    rw [show pos + ((midsText (m :: mids)).length + 2 + ref'.length)
          = pos + 1 + m.length + 1 + ((midsText mids).length + 2 + ref'.length) from by
      rw [midsText_cons]
      simp only [List.length_cons, List.length_append]
      omega]

theorem scanB_walk_wrong_block (ref ref' : List Char) (href : WfRef ref) (href' : WfRef ref')
    (hne : ref ≠ ref') (hrest : List Char) (mids : List (List Char)) (W : List Char)
    (pos : Nat) (hh : LineOk hrest) (hmids : ∀ m ∈ mids, LineOk m) (hW : BTShape W) :
    scanB ref (mkBlock hrest mids ref' ++ W) pos true
      = scanB ref W (pos + (mkBlock hrest mids ref').length) false := by
  have hnone : matchBlockAt ref (mkBlock hrest mids ref' ++ W) = none :=
    matchBlockAt_ne hrest mids W href href' hne hh.1 hmids (btShape_rShape hW)
  rw [mkBlock_shape] at hnone ⊢
  rw [scanB_cons_nomatch ref '>' _ pos hnone]
  rw [show isLineTerm '>' = false from rfl]
  have hM : ∀ c ∈ ' ' :: (exampleLit ++ hrest), isLineTerm c = false := by
    intro c hc
    rcases List.mem_cons.mp hc with rfl | hc
    · decide
    · rcases List.mem_append.mp hc with h | h
      · fin_cases h <;> decide
      · exact hh.1 c h
  rw [show (' ' :: (exampleLit ++ (hrest ++ '\n'
        :: (midsText mids ++ '>' :: ' ' :: (ref' ++ W)))))
      = (' ' :: (exampleLit ++ hrest))
        ++ ('\n' :: (midsText mids ++ '>' :: ' ' :: (ref' ++ W))) from by simp]
  rw [scanB_walk_nonterm ref _ _ (pos + 1) hM]
  rw [scanB_cons_notbol, show isLineTerm '\n' = true from rfl]
  rw [scanB_walk_mids ref ref' href' mids W _ hmids hW]
  rw [show pos + (mkBlock hrest mids ref').length
        = pos + 1 + (' ' :: (exampleLit ++ hrest)).length + 1
          + ((midsText mids).length + 2 + ref'.length) from by
    rw [mkBlock_length]
    simp only [List.length_cons, List.length_append, exampleLit, List.length_nil]
    omega]

theorem scanB_blocksText (ref : List Char) (href : WfRef ref) :
    ∀ (acc : List (List Char × List Char)) (pos : Nat) (b : Bool),
      (∀ p ∈ acc, WfBlock p.1 p.2) →
      scanB ref (blocksText acc) pos b = expectedSpans ref pos acc := by
  intro acc
  induction acc with
  | nil => intro pos b _; rw [blocksText_nil, scanB_nil]; rfl
  | cons p acc' ih =>
    rcases p with ⟨r, t⟩
    intro pos b hwf
    obtain ⟨href', hrest, mids, ht, hlrest, hlmids⟩ := hwf (r, t) (List.mem_cons_self _ acc')
    simp only at href' ht
    have hwf' : ∀ q ∈ acc', WfBlock q.1 q.2 := fun q hq => hwf q (List.mem_cons_of_mem _ hq)
    have hW : BTShape (blocksText acc') := btShape_blocksText hwf'
    have hshape : blocksText ((r, t) :: acc') = '\n' :: ('\n' :: (t ++ blocksText acc')) := by
      rw [blocksText_cons]; simp
    rw [hshape]
    have hn1 : matchBlockAt ref ('\n' :: ('\n' :: (t ++ blocksText acc'))) = none :=
      matchBlockAt_fail_hdr (matchHeaderLine_not_gt
        (by intro c hc; simp only [List.head?_cons, Option.some.injEq] at hc; subst hc; decide))
    have hstep1 : scanB ref ('\n' :: ('\n' :: (t ++ blocksText acc'))) pos b
        = scanB ref ('\n' :: (t ++ blocksText acc')) (pos + 1) true := by
      cases b
      · rw [scanB_cons_notbol, show isLineTerm '\n' = true from rfl]
      · rw [scanB_cons_nomatch ref '\n' _ pos hn1, show isLineTerm '\n' = true from rfl]
    rw [hstep1]
    have hn2 : matchBlockAt ref ('\n' :: (t ++ blocksText acc')) = none :=
      matchBlockAt_fail_hdr (matchHeaderLine_not_gt
        (by intro c hc; simp only [List.head?_cons, Option.some.injEq] at hc; subst hc; decide))
    rw [scanB_cons_nomatch ref '\n' _ (pos + 1) hn2, show isLineTerm '\n' = true from rfl]
    rw [show pos + 1 + 1 = pos + 2 from by omega]
    by_cases hr : r = ref
    · -- the block for the scanned reference: one span, then continue after it
      subst hr
      have hmatch : matchBlockAt r (t ++ blocksText acc') = some t.length := by
        rw [ht]
        exact matchBlockAt_mk hrest mids _ href hlrest.1
          (fun m hm => (hlmids m hm).1) (btShape_rShape hW)
      have hcons2 : t ++ blocksText acc'
          = '>' :: (' ' :: (exampleLit ++ (hrest ++ '\n'
              :: (midsText mids ++ '>' :: ' ' :: (r ++ blocksText acc'))))) := by
        rw [ht]
        exact mkBlock_shape hrest mids r (blocksText acc')
      rw [hcons2] at hmatch ⊢
      rw [scanB_cons_match r '>' _ (pos + 2) hmatch]
      rw [← hcons2]
      rw [List.drop_left t (blocksText acc')]
      rw [ih (pos + 2 + t.length) _ hwf']
      simp only [expectedSpans]
      rw [if_pos trivial]
    · -- a block for a different reference: no span, walk over it
      rw [ht]
      rw [scanB_walk_wrong_block ref r href href' (fun h => hr h.symm) hrest mids
        (blocksText acc') (pos + 2) hlrest hlmids hW]
      rw [ih (pos + 2 + (mkBlock hrest mids r).length) false hwf']
      rw [← ht]
      simp only [expectedSpans]
      rw [if_neg hr]

theorem scanB_content (ref : List Char) (href : WfRef ref)
    (acc : List (List Char × List Char)) (hacc : ∀ p ∈ acc, WfBlock p.1 p.2) :
    ∀ (X : List Char) (pos : Nat) (b : Bool), (¬ exampleLit <:+: X) →
      scanB ref (X ++ blocksText acc) pos b = expectedSpans ref (pos + X.length) acc := by
  intro X
  induction X with
  | nil =>
    intro pos b _
    rw [List.nil_append, scanB_blocksText ref href acc pos b hacc]
    simp
  | cons c X' ih =>
    intro pos b hcl
    have hcl' : ¬ exampleLit <:+: X' := not_infix_of_suffix hcl (List.suffix_cons c X')
    have hnone : matchBlockAt ref (c :: (X' ++ blocksText acc)) = none := by
      by_cases hc : c = '>'
      · subst hc
        obtain ⟨hVws, hV, hVh⟩ := exampleFail_btShape (btShape_blocksText hacc)
        exact matchBlockAt_fail_hdr (matchHeaderLine_fail_ws 2 hcl' hVws hV hVh)
      · refine matchBlockAt_fail_hdr (matchHeaderLine_not_gt ?_)
        intro c' hc'
        simp only [List.head?_cons, Option.some.injEq] at hc'
        subst hc'
        exact hc
    have hstep : scanB ref ((c :: X') ++ blocksText acc) pos b
        = scanB ref (X' ++ blocksText acc) (pos + 1) (isLineTerm c) := by
      rw [List.cons_append]
      cases b
      · rw [scanB_cons_notbol]
      · rw [scanB_cons_nomatch ref c _ pos hnone]
    rw [hstep, ih (pos + 1) (isLineTerm c) hcl']
    rw [show pos + (c :: X').length = pos + 1 + X'.length from by
      simp only [List.length_cons]; omega]

theorem blockMatches_composite (ref content : List Char)
    (acc : List (List Char × List Char)) (href : WfRef ref)
    (hclean : ¬ exampleLit <:+: content) (hacc : ∀ p ∈ acc, WfBlock p.1 p.2) :
    blockMatches ref (content ++ blocksText acc) = expectedSpans ref content.length acc := by
  rw [blockMatches_eq_scanB, scanB_content ref href acc hacc content 0 true hclean]
  rw [Nat.zero_add]

/-! ### The marker scan over the composite text -/

theorem markerMatchAt_ge {s : List Char} {l : Nat} (h : markerMatchAt s = some l) : 9 ≤ l := by
  unfold markerMatchAt at h
  split at h
  · split at h
    · split at h
      · rw [Option.some.injEq] at h
        omega
      · exact Option.noConfusion h
    · exact Option.noConfusion h
  · exact Option.noConfusion h

theorem scanMarkers_cons_nomatch {c : Char} {rest : List Char} (f : Nat)
    (h : markerMatchAt (c :: rest) = none) :
    scanMarkers (f + 1) (c :: rest) = scanMarkers f rest := by
  simp only [scanMarkers, h]

theorem scanMarkers_cons_match {c : Char} {rest : List Char} {l : Nat} (f : Nat)
    (h : markerMatchAt (c :: rest) = some l) :
    scanMarkers (f + 1) (c :: rest)
      = (c :: rest).take l :: scanMarkers f ((c :: rest).drop l) := by
  simp only [scanMarkers, h]

theorem scanMarkers_fuel : ∀ (f1 : Nat) (s : List Char) (f2 : Nat),
    s.length < f1 → s.length < f2 → scanMarkers f1 s = scanMarkers f2 s := by
  intro f1
  induction f1 with
  | zero => intro s f2 h1 _; omega
  | succ f1 ih =>
    intro s f2 h1 h2
    cases f2 with
    | zero => omega
    | succ f2 =>
      cases s with
      | nil => rfl
      | cons c rest =>
        cases hm : markerMatchAt (c :: rest) with
        | some l =>
          rw [scanMarkers_cons_match f1 hm, scanMarkers_cons_match f2 hm]
          have hge := markerMatchAt_ge hm
          have hld := List.length_drop l (c :: rest)
          simp only [List.length_cons] at h1 h2 hld
          rw [ih ((c :: rest).drop l) f2 (by omega) (by omega)]
        | none =>
          rw [scanMarkers_cons_nomatch f1 hm, scanMarkers_cons_nomatch f2 hm]
          simp only [List.length_cons] at h1 h2
          exact ih rest f2 (by omega) (by omega)

theorem scanM_nil : scanM [] = [] := rfl

theorem scanM_cons_nomatch {c : Char} {rest : List Char}
    (h : markerMatchAt (c :: rest) = none) : scanM (c :: rest) = scanM rest := by
  unfold scanM
  simp only [List.length_cons]
  exact scanMarkers_cons_nomatch (rest.length + 1) h

theorem scanM_cons_match {c : Char} {rest : List Char} {l : Nat}
    (h : markerMatchAt (c :: rest) = some l) :
    scanM (c :: rest) = (c :: rest).take l :: scanM ((c :: rest).drop l) := by
  unfold scanM
  simp only [List.length_cons]
  rw [scanMarkers_cons_match (rest.length + 1) h]
  have hge := markerMatchAt_ge h
  have hld := List.length_drop l (c :: rest)
  simp only [List.length_cons] at hld
  congr 1
  exact scanMarkers_fuel (rest.length + 1) ((c :: rest).drop l)
    (((c :: rest).drop l).length + 1) (by omega) (by omega)

theorem markerMatchAt_not_caret {s : List Char} (h : ∀ c, s.head? = some c → c ≠ '^') :
    markerMatchAt s = none := by
  unfold markerMatchAt
  rw [if_neg]
  intro hp
  cases s with
  | nil =>
    rw [isPrefixOf_nil_false (by decide)] at hp
    exact Bool.noConfusion hp
  | cons c r =>
    rw [isPrefixOf_eq_false_of_head (show indexofLit.head? = some '^' from rfl)
      (show (c :: r).head? = some c from rfl) (fun he => h c rfl he.symm)] at hp
    exact Bool.noConfusion hp

theorem scanM_region : ∀ (U V : List Char), (¬ indexofLit <:+: U) →
    (V = [] ∨ ∃ z, V = '\n' :: z) → scanM (U ++ V) = scanM V := by
  intro U
  induction U with
  | nil => intro V _ _; rw [List.nil_append]
  | cons c U' ih =>
    intro V hU hV
    have hU' := not_infix_of_suffix hU (List.suffix_cons c U')
    have hnone : markerMatchAt (c :: (U' ++ V)) = none := by
      rw [← List.cons_append]
      unfold markerMatchAt
      rw [if_neg]
      intro hp
      rw [← List.drop_zero ((c :: U') ++ V)] at hp
      rcases prefix_append_cases hp with ⟨_, hinf⟩ | ⟨hlen, _⟩ | ⟨_, _, ch, hch, hchmem⟩
      · exact hU hinf
      · simp at hlen
      · rcases hV with rfl | ⟨z, rfl⟩
        · simp at hch
        · simp only [List.head?_cons, Option.some.injEq] at hch
          subst hch
          exact absurd hchmem (by decide)
    rw [List.cons_append, scanM_cons_nomatch hnone, ih V hU' hV]

theorem slugTake_exact : ∀ (slug : List Char) (pd : Bool) (W : List Char),
    slugOk pd slug = true → (∀ c, W.head? = some c → isAlnum c = false ∧ c ≠ '-') →
    slugTake pd (slug ++ W) = slug.length := by
  intro slug
  induction slug with
  | nil =>
    intro pd W _ hW
    rw [List.nil_append]
    cases W with
    | nil => rfl
    | cons w ws =>
      obtain ⟨ha, hd⟩ := hW w rfl
      unfold slugTake
      rw [if_neg (by simp [ha]), if_neg (fun hcond => hd hcond.1)]
      rfl
  | cons a slug' ih =>
    intro pd W hok hW
    unfold slugOk at hok
    rw [List.cons_append]
    unfold slugTake
    by_cases ha : isAlnum a
    · rw [if_pos ha]
      rw [if_pos ha] at hok
      rw [ih false W hok hW]
      simp only [List.length_cons]
      omega
    · rw [if_neg ha] at hok
      split at hok
      · rename_i hcond
        rw [if_neg (by simp [ha])]
        rw [if_pos (by rw [hcond.1, hcond.2]; simp)]
        rw [ih true W hok hW]
        simp only [List.length_cons]
        omega
      · exact absurd hok (by simp)

theorem markerMatchAt_ref {ref W : List Char} (href : WfRef ref)
    (hW : ∀ c, W.head? = some c → isAlnum c = false ∧ c ≠ '-') :
    markerMatchAt (ref ++ W) = some ref.length := by
  obtain ⟨slug, rfl, hvs⟩ := href
  unfold markerMatchAt
  rw [if_pos]
  · have hd9 : ((indexofLit ++ slug) ++ W).drop 9 = slug ++ W := by
      rw [List.append_assoc]
      exact List.drop_left' (by decide)
    rw [hd9]
    obtain ⟨c0, r0, hs0, hc0⟩ := validSlug_head hvs
    rw [hs0]
    simp only [List.cons_append, List.head?_cons]
    rw [if_pos hc0, ← List.cons_append, ← hs0]
    rw [slugTake_exact slug true W hvs.2 hW]
    simp only [List.length_append]
    rfl

  · rw [List.append_assoc]
    exact isPrefixOf_append_self _ _

theorem scanM_mids : ∀ (mids : List (List Char)) (T : List Char),
    (∀ m ∈ mids, LineOk m) → scanM (midsText mids ++ T) = scanM T := by
  intro mids
  induction mids with
  | nil => intro T _; rw [midsText_nil, List.nil_append]
  | cons m mids' ih =>
    intro T hmids
    have hmok : LineOk m := hmids m (List.mem_cons_self m mids')
    have hsh : midsText (m :: mids') ++ T = ('>' :: m) ++ ('\n' :: (midsText mids' ++ T)) := by
      rw [midsText_cons]
      simp
    rw [hsh]
    have hU : ¬ indexofLit <:+: ('>' :: m) := by
      intro hinf
      have h1 : indexofLit <:+: ['>'] ++ m :=
        by simpa using hinf
      have h2 := infix_append_right_of_head_nmem
        (show indexofLit.head? = some '^' from rfl) (by decide) h1
      exact hmok.2.2.1 h2
    rw [scanM_region ('>' :: m) _ hU (Or.inr ⟨midsText mids' ++ T, rfl⟩)]
    rw [scanM_cons_nomatch (markerMatchAt_not_caret
      (by intro c hc; simp only [List.head?_cons, Option.some.injEq] at hc; subst hc; decide))]
    exact ih T (fun m' hm' => hmids m' (List.mem_cons_of_mem m hm'))

theorem scanM_blocksText : ∀ (acc : List (List Char × List Char)),
    (∀ p ∈ acc, WfBlock p.1 p.2) →
    scanM (blocksText acc) = acc.map (fun p => p.1) := by
  intro acc
  induction acc with
  | nil => intro _; rfl
  | cons p acc' ih =>
    rcases p with ⟨r, t⟩
    intro hwf
    obtain ⟨href, hrest, mids, ht, hlrest, hlmids⟩ := hwf (r, t) (List.mem_cons_self _ acc')
    simp only at href ht
    have hwf' : ∀ q ∈ acc', WfBlock q.1 q.2 := fun q hq => hwf q (List.mem_cons_of_mem _ hq)
    have hW' : BTShape (blocksText acc') := btShape_blocksText hwf'
    have hWhead : ∀ c, (blocksText acc').head? = some c → isAlnum c = false ∧ c ≠ '-' := by
      intro c hc
      rcases hW' with hemp | ⟨z, hz⟩
      · rw [hemp] at hc; simp at hc
      · rw [hz] at hc
        simp only [List.head?_cons, Option.some.injEq] at hc
        subst hc
        exact ⟨by decide, by decide⟩
    have hsh : blocksText ((r, t) :: acc')
        = ('\n' :: '\n' :: '>' :: ' ' :: (exampleLit ++ hrest))
          ++ ('\n' :: (midsText mids ++ ('>' :: ' ' :: (r ++ blocksText acc')))) := by
      rw [blocksText_cons, ht]
      simp [mkBlock]
    rw [hsh]
    have hU1 : ¬ indexofLit <:+: ('\n' :: '\n' :: '>' :: ' ' :: (exampleLit ++ hrest)) := by
      intro hinf
      have h1 : indexofLit <:+: ('\n' :: '\n' :: '>' :: ' ' :: exampleLit) ++ hrest := by
        simpa using hinf
      have h2 := infix_append_right_of_head_nmem
        (show indexofLit.head? = some '^' from rfl) (by decide) h1
      exact hlrest.2.2.1 h2
    rw [scanM_region _ _ hU1 (Or.inr ⟨_, rfl⟩)]
    rw [scanM_cons_nomatch (markerMatchAt_not_caret
      (by intro c hc; simp only [List.head?_cons, Option.some.injEq] at hc; subst hc; decide))]
    rw [scanM_mids mids _ hlmids]
    rw [scanM_cons_nomatch (markerMatchAt_not_caret
      (by intro c hc; simp only [List.head?_cons, Option.some.injEq] at hc; subst hc; decide))]
    rw [scanM_cons_nomatch (markerMatchAt_not_caret
      (by intro c hc; simp only [List.head?_cons, Option.some.injEq] at hc; subst hc; decide))]
    obtain ⟨r0, hr0⟩ := wfRef_head href
    have hcsh : r ++ blocksText acc' = '^' :: (r0 ++ blocksText acc') := by
      rw [hr0]
      rfl
    have hmm : markerMatchAt ('^' :: (r0 ++ blocksText acc')) = some r.length := by
      rw [← hcsh]
      exact markerMatchAt_ref href hWhead
    rw [hcsh, scanM_cons_match hmm, ← hcsh]
    rw [List.take_left' rfl, List.drop_left r (blocksText acc')]
    rw [ih hwf']
    rfl

theorem markerOccurrences_composite (content : List Char)
    (acc : List (List Char × List Char))
    (hclean : ¬ indexofLit <:+: content) (hacc : ∀ p ∈ acc, WfBlock p.1 p.2) :
    markerOccurrences (content ++ blocksText acc) = acc.map (fun p => p.1) := by
  have h1 : markerOccurrences (content ++ blocksText acc)
      = scanM (content ++ blocksText acc) := rfl
  have hVsh : blocksText acc = [] ∨ ∃ z, blocksText acc = '\n' :: z := by
    rcases btShape_blocksText hacc with h | ⟨z, hz⟩
    · exact Or.inl h
    · exact Or.inr ⟨'\n' :: '>' :: z, hz⟩
  rw [h1, scanM_region content _ hclean hVsh, scanM_blocksText acc hacc]

/-! ### The replacement string and the splice -/

theorem expandRepl_id : ∀ (repl : List Char), '$' ∉ repl →
    ∀ m b a, expandRepl repl m b a = repl
  | [] => by intro _ m b a; rfl
  | [c] => by intro _ m b a; rfl
  | c :: d :: r' => by
    intro hd m b a
    have hc : c ≠ '$' := fun h => hd (h ▸ List.mem_cons_self _ _)
    simp only [expandRepl]
    rw [if_neg hc]
    rw [expandRepl_id (d :: r') (fun h => hd (List.mem_cons_of_mem c h)) m b a]

theorem mem_midsText {c : Char} {mids : List (List Char)} (h : c ∈ midsText mids) :
    c = '>' ∨ c = '\n' ∨ ∃ m ∈ mids, c ∈ m := by
  unfold midsText at h
  rw [List.mem_flatten] at h
  obtain ⟨L, hL, hcL⟩ := h
  rw [List.mem_map] at hL
  obtain ⟨m, hm, rfl⟩ := hL
  unfold midLineOf at hcL
  rcases List.mem_cons.mp hcL with rfl | h2
  · exact Or.inl rfl
  · rcases List.mem_append.mp h2 with h3 | h3
    · exact Or.inr (Or.inr ⟨m, hm, h3⟩)
    · simp only [List.mem_singleton] at h3
      subst h3
      exact Or.inr (Or.inl rfl)

theorem wfBlock_no_dollar {r t : List Char} (h : WfBlock r t) : '$' ∉ t := by
  obtain ⟨href, hrest, mids, ht, hlrest, hlmids⟩ := h
  rw [ht]
  intro hmem
  simp only [mkBlock, List.cons_append, List.mem_cons, List.mem_append] at hmem
  rcases hmem with h1 | h1
  · exact absurd h1 (by decide)
  rcases h1 with h1 | h1
  · exact absurd h1 (by decide)
  rcases h1 with (h1 | h1) | h1
  · exact absurd h1 (by decide)
  · exact hlrest.2.2.2 h1
  rcases h1 with h2 | h3 | h4 | h5 | h6
  · exact absurd h2 (by decide)
  · rcases mem_midsText h3 with h4 | h4 | ⟨m, hm, h4⟩
    · exact absurd h4 (by decide)
    · exact absurd h4 (by decide)
    · exact (hlmids m hm).2.2.2 h4
  · exact absurd h4 (by decide)
  · exact absurd h5 (by decide)
  · exact wfRef_no_dollar href h6

theorem spliceGo_nil (text repl : List Char) (pos : Nat) :
    spliceGo text repl pos [] = text.drop pos := rfl

theorem spliceGo_single (text repl : List Char) (st l : Nat) :
    spliceGo text repl 0 [(st, l)]
      = text.take st ++ expandRepl repl ((text.drop st).take l) (text.take st)
          (text.drop (st + l)) ++ text.drop (st + l) := by
  simp [spliceGo]

/-! ### Expected spans and the upsert bookkeeping -/

theorem expectedSpans_not_mem (ref : List Char) :
    ∀ (acc : List (List Char × List Char)) (pos : Nat),
      ref ∉ acc.map (fun p => p.1) → expectedSpans ref pos acc = [] := by
  intro acc
  induction acc with
  | nil => intro pos _; rfl
  | cons p acc' ih =>
    rcases p with ⟨r, t⟩
    intro pos h
    simp only [List.map_cons, List.mem_cons] at h
    push_neg at h
    simp only [expectedSpans]
    rw [if_neg (fun he => h.1 he.symm), ih (pos + 2 + t.length) h.2]

theorem expectedSpans_decomp (ref t0 : List Char) :
    ∀ (A B : List (List Char × List Char)) (pos : Nat),
      ref ∉ A.map (fun p => p.1) → ref ∉ B.map (fun p => p.1) →
      expectedSpans ref pos (A ++ (ref, t0) :: B)
        = [(pos + (blocksText A).length + 2, t0.length)] := by
  intro A
  induction A with
  | nil =>
    intro B pos _ hB
    rw [List.nil_append]
    simp only [expectedSpans]
    rw [if_pos trivial, expectedSpans_not_mem ref B _ hB]
    rw [show pos + (blocksText []).length + 2 = pos + 2 from by
      rw [blocksText_nil]; simp]
  | cons p A' ih =>
    rcases p with ⟨r1, t1⟩
    intro B pos hA hB
    simp only [List.map_cons, List.mem_cons] at hA
    push_neg at hA
    rw [List.cons_append]
    simp only [expectedSpans]
    rw [if_neg (fun he => hA.1 he.symm), ih B (pos + 2 + t1.length) hA.2 hB]
    rw [show pos + (blocksText ((r1, t1) :: A')).length + 2
          = pos + 2 + t1.length + (blocksText A').length + 2 from by
      rw [blocksText_cons]
      simp only [List.length_append, List.length_cons]
      omega]

theorem upsert_not_mem : ∀ (acc : List (List Char × List Char)) (r t : List Char),
    r ∉ acc.map (fun p => p.1) → upsert acc r t = acc ++ [(r, t)] := by
  intro acc
  induction acc with
  | nil => intro r t _; rfl
  | cons p acc' ih =>
    rcases p with ⟨r', t'⟩
    intro r t h
    simp only [List.map_cons, List.mem_cons] at h
    push_neg at h
    simp only [upsert]
    rw [if_neg (fun he => h.1 he.symm), ih r t h.2]
    rfl

theorem upsert_decomp : ∀ (A : List (List Char × List Char)) (r t0 t : List Char)
    (B : List (List Char × List Char)), r ∉ A.map (fun p => p.1) →
    upsert (A ++ (r, t0) :: B) r t = A ++ (r, t) :: B := by
  intro A
  induction A with
  | nil =>
    intro r t0 t B _
    rw [List.nil_append]
    simp only [upsert]
    rw [if_pos trivial]
    rfl
  | cons p A' ih =>
    rcases p with ⟨a, ta⟩
    intro r t0 t B hA
    simp only [List.map_cons, List.mem_cons] at hA
    push_neg at hA
    rw [List.cons_append]
    simp only [upsert]
    rw [if_neg (fun h => hA.1 h.symm), ih r t0 t B hA.2]
    rfl

theorem upsert_fst : ∀ (acc : List (List Char × List Char)) (r t : List Char),
    (upsert acc r t).map (fun p => p.1)
      = if r ∈ acc.map (fun p => p.1) then acc.map (fun p => p.1)
        else acc.map (fun p => p.1) ++ [r] := by
  intro acc
  induction acc with
  | nil => intro r t; rfl
  | cons p acc' ih =>
    rcases p with ⟨a, ta⟩
    intro r t
    simp only [upsert, List.map_cons]
    by_cases ha : a = r
    · subst ha
      rw [if_pos rfl]
      rw [if_pos (by simp)]
      rfl
    · rw [if_neg ha, List.map_cons, ih r t]
      by_cases hm : r ∈ acc'.map (fun p => p.1)
      · rw [if_pos hm, if_pos (by simp [hm])]
      · rw [if_neg hm, if_neg ?_]
        · rfl
        · simp only [List.mem_cons]
          push_neg
          exact ⟨fun h => ha h.symm, hm⟩

theorem upsert_mem_src : ∀ (acc : List (List Char × List Char)) (r t : List Char)
    (p : List Char × List Char), p ∈ upsert acc r t → p ∈ acc ∨ p = (r, t) := by
  intro acc
  induction acc with
  | nil =>
    intro r t p hp
    simp only [upsert, List.mem_singleton] at hp
    exact Or.inr hp
  | cons q acc' ih =>
    rcases q with ⟨a, ta⟩
    intro r t p hp
    simp only [upsert] at hp
    by_cases ha : a = r
    · rw [if_pos ha] at hp
      rcases List.mem_cons.mp hp with rfl | hp'
      · subst ha
        exact Or.inr rfl
      · exact Or.inl (List.mem_cons_of_mem _ hp')
    · rw [if_neg ha] at hp
      rcases List.mem_cons.mp hp with rfl | hp'
      · exact Or.inl (List.mem_cons_self _ _)
      · rcases ih r t p hp' with h | h
        · exact Or.inl (List.mem_cons_of_mem _ h)
        · exact Or.inr h

theorem upsert_nodup (acc : List (List Char × List Char)) (r t : List Char)
    (h : (acc.map (fun p => p.1)).Nodup) : ((upsert acc r t).map (fun p => p.1)).Nodup := by
  rw [upsert_fst]
  by_cases hm : r ∈ acc.map (fun p => p.1)
  · rw [if_pos hm]
    exact h
  · rw [if_neg hm]
    rw [List.nodup_append]
    exact ⟨h, List.nodup_singleton r, by simp [hm]⟩

/-! ### Last-value characterisation of the upsert fold -/

theorem foldl_lastVal (r : List Char) : ∀ (bs : List (List Char × List Char))
    (init : Option (List Char)),
    bs.foldl (fun o p => if p.1 = r then some p.2 else o) init = (lastVal bs r).or init := by
  intro bs
  induction bs with
  | nil => intro init; rfl
  | cons p bs' ih =>
    intro init
    rw [List.foldl_cons, ih]
    have hR : lastVal (p :: bs') r
        = (lastVal bs' r).or (if p.1 = r then some p.2 else none) := by
      show (p :: bs').foldl (fun o q => if q.1 = r then some q.2 else o) none
          = (lastVal bs' r).or (if p.1 = r then some p.2 else none)
      rw [List.foldl_cons, ih]
    rw [hR]
    cases lastVal bs' r with
    | some v => rfl
    | none =>
      by_cases hp : p.1 = r
      · rw [if_pos hp, if_pos hp]
        rfl
      · rw [if_neg hp, if_neg hp]
        rfl

theorem lastVal_cons (r : List Char) (p : List Char × List Char)
    (bs : List (List Char × List Char)) :
    lastVal (p :: bs) r = (lastVal bs r).or (if p.1 = r then some p.2 else none) := by
  show (p :: bs).foldl (fun o q => if q.1 = r then some q.2 else o) none
      = (lastVal bs r).or (if p.1 = r then some p.2 else none)
  rw [List.foldl_cons, foldl_lastVal]

theorem lastVal_mem : ∀ (bs : List (List Char × List Char)) (r v : List Char),
    lastVal bs r = some v → (r, v) ∈ bs := by
  intro bs
  induction bs with
  | nil => intro r v h; exact Option.noConfusion h
  | cons p bs' ih =>
    rcases p with ⟨p1, p2⟩
    intro r v h
    rw [lastVal_cons] at h
    cases hl : lastVal bs' r with
    | some w =>
      rw [hl] at h
      have h2 : some w = some v := h
      rw [Option.some.injEq] at h2
      subst h2
      exact List.mem_cons_of_mem _ (ih r w hl)
    | none =>
      rw [hl] at h
      have h2 : (if p1 = r then some p2 else none) = some v := h
      by_cases hp : p1 = r
      · rw [if_pos hp] at h2
        rw [Option.some.injEq] at h2
        subst h2
        subst hp
        exact List.mem_cons_self _ _
      · rw [if_neg hp] at h2
        exact Option.noConfusion h2

theorem updF_none {f : List Char → Option (List Char)} {a : List (List Char × List Char)}
    (h : ∀ p ∈ a, f p.1 = none) : updF f a = a := by
  unfold updF
  calc a.map (fun p => match f p.1 with | some v => (p.1, v) | none => p)
      = a.map id := List.map_congr_left (fun p hp => by rw [h p hp]; rfl)
    _ = a := List.map_id a

theorem updF_self {f : List Char → Option (List Char)} {a : List (List Char × List Char)}
    (h : ∀ p ∈ a, f p.1 = some p.2) : updF f a = a := by
  unfold updF
  calc a.map (fun p => match f p.1 with | some v => (p.1, v) | none => p)
      = a.map id := List.map_congr_left (fun p hp => by rw [h p hp]; rfl)
    _ = a := List.map_id a

theorem updF_congr {f g : List Char → Option (List Char)} {a : List (List Char × List Char)}
    (h : ∀ p ∈ a, f p.1 = g p.1) : updF f a = updF g a := by
  unfold updF
  exact List.map_congr_left (fun p hp => by rw [h p hp])

theorem updF_comp (f g : List Char → Option (List Char)) (a : List (List Char × List Char)) :
    updF g (updF f a) = updF (fun x => (g x).or (f x)) a := by
  unfold updF
  rw [List.map_map]
  apply List.map_congr_left
  intro p _
  simp only [Function.comp]
  cases hf : f p.1 with
  | some v => cases hg : g p.1 with
    | some w => simp [hf, hg]
    | none => simp [hf, hg]
  | none => cases hg : g p.1 with
    | some w => simp [hf, hg]
    | none => simp [hf, hg]

theorem updF_cons (f : List Char → Option (List Char)) (p : List Char × List Char)
    (a : List (List Char × List Char)) :
    updF f (p :: a)
      = (match f p.1 with | some v => (p.1, v) | none => p) :: updF f a := rfl

theorem upsert_eq_updF : ∀ (acc : List (List Char × List Char)) (r t : List Char),
    (acc.map (fun p => p.1)).Nodup → r ∈ acc.map (fun p => p.1) →
    upsert acc r t = updF (fun x => if x = r then some t else none) acc := by
  intro acc
  induction acc with
  | nil => intro r t _ h; simp at h
  | cons q acc' ih =>
    rcases q with ⟨a, ta⟩
    intro r t hnd hmem
    simp only [List.map_cons, List.nodup_cons] at hnd
    simp only [upsert]
    by_cases ha : a = r
    · subst ha
      rw [if_pos rfl, updF_cons]
      have h2 : updF (fun x => if x = a then some t else none) acc' = acc' := by
        apply updF_none
        intro p hp
        rw [if_neg]
        intro hpr
        exact hnd.1 (hpr ▸ List.mem_map_of_mem (fun p => p.1) hp)
      rw [h2]
      congr 1
      simp
    · have hmem' : r ∈ acc'.map (fun p => p.1) := by
        simp only [List.map_cons, List.mem_cons] at hmem
        rcases hmem with h | h
        · exact absurd h.symm ha
        · exact h
      rw [if_neg ha, updF_cons, ih r t hnd.2 hmem']
      congr 1
      simp [ha]

theorem upsertAll_nil (acc : List (List Char × List Char)) : upsertAll acc [] = acc := rfl

theorem upsertAll_cons (acc : List (List Char × List Char)) (p : List Char × List Char)
    (bs : List (List Char × List Char)) :
    upsertAll acc (p :: bs) = upsertAll (upsert acc p.1 p.2) bs := rfl

theorem mem_keys_upsert_self (acc : List (List Char × List Char)) (r t : List Char) :
    r ∈ (upsert acc r t).map (fun p => p.1) := by
  rw [upsert_fst]
  by_cases hm : r ∈ acc.map (fun p => p.1)
  · rw [if_pos hm]; exact hm
  · rw [if_neg hm]; simp

theorem mem_keys_upsert_of {acc : List (List Char × List Char)} {x : List Char}
    (r t : List Char) (h : x ∈ acc.map (fun p => p.1)) :
    x ∈ (upsert acc r t).map (fun p => p.1) := by
  rw [upsert_fst]
  by_cases hm : r ∈ acc.map (fun p => p.1)
  · rw [if_pos hm]; exact h
  · rw [if_neg hm]; exact List.mem_append_left _ h

theorem upsertAll_keys_sup : ∀ (bs acc : List (List Char × List Char)) (x : List Char),
    (x ∈ acc.map (fun p => p.1) ∨ x ∈ bs.map (fun p => p.1)) →
    x ∈ (upsertAll acc bs).map (fun p => p.1) := by
  intro bs
  induction bs with
  | nil =>
    intro acc x h
    rcases h with h | h
    · exact h
    · simp at h
  | cons q bs' ih =>
    intro acc x h
    rw [upsertAll_cons]
    apply ih
    rcases h with h | h
    · exact Or.inl (mem_keys_upsert_of q.1 q.2 h)
    · simp only [List.map_cons, List.mem_cons] at h
      rcases h with rfl | h
      · exact Or.inl (mem_keys_upsert_self acc q.1 q.2)
      · exact Or.inr h

theorem upsertAll_nodup : ∀ (bs acc : List (List Char × List Char)),
    (acc.map (fun p => p.1)).Nodup → ((upsertAll acc bs).map (fun p => p.1)).Nodup := by
  intro bs
  induction bs with
  | nil => intro acc h; exact h
  | cons q bs' ih =>
    intro acc h
    rw [upsertAll_cons]
    exact ih _ (upsert_nodup acc q.1 q.2 h)

theorem upsertAll_mem_src : ∀ (bs acc : List (List Char × List Char))
    (p : List Char × List Char), p ∈ upsertAll acc bs → p ∈ acc ∨ p ∈ bs := by
  intro bs
  induction bs with
  | nil => intro acc p h; exact Or.inl h
  | cons q bs' ih =>
    intro acc p h
    rw [upsertAll_cons] at h
    rcases ih _ p h with h2 | h2
    · rcases upsert_mem_src acc q.1 q.2 p h2 with h3 | h3
      · exact Or.inl h3
      · exact Or.inr (h3 ▸ List.mem_cons_self q bs')
    · exact Or.inr (List.mem_cons_of_mem q h2)

theorem upsertAll_eq_updF : ∀ (bs acc : List (List Char × List Char)),
    (acc.map (fun p => p.1)).Nodup →
    (∀ x ∈ bs.map (fun p => p.1), x ∈ acc.map (fun p => p.1)) →
    upsertAll acc bs = updF (lastVal bs) acc := by
  intro bs
  induction bs with
  | nil =>
    intro acc _ _
    rw [upsertAll_nil]
    exact (updF_none (fun p _ => rfl)).symm
  | cons q bs' ih =>
    rcases q with ⟨r, t⟩
    intro acc hnd hkeys
    rw [upsertAll_cons]
    have hr : r ∈ acc.map (fun p => p.1) := hkeys r (by simp)
    have hkeq : (upsert acc r t).map (fun p => p.1) = acc.map (fun p => p.1) := by
      rw [upsert_fst, if_pos hr]
    have hsub : ∀ x ∈ bs'.map (fun p => p.1), x ∈ (upsert acc r t).map (fun p => p.1) := by
      intro x hx
      rw [hkeq]
      apply hkeys
      simp only [List.map_cons]
      exact List.mem_cons_of_mem _ hx
    rw [ih (upsert acc r t) (upsert_nodup acc r t hnd) hsub]
    rw [upsert_eq_updF acc r t hnd hr, updF_comp]
    apply updF_congr
    intro p hp
    rw [lastVal_cons]
    by_cases hx : p.1 = r
    · rw [if_pos hx, if_pos hx.symm]
    · rw [if_neg hx, if_neg (fun h => hx h.symm)]

theorem upsert_mem_strong : ∀ (acc : List (List Char × List Char)) (r t : List Char)
    (p : List Char × List Char), (acc.map (fun q => q.1)).Nodup → p ∈ upsert acc r t →
    (p ∈ acc ∧ p.1 ≠ r) ∨ p = (r, t) := by
  intro acc
  induction acc with
  | nil =>
    intro r t p _ hp
    simp only [upsert, List.mem_singleton] at hp
    exact Or.inr hp
  | cons q acc' ih =>
    rcases q with ⟨a, ta⟩
    intro r t p hnd hp
    simp only [List.map_cons, List.nodup_cons] at hnd
    simp only [upsert] at hp
    by_cases ha : a = r
    · rw [if_pos ha] at hp
      rcases List.mem_cons.mp hp with rfl | hp'
      · subst ha
        exact Or.inr rfl
      · refine Or.inl ⟨List.mem_cons_of_mem _ hp', ?_⟩
        intro hpr
        apply hnd.1
        rw [ha, ← hpr]
        exact List.mem_map_of_mem (fun q => q.1) hp'
    · rw [if_neg ha] at hp
      rcases List.mem_cons.mp hp with rfl | hp'
      · exact Or.inl ⟨List.mem_cons_self _ _, ha⟩
      · rcases ih r t p hnd.2 hp' with ⟨h1, h2⟩ | h1
        · exact Or.inl ⟨List.mem_cons_of_mem _ h1, h2⟩
        · exact Or.inr h1

theorem upsertAll_lastVal : ∀ (bs acc : List (List Char × List Char))
    (p : List Char × List Char), (acc.map (fun q => q.1)).Nodup → p ∈ upsertAll acc bs →
    lastVal bs p.1 = some p.2 ∨ (lastVal bs p.1 = none ∧ p ∈ acc) := by
  intro bs
  induction bs with
  | nil =>
    intro acc p _ hp
    exact Or.inr ⟨rfl, hp⟩
  | cons q bs' ih =>
    rcases q with ⟨r, t⟩
    intro acc p hnd hp
    rw [upsertAll_cons] at hp
    rcases ih _ p (upsert_nodup acc r t hnd) hp with h | ⟨hnone, hpmem⟩
    · left
      rw [lastVal_cons, h]
      rfl
    · rcases upsert_mem_strong acc r t p hnd hpmem with ⟨h1, h2⟩ | h1
      · right
        refine ⟨?_, h1⟩
        rw [lastVal_cons, hnone]
        show (if r = p.1 then some t else none) = none
        rw [if_neg (fun h => h2 h.symm)]
      · left
        subst h1
        rw [lastVal_cons, hnone]
        show (if r = r then some t else none) = some t
        rw [if_pos rfl]

theorem upsertAll_idem (bs : List (List Char × List Char)) :
    upsertAll (upsertAll [] bs) bs = upsertAll [] bs := by
  have hnodupA : ((upsertAll [] bs).map (fun p => p.1)).Nodup :=
    upsertAll_nodup bs [] (by simp)
  have hkeys : ∀ x ∈ bs.map (fun p => p.1), x ∈ (upsertAll [] bs).map (fun p => p.1) :=
    fun x hx => upsertAll_keys_sup bs [] x (Or.inr hx)
  rw [upsertAll_eq_updF bs (upsertAll [] bs) hnodupA hkeys]
  apply updF_self
  intro p hp
  rcases upsertAll_lastVal bs [] p (by simp) hp with h | ⟨_, h⟩
  · exact h
  · simp at h

theorem mem_keys_decomp : ∀ (acc : List (List Char × List Char)) (r : List Char),
    (acc.map (fun p => p.1)).Nodup → r ∈ acc.map (fun p => p.1) →
    ∃ A t0 B, acc = A ++ (r, t0) :: B ∧ r ∉ A.map (fun p => p.1)
      ∧ r ∉ B.map (fun p => p.1) := by
  intro acc
  induction acc with
  | nil => intro r _ h; simp at h
  | cons q acc' ih =>
    rcases q with ⟨a, ta⟩
    intro r hnd hmem
    simp only [List.map_cons, List.nodup_cons] at hnd
    simp only [List.map_cons, List.mem_cons] at hmem
    rcases hmem with rfl | hmem'
    · exact ⟨[], ta, acc', by simp, by simp, hnd.1⟩
    · obtain ⟨A', t0, B, hdec, hnA, hnB⟩ := ih r hnd.2 hmem'
      have har : a ≠ r := by
        intro h
        subst h
        exact hnd.1 hmem'
      refine ⟨(a, ta) :: A', t0, B, by rw [hdec]; rfl, ?_, hnB⟩
      simp only [List.map_cons, List.mem_cons]
      push_neg
      exact ⟨fun h => har h.symm, hnA⟩

/-! ### The replace-or-append phase on the composite text -/

theorem phase1_fold (content : List Char) (hclean : ¬ exampleLit <:+: content) :
    ∀ (bs : List (List Char × List Char)) (T : List Char)
      (acc : List (List Char × List Char)) (ws : List (List Char)),
      T = content ++ blocksText acc →
      (∀ p ∈ bs, WfBlock p.1 p.2) → (∀ p ∈ acc, WfBlock p.1 p.2) →
      (acc.map (fun p => p.1)).Nodup →
      bs.foldl
        (fun acc pair =>
          let ms := blockMatches pair.1 acc.1
          let result2 :=
            if ms = [] then acc.1 ++ '\n' :: '\n' :: pair.2
            else jsReplaceAll pair.1 pair.2 acc.1
          (result2, acc.2 ++ [pair.1])) (T, ws)
      = (content ++ blocksText (upsertAll acc bs), ws ++ bs.map (fun p => p.1)) := by
  intro bs
  induction bs with
  | nil =>
    intro T acc ws hT _ _ _
    rw [List.foldl_nil, upsertAll_nil, hT]
    simp
  | cons q bs' ih =>
    rcases q with ⟨r, t⟩
    intro T acc ws hT hbs hacc hnd
    have hwfrt : WfBlock r t := hbs (r, t) (List.mem_cons_self _ _)
    have href : WfRef r := hwfrt.1
    have hbs' : ∀ p ∈ bs', WfBlock p.1 p.2 := fun p hp => hbs p (List.mem_cons_of_mem _ hp)
    have hms : blockMatches r T = expectedSpans r content.length acc := by
      rw [hT]
      exact blockMatches_composite r content acc href hclean hacc
    rw [List.foldl_cons]
    simp only []
    by_cases hmem : r ∈ acc.map (fun p => p.1)
    · -- an existing block is replaced in place
      obtain ⟨A, t0, B, hdec, hnA, hnB⟩ := mem_keys_decomp acc r hnd hmem
      have hms2 : blockMatches r T
          = [(content.length + (blocksText A).length + 2, t0.length)] := by
        rw [hms, hdec, expectedSpans_decomp r t0 A B content.length hnA hnB]
      have hTsh : T = (content ++ blocksText A ++ ['\n', '\n'])
          ++ (t0 ++ blocksText B) := by
        rw [hT, hdec, blocksText_append, blocksText_cons]
        simp
      have hlen1 : (content ++ blocksText A ++ ['\n', '\n']).length
          = content.length + (blocksText A).length + 2 := by
        simp only [List.length_append, List.length_cons, List.length_nil]
      have hrepl : jsReplaceAll r t T = content ++ blocksText (upsert acc r t) := by
        unfold jsReplaceAll
        rw [hms2, spliceGo_single]
        have htk : T.take (content.length + (blocksText A).length + 2)
            = content ++ blocksText A ++ ['\n', '\n'] := by
          rw [hTsh, List.take_left' hlen1]
        have hdp : T.drop (content.length + (blocksText A).length + 2 + t0.length)
            = blocksText B := by
          have hTsh2 : T = ((content ++ blocksText A ++ ['\n', '\n']) ++ t0)
              ++ blocksText B := by
            rw [hTsh]
            simp
          rw [hTsh2]
          apply List.drop_left'
          simp only [List.length_append, List.length_cons, List.length_nil]
        rw [htk, hdp]
        rw [expandRepl_id t (wfBlock_no_dollar hwfrt) _ _ _]
        rw [hdec, upsert_decomp A r t0 t B hnA]
        rw [blocksText_append, blocksText_cons]
        simp
      rw [if_neg (by simp [hms2])]
      have hups_wf : ∀ p ∈ upsert acc r t, WfBlock p.1 p.2 := by
        intro p hp
        rcases upsert_mem_src acc r t p hp with h | h
        · exact hacc p h
        · rw [h]
          exact hwfrt
      rw [hrepl]
      rw [ih (content ++ blocksText (upsert acc r t)) (upsert acc r t) (ws ++ [r]) rfl
        hbs' hups_wf (upsert_nodup acc r t hnd)]
      rw [upsertAll_cons]
      simp
    · -- no existing block: append at the end
      have hms2 : blockMatches r T = [] := by
        rw [hms]
        exact expectedSpans_not_mem r acc content.length hmem
      rw [if_pos hms2]
      have happ : T ++ '\n' :: '\n' :: t = content ++ blocksText (upsert acc r t) := by
        rw [hT, upsert_not_mem acc r t hmem, blocksText_append, blocksText_cons, blocksText_nil]
        simp
      rw [happ]
      have hups_wf : ∀ p ∈ upsert acc r t, WfBlock p.1 p.2 := by
        intro p hp
        rcases upsert_mem_src acc r t p hp with h | h
        · exact hacc p h
        · rw [h]
          exact hwfrt
      rw [ih (content ++ blocksText (upsert acc r t)) (upsert acc r t) (ws ++ [r]) rfl
        hbs' hups_wf (upsert_nodup acc r t hnd)]
      rw [upsertAll_cons]
      simp

theorem phase1_eq (content : List Char) (acc0 bs : List (List Char × List Char))
    (hclean : ¬ exampleLit <:+: content)
    (hacc : ∀ p ∈ acc0, WfBlock p.1 p.2) (hnd : (acc0.map (fun p => p.1)).Nodup)
    (hbs : ∀ p ∈ bs, WfBlock p.1 p.2) :
    phase1 (content ++ blocksText acc0) bs
      = (content ++ blocksText (upsertAll acc0 bs), bs.map (fun p => p.1)) := by
  unfold phase1
  have h := phase1_fold content hclean bs (content ++ blocksText acc0) acc0 [] rfl hbs hacc hnd
  rw [h]
  simp

/-! ### The cleanup pass on the composite text -/

theorem deleteLoop_single (ws : List (List Char)) (m T : List Char) (st l : Nat)
    (hms : blockMatches m T = [(st, l)]) (hmem : m ∈ ws) :
    deleteLoop ws m T = T := by
  unfold deleteLoop
  rw [hms]
  simp only [List.foldl_cons, List.foldl_nil]
  rw [if_pos ⟨hmem, trivial⟩]

theorem cleanupPass_eq (content : List Char) (A : List (List Char × List Char))
    (ws : List (List Char))
    (hclean : ¬ exampleLit <:+: content) (hcleanM : ¬ indexofLit <:+: content)
    (hA : ∀ p ∈ A, WfBlock p.1 p.2) (hnd : (A.map (fun p => p.1)).Nodup)
    (hws : ∀ x ∈ A.map (fun p => p.1), x ∈ ws) :
    cleanupPass ws (content ++ blocksText A) = content ++ blocksText A := by
  unfold cleanupPass
  rw [markerOccurrences_composite content A hcleanM hA]
  have hid : ∀ m ∈ A.map (fun p => p.1),
      deleteLoop ws m (content ++ blocksText A) = content ++ blocksText A := by
    intro m hm
    obtain ⟨A1, t0, B1, hdec, hnA1, hnB1⟩ := mem_keys_decomp A m hnd hm
    have hent : (m, t0) ∈ A := by
      rw [hdec]
      exact List.mem_append_right A1 (List.mem_cons_self _ _)
    have href : WfRef m := (hA (m, t0) hent).1
    have hms : blockMatches m (content ++ blocksText A)
        = [(content.length + (blocksText A1).length + 2, t0.length)] := by
      rw [blockMatches_composite m content A href hclean hA, hdec,
        expectedSpans_decomp m t0 A1 B1 content.length hnA1 hnB1]
    exact deleteLoop_single ws m _ _ _ hms (hws m hm)
  have hfold : ∀ (ms : List (List Char)),
      (∀ m ∈ ms, deleteLoop ws m (content ++ blocksText A) = content ++ blocksText A) →
      ms.foldl (fun r m => deleteLoop ws m r) (content ++ blocksText A)
        = content ++ blocksText A := by
    intro ms
    induction ms with
    | nil => intro _; rfl
    | cons m ms' ih =>
      intro h
      rw [List.foldl_cons, h m (List.mem_cons_self _ _)]
      exact ih (fun m' hm' => h m' (List.mem_cons_of_mem _ hm'))
  exact hfold _ hid

/-! ### `getUpdatedContent` on clean content and well-formed blocks -/

theorem getUpdatedContent_composite (content : List Char)
    (acc0 bs : List (List Char × List Char))
    (hclean : CleanContent content)
    (hacc : ∀ p ∈ acc0, WfBlock p.1 p.2) (hnd : (acc0.map (fun p => p.1)).Nodup)
    (hkeys : ∀ x ∈ acc0.map (fun p => p.1), x ∈ bs.map (fun p => p.1))
    (hbs : ∀ p ∈ bs, WfBlock p.1 p.2) :
    getUpdatedContent (content ++ blocksText acc0) bs
      = content ++ blocksText (upsertAll acc0 bs) := by
  unfold getUpdatedContent
  rw [phase1_eq content acc0 bs hclean.1 hacc hnd hbs]
  have hwfA : ∀ p ∈ upsertAll acc0 bs, WfBlock p.1 p.2 := by
    intro p hp
    rcases upsertAll_mem_src bs acc0 p hp with h | h
    · exact hacc p h
    · exact hbs p h
  have hndA : ((upsertAll acc0 bs).map (fun p => p.1)).Nodup := upsertAll_nodup bs acc0 hnd
  have hkeysA : ∀ x ∈ (upsertAll acc0 bs).map (fun p => p.1), x ∈ bs.map (fun p => p.1) := by
    intro x hx
    rw [List.mem_map] at hx
    obtain ⟨p, hp, rfl⟩ := hx
    rcases upsertAll_mem_src bs acc0 p hp with h | h
    · exact hkeys p.1 (List.mem_map_of_mem (fun q => q.1) h)
    · exact List.mem_map_of_mem (fun q => q.1) h
  exact cleanupPass_eq content (upsertAll acc0 bs) (bs.map (fun p => p.1))
    hclean.1 hclean.2 hwfA hndA hkeysA

theorem getUpdatedContent_base (content : List Char) (bs : List (List Char × List Char))
    (hclean : CleanContent content) (hbs : ∀ p ∈ bs, WfBlock p.1 p.2) :
    getUpdatedContent content bs = content ++ blocksText (upsertAll [] bs) := by
  have h := getUpdatedContent_composite content [] bs hclean (by simp) (by simp)
    (by simp) hbs
  rw [blocksText_nil, List.append_nil] at h
  exact h

/-- **C1** (amended): reconciliation is idempotent on the inputs the updater
actually produces — document text containing no `[!example]` callout token
and no `^indexof-` marker, and desired blocks of the canonical shape
`> [!example] …` + `>`-prefixed lines + `> ^indexof-<slug>` whose lines
contain no line terminator, no embedded `[!example]` or `^indexof-` token
and no `$`.  For such inputs, applying `getUpdatedContent` twice with the
same pair list yields the same text as applying it once. -/
theorem claim_C1_idempotent_wf (content : List Char) (bs : List (List Char × List Char))
    (hclean : CleanContent content) (hbs : ∀ p ∈ bs, WfBlock p.1 p.2) :
    getUpdatedContent (getUpdatedContent content bs) bs = getUpdatedContent content bs := by
  rw [getUpdatedContent_base content bs hclean hbs]
  have hwfA : ∀ p ∈ upsertAll [] bs, WfBlock p.1 p.2 := by
    intro p hp
    rcases upsertAll_mem_src bs [] p hp with h | h
    · simp at h
    · exact hbs p h
  have hndA : ((upsertAll [] bs).map (fun p => p.1)).Nodup := upsertAll_nodup bs [] (by simp)
  have hkeysA : ∀ x ∈ (upsertAll [] bs).map (fun p => p.1), x ∈ bs.map (fun p => p.1) := by
    intro x hx
    rw [List.mem_map] at hx
    obtain ⟨p, hp, rfl⟩ := hx
    rcases upsertAll_mem_src bs [] p hp with h | h
    · simp at h
    · exact List.mem_map_of_mem (fun q => q.1) h
  rw [getUpdatedContent_composite content (upsertAll [] bs) bs hclean hwfA hndA hkeysA hbs]
  rw [upsertAll_idem]

theorem claim_C1_idempotent_wf_witness :
    CleanContent [] ∧
    getUpdatedContent
        (getUpdatedContent [] [(indexofLit ++ ['a'], mkBlock [] [] (indexofLit ++ ['a']))])
        [(indexofLit ++ ['a'], mkBlock [] [] (indexofLit ++ ['a']))]
      = getUpdatedContent [] [(indexofLit ++ ['a'], mkBlock [] [] (indexofLit ++ ['a']))] :=
  ⟨⟨by decide, by decide⟩,
    claim_C1_idempotent_wf [] [(indexofLit ++ ['a'], mkBlock [] [] (indexofLit ++ ['a']))]
      ⟨by decide, by decide⟩
      (by
        intro p hp
        rw [List.mem_singleton] at hp
        subst hp
        exact ⟨⟨['a'], rfl, by decide, by decide⟩, [], [], rfl,
          ⟨by decide, by decide, by decide, by decide⟩,
          fun m hm => absurd hm (List.not_mem_nil m)⟩)⟩

/-- **C9** (amended): when the desired-block list contains several
well-formed pairs sharing a block reference (on marker-free,
callout-free content), the final text contains exactly one block matching
that reference, and its text is the `blockText` of the *last* pair with
that reference in the list. -/
theorem claim_C9_duplicate_last_wins (content : List Char)
    (bs : List (List Char × List Char)) (r t : List Char)
    (hclean : CleanContent content) (hbs : ∀ p ∈ bs, WfBlock p.1 p.2)
    (hlast : lastVal bs r = some t) :
    ∃ st, blockMatches r (getUpdatedContent content bs) = [(st, t.length)]
      ∧ ((getUpdatedContent content bs).drop st).take t.length = t := by
  rw [getUpdatedContent_base content bs hclean hbs]
  have hwfA : ∀ p ∈ upsertAll [] bs, WfBlock p.1 p.2 := by
    intro p hp
    rcases upsertAll_mem_src bs [] p hp with h | h
    · simp at h
    · exact hbs p h
  have hndA : ((upsertAll [] bs).map (fun p => p.1)).Nodup := upsertAll_nodup bs [] (by simp)
  have hrkeys : r ∈ (upsertAll [] bs).map (fun p => p.1) := by
    apply upsertAll_keys_sup bs [] r
    exact Or.inr (List.mem_map_of_mem (fun q => q.1) (lastVal_mem bs r t hlast))
  obtain ⟨A1, t0, B1, hdec, hnA1, hnB1⟩ := mem_keys_decomp (upsertAll [] bs) r hndA hrkeys
  have hent : (r, t0) ∈ upsertAll [] bs := by
    rw [hdec]
    exact List.mem_append_right A1 (List.mem_cons_self _ _)
  have ht0 : t0 = t := by
    rcases upsertAll_lastVal bs [] (r, t0) (by simp) hent with h | ⟨_, h⟩
    · rw [hlast] at h
      exact (Option.some.injEq _ _ ▸ h).symm
    · simp at h
  subst ht0
  have href : WfRef r := (hwfA (r, t0) hent).1
  refine ⟨content.length + (blocksText A1).length + 2, ?_, ?_⟩
  · rw [blockMatches_composite r content (upsertAll [] bs) href hclean.1 hwfA, hdec,
      expectedSpans_decomp r t0 A1 B1 content.length hnA1 hnB1]
  · have hsh : content ++ blocksText (upsertAll [] bs)
        = (content ++ blocksText A1 ++ ['\n', '\n']) ++ (t0 ++ blocksText B1) := by
      rw [hdec, blocksText_append, blocksText_cons]
      simp
    rw [hsh, List.drop_left' (by
      simp only [List.length_append, List.length_cons, List.length_nil])]
    rw [List.take_left' rfl]

theorem claim_C9_duplicate_last_wins_witness :
    CleanContent [] ∧
    lastVal [(indexofLit ++ ['a'], mkBlock [' '] [] (indexofLit ++ ['a'])),
        (indexofLit ++ ['a'], mkBlock [] [] (indexofLit ++ ['a']))]
      (indexofLit ++ ['a']) = some (mkBlock [] [] (indexofLit ++ ['a'])) ∧
    (∃ st, blockMatches (indexofLit ++ ['a'])
        (getUpdatedContent []
          [(indexofLit ++ ['a'], mkBlock [' '] [] (indexofLit ++ ['a'])),
           (indexofLit ++ ['a'], mkBlock [] [] (indexofLit ++ ['a']))])
        = [(st, (mkBlock [] [] (indexofLit ++ ['a'])).length)]
      ∧ ((getUpdatedContent []
          [(indexofLit ++ ['a'], mkBlock [' '] [] (indexofLit ++ ['a'])),
           (indexofLit ++ ['a'], mkBlock [] [] (indexofLit ++ ['a']))]).drop st).take
            (mkBlock [] [] (indexofLit ++ ['a'])).length
        = mkBlock [] [] (indexofLit ++ ['a'])) :=
  ⟨⟨by decide, by decide⟩, by decide,
    claim_C9_duplicate_last_wins []
      [(indexofLit ++ ['a'], mkBlock [' '] [] (indexofLit ++ ['a'])),
       (indexofLit ++ ['a'], mkBlock [] [] (indexofLit ++ ['a']))]
      (indexofLit ++ ['a']) (mkBlock [] [] (indexofLit ++ ['a']))
      ⟨by decide, by decide⟩
      (by
        intro p hp
        rcases List.mem_cons.mp hp with rfl | hp'
        · exact ⟨⟨['a'], rfl, by decide, by decide⟩, [' '], [], rfl,
            ⟨by decide, by decide, by decide, by decide⟩,
            fun m hm => absurd hm (List.not_mem_nil m)⟩
        · rw [List.mem_singleton] at hp'
          subst hp'
          exact ⟨⟨['a'], rfl, by decide, by decide⟩, [], [], rfl,
            ⟨by decide, by decide, by decide, by decide⟩,
            fun m hm => absurd hm (List.not_mem_nil m)⟩)
      (by decide)⟩

/-- **C10**: a node stores its header document in a single optional field,
so it holds at most one at any time; adding, at the node's own path, a
non-index document whose formatted file name equals the node's formatted
tag component assigns the field, overwriting any previous value — so after
two such additions the last one is the header document — and changes no
document bucket and no child, so earlier candidates sit in no bucket. -/
theorem claim_C10_header_last_wins (f1 f2 : Nat) (n : Node) (path : List Char)
    (d1 d2 : Doc) (pr1 pr2 : Bool)
    (hpath : canonicalizeTag path = n.tagPath)
    (h1 : filenameToHeader d1.name = tagToHeader n.tagComponent)
    (h2 : filenameToHeader d2.name = tagToHeader n.tagComponent) :
    ((addNoteWithPath (f2 + 1) (addNoteWithPath (f1 + 1) n path d1 pr1 false).1
        path d2 pr2 false).1).headerNote = some d2
    ∧ ((addNoteWithPath (f2 + 1) (addNoteWithPath (f1 + 1) n path d1 pr1 false).1
        path d2 pr2 false).1).regularNotes = n.regularNotes
    ∧ ((addNoteWithPath (f2 + 1) (addNoteWithPath (f1 + 1) n path d1 pr1 false).1
        path d2 pr2 false).1).priorityNotes = n.priorityNotes
    ∧ ((addNoteWithPath (f2 + 1) (addNoteWithPath (f1 + 1) n path d1 pr1 false).1
        path d2 pr2 false).1).indexNotes = n.indexNotes
    ∧ ((addNoteWithPath (f2 + 1) (addNoteWithPath (f1 + 1) n path d1 pr1 false).1
        path d2 pr2 false).1).indexPriorityNotes = n.indexPriorityNotes
    ∧ ((addNoteWithPath (f2 + 1) (addNoteWithPath (f1 + 1) n path d1 pr1 false).1
        path d2 pr2 false).1).children = n.children := by
  obtain ⟨tp, hdr, reg, pri, idx, idxp, cs⟩ := n
  simp only [Node.tagPath] at hpath
  simp only [Node.tagComponent, Node.tagPath] at h1 h2
  have hstep : ∀ (f : Nat) (hdr0 : Option Doc) (d : Doc) (pr : Bool),
      filenameToHeader d.name = tagToHeader (getLastTagComponent tp) →
      addNoteWithPath (f + 1) (Node.mk tp hdr0 reg pri idx idxp cs) path d pr false
        = (Node.mk tp (some d) reg pri idx idxp cs, true) := by
    intro f hdr0 d pr hd
    simp only [addNoteWithPath]
    rw [if_pos hpath, if_neg (by simp), if_neg (by simp), if_pos hd]
  rw [hstep f1 hdr d1 pr1 h1]
  rw [hstep f2 (some d1) d2 pr2 h2]
  exact ⟨rfl, rfl, rfl, rfl, rfl, rfl⟩

theorem claim_C10_header_last_wins_witness :
    canonicalizeTag ['t'] = (Node.mk ['t'] none [] [] [] [] []).tagPath ∧
    filenameToHeader (Doc.mk ['p', '1'] ['t', '.', 'm', 'd']).name
      = tagToHeader (Node.mk ['t'] none [] [] [] [] []).tagComponent ∧
    ((addNoteWithPath 1 (addNoteWithPath 1 (Node.mk ['t'] none [] [] [] [] []) ['t']
        (Doc.mk ['p', '1'] ['t', '.', 'm', 'd']) false false).1 ['t']
        (Doc.mk ['p', '2'] ['t', '.', 'm', 'd']) true false).1).headerNote
      = some (Doc.mk ['p', '2'] ['t', '.', 'm', 'd']) :=
  ⟨by decide, by decide,
    (claim_C10_header_last_wins 0 0 (Node.mk ['t'] none [] [] [] [] []) ['t']
      (Doc.mk ['p', '1'] ['t', '.', 'm', 'd']) (Doc.mk ['p', '2'] ['t', '.', 'm', 'd'])
      false true (by decide) (by decide) (by decide)).1⟩

end IndexNotes
